import Mathlib

/-!
# sss: a shallow embedding of `include/sss.hpp`

The header serialises C++ values into a caller supplied byte span
(`serialize`), computes the byte count beforehand (`serialized_size`) and
reads values back from an advancing read cursor (`deserialize`).  `save` and
`load` are the two facade functions built on top of them.

Modelling conventions.

* A byte is a natural number; a span (`writable_byte_view`, `byte_view`) is the
  list of the bytes it views.  A function that writes through a span returns
  the new contents of that span, of the same length.
* Every access that the C++ abstract machine leaves undefined (indexing a span
  at or past its size, `front()` of an empty span, `subspan` past the end, a
  raw copy longer than the span) is an explicit `Fault`.
* `std::size_t` is 64 bits wide, `int` is 32 bits wide, `CHAR_BIT` is 8 and the
  object representation of integers is little endian two's complement (the
  LP64 targets on which the length prefix has 8 bytes).
* C++ types are the codes of `Ty`, C++ values the terms of `Val`; the static
  type a template is instantiated at is an explicit `Ty` argument where the
  source needs it (`deserialize<T>`).  The types covered are `int`,
  `std::string`, `std::pair`, `std::tuple`, `std::optional`, `std::variant`,
  `std::vector<T>`, `std::vector<bool>`, `std::bitset<N>` and aggregates of
  these.
* The three branches of `serialize`, `serialized_size` and `deserialize` are
  kept: the library types above go to their `serializer` specialisation, `int`
  and the aggregates of trivial type are copied as raw memory, every other
  aggregate is handled field by field.
-/

namespace sss

/-- Undefined behaviour of the abstract machine, made explicit. -/
inductive Fault where
  /-- `buffer[i]` or `buffer.front()` on a span of `size <= i` bytes. -/
  | index (i size : Nat)
  /-- `buffer.subspan(offset)` on a span of `size < offset` bytes. -/
  | subspan (offset size : Nat)
  /-- A raw copy of `count` bytes from or into a span of `size < count` bytes. -/
  | copy (count size : Nat)
  deriving DecidableEq

/-- Number of bits in a byte. -/
abbrev CHAR_BIT : Nat := 8

/-- One more than the largest `std::size_t`, that is 2^64. -/
abbrev SIZE_MOD : Nat := 18446744073709551616

/-- Value of `sizeof(int)`. -/
abbrev sizeof_int : Nat := 4

/-- Value of `sizeof(std::size_t)`. -/
abbrev sizeof_size_t : Nat := 8

/-- Codes of the C++ types covered by the embedding. -/
inductive Ty where
  | int
  | string
  | pair (first second : Ty)
  | tuple (ts : List Ty)
  | optional (t : Ty)
  | variant (ts : List Ty)
  | vector (t : Ty)
  | vector_bool
  | bitset (n : Nat)
  | record (fields : List Ty)

/-- Values of the C++ types of `Ty`.  A `string` holds the byte values of its
`char`s, `nullopt` and `some` are the two states of a `std::optional`, a
`variant` holds the index of its active alternative and that alternative, a
`record` is an aggregate with its fields in declaration order. -/
inductive Val where
  | int (i : Int)
  | string (s : List Nat)
  | pair (first second : Val)
  | tuple (fields : List Val)
  | nullopt
  | some (v : Val)
  | variant (index : Nat) (v : Val)
  | vector (items : List Val)
  | vector_bool (bits : List Bool)
  | bitset (bits : List Bool)
  | record (fields : List Val)

/-! ## Object representations (the trivial strategy) -/

/-- Little endian object representation of an unsigned integer on `w` bytes. -/
def to_le : Nat → Nat → List Nat
  | 0, _ => []
  | w + 1, n => n % 256 :: to_le w (n / 256)

/-- The unsigned integer whose little endian object representation is given. -/
def of_le : List Nat → Nat
  | [] => 0
  | b :: bs => b + 256 * of_le bs

/-- Object representation of an `int`: four bytes, two's complement. -/
def int_repr (i : Int) : List Nat := to_le sizeof_int (i % 4294967296).toNat

/-- The `int` whose object representation is given. -/
def int_of_repr (bytes : List Nat) : Int :=
  if of_le bytes < 2147483648 then (of_le bytes : Int) else (of_le bytes : Int) - 4294967296

/-- Object representation of a `std::size_t`: eight bytes. -/
def size_repr (n : Nat) : List Nat := to_le sizeof_size_t (n % SIZE_MOD)

mutual
/-- The value of `std::is_trivial_v` on the type of a value of the embedding:
`int`, the empty tuple, and aggregates all of whose fields are trivial.  The
other library types have a default constructor that initialises. -/
def Val.is_trivial : Val → Bool
  | .int _ => true
  | .tuple [] => true
  | .record fs => Val.all_trivial fs
  | _ => false
/-- Every value of the list is of a trivial type. -/
def Val.all_trivial : List Val → Bool
  | [] => true
  | f :: fs => f.is_trivial && Val.all_trivial fs
end

mutual
/-- Object representation of a value of a trivial type without padding: an
`int`, or an aggregate of such values laid out in declaration order. -/
def obj_repr : Val → List Nat
  | .int i => int_repr i
  | .record fs => obj_repr_fields fs
  | _ => []
/-- Object representations of consecutive fields. -/
def obj_repr_fields : List Val → List Nat
  | [] => []
  | f :: fs => obj_repr f ++ obj_repr_fields fs
end

mutual
/-- The value of `std::is_trivial_v` on a type code, see `Val.is_trivial`. -/
def Ty.is_trivial : Ty → Bool
  | .int => true
  | .tuple [] => true
  | .record ts => Ty.all_trivial ts
  | _ => false
/-- Every type of the list is trivial. -/
def Ty.all_trivial : List Ty → Bool
  | [] => true
  | t :: ts => t.is_trivial && Ty.all_trivial ts
end

mutual
/-- The value of `sizeof(T)` for a trivial type without padding. -/
def Ty.sizeof : Ty → Nat
  | .int => sizeof_int
  | .record ts => Ty.sizeof_fields ts
  | _ => 0
/-- Sum of the sizes of consecutive fields. -/
def Ty.sizeof_fields : List Ty → Nat
  | [] => 0
  | t :: ts => t.sizeof + Ty.sizeof_fields ts
end

mutual
/-- The value of type default-constructed and value-initialised, as
`std::variant<Ts...> out;` builds its first alternative. -/
def default_value : Ty → Val
  | .int => .int 0
  | .string => .string []
  | .pair a b => .pair (default_value a) (default_value b)
  | .tuple ts => .tuple (default_values ts)
  | .optional _ => .nullopt
  | .variant [] => .variant 0 (.tuple [])
  | .variant (t :: _) => .variant 0 (default_value t)
  | .vector _ => .vector []
  | .vector_bool => .vector_bool []
  | .bitset n => .bitset (List.replicate n false)
  | .record ts => .record (default_values ts)
/-- Default values of consecutive fields. -/
def default_values : List Ty → List Val
  | [] => []
  | t :: ts => default_value t :: default_values ts
end

mutual
/-- The value a trivial type without padding has when its object
representation is `bytes` (the `reinterpret_cast` of `deserialize`). -/
def of_obj_repr : Ty → List Nat → Val
  | .int, bytes => .int (int_of_repr (bytes.take sizeof_int))
  | .record ts, bytes => .record (of_obj_repr_fields ts bytes)
  | t, _ => default_value t
/-- Consecutive fields read from an object representation. -/
def of_obj_repr_fields : List Ty → List Nat → List Val
  | [], _ => []
  | t :: ts, bytes =>
    of_obj_repr t (bytes.take t.sizeof) :: of_obj_repr_fields ts (bytes.drop t.sizeof)
end

/-! ## Spans -/

/-- The call `buffer.subspan(offset)`. -/
def subspan (buffer : List Nat) (offset : Nat) : Except Fault (List Nat) :=
  if offset ≤ buffer.length then .ok (buffer.drop offset)
  else .error (.subspan offset buffer.length)

/-- The trivial branch of `serialize`: `std::ranges::copy(obj_buf, buffer.data())`
followed by `return sizeof(T)`. -/
def copy_to (obj_buf buffer : List Nat) : Except Fault (Nat × List Nat) :=
  if obj_buf.length ≤ buffer.length then
    .ok (obj_buf.length, obj_buf ++ buffer.drop obj_buf.length)
  else .error (.copy obj_buf.length buffer.length)

/-- The trivial branch of `deserialize`: `std::copy_n(buffer.data(), sizeof(T), ptr)`
followed by `buffer = buffer.subspan(sizeof(T))`; returns the bytes copied and
the advanced cursor. -/
def copy_from (size : Nat) (buffer : List Nat) : Except Fault (List Nat × List Nat) :=
  if size ≤ buffer.length then .ok (buffer.take size, buffer.drop size)
  else .error (.copy size buffer.length)

/-- The assignment `buffer[i] = b`. -/
def write_at (buffer : List Nat) (i b : Nat) : Except Fault (List Nat) :=
  if i < buffer.length then .ok (buffer.set i b) else .error (.index i buffer.length)

/-- The read `buffer[i]`. -/
def read_at (buffer : List Nat) (i : Nat) : Except Fault Nat :=
  if i < buffer.length then .ok (buffer.getD i 0) else .error (.index i buffer.length)

/-! ## Bit helpers of `namespace detail` -/

/-- `detail::ceil_divide`: `(a + b - 1) / b` in 64 bit unsigned arithmetic. -/
def ceil_divide (a b : Nat) : Nat := ((a + b + (SIZE_MOD - 1)) % SIZE_MOD) / b

/-- `detail::write_ith_bit`: `buffer[i / CHAR_BIT] |= std::byte(bit << (i % CHAR_BIT))`. -/
def write_ith_bit (i : Nat) (bit : Bool) (buffer : List Nat) : Except Fault (List Nat) :=
  let n_byte := i / CHAR_BIT
  let n_bit := i % CHAR_BIT
  match read_at buffer n_byte with
  | .error e => .error e
  | .ok old => write_at buffer n_byte (old ||| (bit.toNat <<< n_bit))

/-- `detail::read_ith_bit`: `bool(buffer[i / CHAR_BIT] & std::byte(1U << (i % CHAR_BIT)))`. -/
def read_ith_bit (i : Nat) (buffer : List Nat) : Except Fault Bool :=
  let n_byte := i / CHAR_BIT
  let n_bit := i % CHAR_BIT
  match read_at buffer n_byte with
  | .error e => .error e
  | .ok b => .ok (b &&& (1 <<< n_bit) != 0)

/-- The loop `for (i = ...; i < size; ++i) write_ith_bit(i, bool(vec[i]), buffer)`,
entered at index `i` with the bits from `i` on still to write. -/
def write_bits : List Bool → Nat → List Nat → Except Fault (List Nat)
  | [], _, buffer => .ok buffer
  | bit :: bits, i, buffer =>
    match write_ith_bit i bit buffer with
    | .error e => .error e
    | .ok buffer1 => write_bits bits (i + 1) buffer1

/-- The loop `for (i = ...; i < size; ++i) out[i] = read_ith_bit(i, buffer)`,
entered at index `i` with `count` bits still to read. -/
def read_bits : Nat → Nat → List Nat → Except Fault (List Bool)
  | 0, _, _ => .ok []
  | count + 1, i, buffer =>
    match read_ith_bit i buffer with
    | .error e => .error e
    | .ok bit =>
      match read_bits count (i + 1) buffer with
      | .error e => .error e
      | .ok bits => .ok (bit :: bits)

/-! ## `serialize`, `serialized_size`, `save` -/

/-- Object representation of a `char`: one byte. -/
def char_repr (c : Nat) : List Nat := [c % 256]

/-- The range-for of `detail::serialize_container`, and the field loops of the
tuple and aggregate branches, for an element type serialised by `ser`:
`bytes_written += serialize(item, buffer.subspan(bytes_written))`. -/
def serialize_items {α : Type} (ser : α → List Nat → Except Fault (Nat × List Nat)) :
    List α → List Nat → Nat → Except Fault (Nat × List Nat)
  | [], buffer, bytes_written => .ok (bytes_written, buffer)
  | item :: items, buffer, bytes_written =>
    match subspan buffer bytes_written with
    | .error e => .error e
    | .ok sub =>
      match ser item sub with
      | .error e => .error e
      | .ok (n, sub1) =>
        serialize_items ser items (buffer.take bytes_written ++ sub1) (bytes_written + n)

/-- `detail::serialize_container` for an element type serialised by `ser`. -/
def serialize_container {α : Type} (ser : α → List Nat → Except Fault (Nat × List Nat))
    (container : List α) (buffer : List Nat) : Except Fault (Nat × List Nat) :=
  match copy_to (size_repr container.length) buffer with
  | .error e => .error e
  | .ok (bytes_written, buffer1) => serialize_items ser container buffer1 bytes_written

/-- `detail::serialized_container_size` for elements measured by `size_of`. -/
def serialized_container_size {α : Type} (size_of : α → Nat) (container : List α) : Nat :=
  container.foldl (fun s item => s + size_of item) sizeof_size_t

mutual
/-- `sss::serialize`: writes `obj` at the front of `buffer`; returns the byte
count together with the new contents of the span. -/
def serialize : Val → List Nat → Except Fault (Nat × List Nat)
  | .int i, buffer => copy_to (int_repr i) buffer
  | .string s, buffer => serialize_container (fun c b => copy_to (char_repr c) b) s buffer
  | .pair first second, buffer =>
    match serialize first buffer with
    | .error e => .error e
    | .ok (n_1, buffer1) =>
      match subspan buffer1 n_1 with
      | .error e => .error e
      | .ok sub =>
        match serialize second sub with
        | .error e => .error e
        | .ok (n_2, sub1) => .ok (n_1 + n_2, buffer1.take n_1 ++ sub1)
  | .tuple fields, buffer => serialize_fields fields buffer 0
  | .nullopt, buffer =>
    match write_at buffer 0 0 with
    | .error e => .error e
    | .ok buffer1 => .ok (1, buffer1)
  | .some v, buffer =>
    match write_at buffer 0 1 with
    | .error e => .error e
    | .ok buffer1 =>
      match subspan buffer1 1 with
      | .error e => .error e
      | .ok sub =>
        match serialize v sub with
        | .error e => .error e
        | .ok (n, sub1) => .ok (n + 1, buffer1.take 1 ++ sub1)
  | .variant index v, buffer =>
    match write_at buffer 0 (index % 256) with
    | .error e => .error e
    | .ok buffer1 =>
      match subspan buffer1 1 with
      | .error e => .error e
      | .ok sub =>
        match serialize v sub with
        | .error e => .error e
        | .ok (n, sub1) => .ok (1 + n, buffer1.take 1 ++ sub1)
  | .vector items, buffer =>
    match copy_to (size_repr items.length) buffer with
    | .error e => .error e
    | .ok (bytes_written, buffer1) => serialize_fields items buffer1 bytes_written
  | .vector_bool bits, buffer =>
    match copy_to (size_repr bits.length) buffer with
    | .error e => .error e
    | .ok (bytes_written, buffer1) =>
      match subspan buffer1 bytes_written with
      | .error e => .error e
      | .ok sub =>
        let n_bytes := ceil_divide bits.length CHAR_BIT
        match write_at sub ((n_bytes + (SIZE_MOD - 1)) % SIZE_MOD) 0 with
        | .error e => .error e
        | .ok sub1 =>
          match write_bits bits 0 sub1 with
          | .error e => .error e
          | .ok sub2 => .ok (sizeof_size_t + n_bytes, buffer1.take bytes_written ++ sub2)
  | .bitset bits, buffer =>
    let n_bytes := ceil_divide bits.length CHAR_BIT
    match write_bits bits 0 buffer with
    | .error e => .error e
    | .ok buffer1 => .ok (n_bytes, buffer1)
  | .record fields, buffer =>
    if Val.all_trivial fields then copy_to (obj_repr_fields fields) buffer
    else serialize_fields fields buffer 0
/-- The loop `bytes_written += serialize(field, buffer.subspan(bytes_written))`
over the fields of a tuple or aggregate and over the items of a container. -/
def serialize_fields : List Val → List Nat → Nat → Except Fault (Nat × List Nat)
  | [], buffer, bytes_written => .ok (bytes_written, buffer)
  | field :: fields, buffer, bytes_written =>
    match subspan buffer bytes_written with
    | .error e => .error e
    | .ok sub =>
      match serialize field sub with
      | .error e => .error e
      | .ok (n, sub1) =>
        serialize_fields fields (buffer.take bytes_written ++ sub1) (bytes_written + n)
end

mutual
/-- `sss::serialized_size`.  The sums are sizes of objects held in memory and
stay below 2^64. -/
def serialized_size : Val → Nat
  | .int _ => sizeof_int
  | .string s => serialized_container_size (fun _ => 1) s
  | .pair first second => serialized_size first + serialized_size second
  | .tuple fields => serialized_size_fields fields
  | .nullopt => 1
  | .some v => 1 + serialized_size v
  | .variant _ v => 1 + serialized_size v
  | .vector items => sizeof_size_t + serialized_size_fields items
  | .vector_bool bits => sizeof_size_t + ceil_divide bits.length CHAR_BIT
  | .bitset bits => ceil_divide bits.length CHAR_BIT
  | .record fields =>
    if Val.all_trivial fields then (obj_repr_fields fields).length
    else serialized_size_fields fields
/-- The loop `size += serialized_size(field)`. -/
def serialized_size_fields : List Val → Nat
  | [] => 0
  | field :: fields => serialized_size field + serialized_size_fields fields
end

/-- `sss::save`: a zero-initialised buffer of `serialized_size(obj)` bytes,
filled by `serialize`. -/
def save (obj : Val) : Except Fault (List Nat) :=
  let n_bytes := serialized_size obj
  match serialize obj (List.replicate n_bytes 0) with
  | .error e => .error e
  | .ok (_, buffer) => .ok buffer

/-! ## `deserialize`, `load` -/

/-- `detail::container_elements`: the count read from a copy of the cursor. -/
def container_elements (buffer : List Nat) : Except Fault Nat :=
  match copy_from sizeof_size_t buffer with
  | .error e => .error e
  | .ok (bytes, _) => .ok (of_le bytes)

/-- The loop of `detail::deserialize_container`; the items handed to the
callback, in order, and the advanced cursor. -/
def deserialize_items {α : Type} (dec : List Nat → Except Fault (α × List Nat)) :
    Nat → List Nat → Except Fault (List α × List Nat)
  | 0, buffer => .ok ([], buffer)
  | n + 1, buffer =>
    match dec buffer with
    | .error e => .error e
    | .ok (item, buffer1) =>
      match deserialize_items dec n buffer1 with
      | .error e => .error e
      | .ok (items, buffer2) => .ok (item :: items, buffer2)

/-- `detail::deserialize_container` for an element type decoded by `dec`. -/
def deserialize_container {α : Type} (dec : List Nat → Except Fault (α × List Nat))
    (buffer : List Nat) : Except Fault (List α × List Nat) :=
  match copy_from sizeof_size_t buffer with
  | .error e => .error e
  | .ok (bytes, buffer1) => deserialize_items dec (of_le bytes) buffer1

/-- The trivial branch of `deserialize` at type `char`. -/
def deserialize_char (buffer : List Nat) : Except Fault (Nat × List Nat) :=
  match copy_from 1 buffer with
  | .error e => .error e
  | .ok (bytes, buffer1) => .ok (of_le bytes, buffer1)

mutual
/-- `sss::deserialize<T>`: the value read at the front of the cursor and the
advanced cursor. -/
def deserialize : Ty → List Nat → Except Fault (Val × List Nat)
  | .int, buffer =>
    match copy_from sizeof_int buffer with
    | .error e => .error e
    | .ok (bytes, buffer1) => .ok (.int (int_of_repr bytes), buffer1)
  | .string, buffer =>
    match container_elements buffer with
    | .error e => .error e
    | .ok _ =>
      match deserialize_container deserialize_char buffer with
      | .error e => .error e
      | .ok (s, buffer1) => .ok (.string s, buffer1)
  | .pair t u, buffer =>
    match deserialize t buffer with
    | .error e => .error e
    | .ok (first, buffer1) =>
      match deserialize u buffer1 with
      | .error e => .error e
      | .ok (second, buffer2) => .ok (.pair first second, buffer2)
  | .tuple ts, buffer =>
    match deserialize_fields ts buffer with
    | .error e => .error e
    | .ok (fields, buffer1) => .ok (.tuple fields, buffer1)
  | .optional t, buffer =>
    match read_at buffer 0 with
    | .error e => .error e
    | .ok tag =>
      match subspan buffer 1 with
      | .error e => .error e
      | .ok buffer1 =>
        if tag != 0 then
          match deserialize t buffer1 with
          | .error e => .error e
          | .ok (v, buffer2) => .ok (.some v, buffer2)
        else .ok (.nullopt, buffer1)
  | .variant ts, buffer =>
    match read_at buffer 0 with
    | .error e => .error e
    | .ok index =>
      match subspan buffer 1 with
      | .error e => .error e
      | .ok buffer1 => constexpr_for ts 0 index (default_value (.variant ts)) buffer1
  | .vector t, buffer =>
    match container_elements buffer with
    | .error e => .error e
    | .ok _ =>
      match deserialize_container (deserialize t) buffer with
      | .error e => .error e
      | .ok (items, buffer1) => .ok (.vector items, buffer1)
  | .vector_bool, buffer =>
    match copy_from sizeof_size_t buffer with
    | .error e => .error e
    | .ok (bytes, buffer1) =>
      match read_bits (of_le bytes) 0 buffer1 with
      | .error e => .error e
      | .ok bits =>
        match subspan buffer1 (ceil_divide (of_le bytes) CHAR_BIT) with
        | .error e => .error e
        | .ok buffer2 => .ok (.vector_bool bits, buffer2)
  | .bitset n, buffer =>
    match read_bits n 0 buffer with
    | .error e => .error e
    | .ok bits =>
      match subspan buffer (ceil_divide n CHAR_BIT) with
      | .error e => .error e
      | .ok buffer1 => .ok (.bitset bits, buffer1)
  | .record ts, buffer =>
    if Ty.all_trivial ts then
      match copy_from (Ty.sizeof_fields ts) buffer with
      | .error e => .error e
      | .ok (bytes, buffer1) => .ok (.record (of_obj_repr_fields ts bytes), buffer1)
    else
      match deserialize_fields ts buffer with
      | .error e => .error e
      | .ok (fields, buffer1) => .ok (.record fields, buffer1)
/-- The loop `field = deserialize<field type>(buffer)` over the fields of a
tuple or aggregate. -/
def deserialize_fields : List Ty → List Nat → Except Fault (List Val × List Nat)
  | [], buffer => .ok ([], buffer)
  | t :: ts, buffer =>
    match deserialize t buffer with
    | .error e => .error e
    | .ok (field, buffer1) =>
      match deserialize_fields ts buffer1 with
      | .error e => .error e
      | .ok (fields, buffer2) => .ok (field :: fields, buffer2)
/-- `detail::constexpr_for` as the variant decoder runs it over the alternatives
from position `i` on: `if (index == i) out = deserialize<alternative i>(buffer)`.
The alternative types of a variant are distinct, so the assignment makes
alternative `i` the active one. -/
def constexpr_for : List Ty → Nat → Nat → Val → List Nat → Except Fault (Val × List Nat)
  | [], _, _, out, buffer => .ok (out, buffer)
  | t :: ts, i, index, out, buffer =>
    if index = i then
      match deserialize t buffer with
      | .error e => .error e
      | .ok (v, buffer1) => constexpr_for ts (i + 1) index (.variant i v) buffer1
    else constexpr_for ts (i + 1) index out buffer
end

/-- `sss::load<T>`: decodes once from the front of the buffer. -/
def load (T : Ty) (buffer : List Nat) : Except Fault Val :=
  match deserialize T buffer with
  | .error e => .error e
  | .ok (v, _) => .ok v

/-- The aggregate `pre_post<T>{pre, val, post}` of the round trip test. -/
def pre_post (pre : Int) (val : Val) (post : Int) : Val :=
  .record [.int pre, val, .int post]

/-- The type `pre_post<T>`. -/
def Ty.pre_post (T : Ty) : Ty := .record [.int, T, .int]

/-! ## Maps and sets

A `std::map`, `std::set`, `std::unordered_map` or `std::unordered_set` is the
list of its elements in iteration order; the elements of a map are its
`std::pair<const K, V>` entries.  The comparison `less` of the ordered
containers, the key equality `equal` of the unordered ones and the place
`place` a hash table gives a new element in its iteration order belong to the
standard library and are parameters. -/

/-- The key of a map entry: `first` of the `std::pair<const K, V>`. -/
def Val.key : Val → Val
  | .pair first _ => first
  | v => v

/-- The call `out.insert(item)` on a `std::map` or `std::set` ordered by `less`:
the elements stay in ascending key order, and an element whose key is
equivalent to a key already there is not inserted. -/
def ordered_insert (less : Val → Val → Bool) (key : Val → Val) : List Val → Val → List Val
  | [], item => [item]
  | e :: es, item =>
    if less (key item) (key e) then item :: e :: es
    else if less (key e) (key item) then e :: ordered_insert less key es item
    else e :: es

/-- The call `out.insert(item)` on a `std::unordered_map` or `std::unordered_set`:
an element whose key is already there is not inserted. -/
def unordered_insert (equal : Val → Val → Bool) (place : List Val → Val → List Val)
    (key : Val → Val) (out : List Val) (item : Val) : List Val :=
  if out.any (fun e => equal (key e) (key item)) then out else place out item

/-- The `to_bytes` of the four associative containers:
`detail::serialize_container(container, buffer)`. -/
def container_to_bytes (container : List Val) (buffer : List Nat) :
    Except Fault (Nat × List Nat) :=
  serialize_container serialize container buffer

/-- The `size` of the four associative containers:
`detail::serialized_container_size(container)`. -/
def container_size (container : List Val) : Nat :=
  serialized_container_size serialized_size container

/-- `sss::save` at an associative container. -/
def save_container (container : List Val) : Except Fault (List Nat) :=
  let n_bytes := container_size container
  match container_to_bytes container (List.replicate n_bytes 0) with
  | .error e => .error e
  | .ok (_, buffer) => .ok buffer

/-- `serializer<std::map<K, V>>::from_bytes`. -/
def map_from_bytes (less : Val → Val → Bool) (K V : Ty) (buffer : List Nat) :
    Except Fault (List Val × List Nat) :=
  match deserialize_container (deserialize (.pair K V)) buffer with
  | .error e => .error e
  | .ok (items, buffer1) => .ok (items.foldl (ordered_insert less Val.key) [], buffer1)

/-- `serializer<std::set<T>>::from_bytes`. -/
def set_from_bytes (less : Val → Val → Bool) (T : Ty) (buffer : List Nat) :
    Except Fault (List Val × List Nat) :=
  match deserialize_container (deserialize T) buffer with
  | .error e => .error e
  | .ok (items, buffer1) => .ok (items.foldl (ordered_insert less id) [], buffer1)

/-- `serializer<std::unordered_map<K, V>>::from_bytes`. -/
def unordered_map_from_bytes (equal : Val → Val → Bool) (place : List Val → Val → List Val)
    (K V : Ty) (buffer : List Nat) : Except Fault (List Val × List Nat) :=
  match deserialize_container (deserialize (.pair K V)) buffer with
  | .error e => .error e
  | .ok (items, buffer1) =>
    .ok (items.foldl (unordered_insert equal place Val.key) [], buffer1)

/-- `serializer<std::unordered_set<T>>::from_bytes`. -/
def unordered_set_from_bytes (equal : Val → Val → Bool) (place : List Val → Val → List Val)
    (T : Ty) (buffer : List Nat) : Except Fault (List Val × List Nat) :=
  match deserialize_container (deserialize T) buffer with
  | .error e => .error e
  | .ok (items, buffer1) => .ok (items.foldl (unordered_insert equal place id) [], buffer1)

/-- The comparison `std::less` on keys of type `int` and `std::string`. -/
def key_less : Val → Val → Bool
  | .int a, .int b => decide (a < b)
  | .string s, .string t => decide (s < t)
  | _, _ => false

/-- The comparison `std::equal_to` on keys of type `int` and `std::string`. -/
def key_equal : Val → Val → Bool
  | .int a, .int b => decide (a = b)
  | .string s, .string t => decide (s = t)
  | _, _ => false

/-- A hash table that iterates new elements first. -/
def place_front (out : List Val) (item : Val) : List Val := item :: out

/-! ## Temporal adapters

A `std::chrono::duration<Rep, Period>` is its tick count, a
`std::chrono::time_point<Clock, Duration>` its duration since the epoch; `Rep`
is a signed integer type of `w` bytes. -/

/-- A `std::chrono::duration`. -/
structure duration where
  count : Int
  deriving DecidableEq

/-- A `std::chrono::time_point`. -/
structure time_point where
  time_since_epoch : duration
  deriving DecidableEq

/-- Object representation of a signed integer of `w` bytes. -/
def rep_repr (w : Nat) (count : Int) : List Nat :=
  to_le w (count % ((256 ^ w : Nat) : Int)).toNat

/-- The signed integer of `w` bytes whose object representation is given. -/
def rep_of_repr (w : Nat) (bytes : List Nat) : Int :=
  if 2 * of_le bytes < 256 ^ w then (of_le bytes : Int)
  else (of_le bytes : Int) - ((256 ^ w : Nat) : Int)

/-- The trivial branch of `serialize` at the tick type `Rep`. -/
def serialize_rep (w : Nat) (count : Int) (buffer : List Nat) : Except Fault (Nat × List Nat) :=
  copy_to (rep_repr w count) buffer

/-- The trivial branch of `deserialize` at the tick type `Rep`. -/
def deserialize_rep (w : Nat) (buffer : List Nat) : Except Fault (Int × List Nat) :=
  match copy_from w buffer with
  | .error e => .error e
  | .ok (bytes, buffer1) => .ok (rep_of_repr w bytes, buffer1)

/-- `serializer<std::chrono::duration<Rep, Period>>::to_bytes`. -/
def duration_to_bytes (w : Nat) (d : duration) (buffer : List Nat) :
    Except Fault (Nat × List Nat) :=
  serialize_rep w d.count buffer

/-- `serializer<std::chrono::duration<Rep, Period>>::size`: `sizeof(d.count())`. -/
def duration_size (w : Nat) (_d : duration) : Nat := w

/-- `serializer<std::chrono::duration<Rep, Period>>::from_bytes`. -/
def duration_from_bytes (w : Nat) (buffer : List Nat) : Except Fault (duration × List Nat) :=
  match deserialize_rep w buffer with
  | .error e => .error e
  | .ok (count, buffer1) => .ok (⟨count⟩, buffer1)

/-- `serializer<std::chrono::time_point<Clock, Duration>>::to_bytes`. -/
def time_point_to_bytes (w : Nat) (t : time_point) (buffer : List Nat) :
    Except Fault (Nat × List Nat) :=
  serialize_rep w t.time_since_epoch.count buffer

/-- `serializer<std::chrono::time_point<Clock, Duration>>::size`. -/
def time_point_size (w : Nat) (_t : time_point) : Nat := w

/-- `serializer<std::chrono::time_point<Clock, Duration>>::from_bytes`. -/
def time_point_from_bytes (w : Nat) (buffer : List Nat) :
    Except Fault (time_point × List Nat) :=
  match deserialize_rep w buffer with
  | .error e => .error e
  | .ok (count, buffer1) => .ok (⟨⟨count⟩⟩, buffer1)

/-- `sss::save` at a type whose size is `n_bytes` and whose bytes `ser` writes. -/
def save_bytes (n_bytes : Nat) (ser : List Nat → Except Fault (Nat × List Nat)) :
    Except Fault (List Nat) :=
  match ser (List.replicate n_bytes 0) with
  | .error e => .error e
  | .ok (_, buffer) => .ok buffer

/-- `sss::load` at a type decoded by `from_bytes`. -/
def load_bytes {α : Type} (from_bytes : List Nat → Except Fault (α × List Nat))
    (buffer : List Nat) : Except Fault α :=
  match from_bytes buffer with
  | .error e => .error e
  | .ok (v, _) => .ok v

/-! ## The values the theorems range over -/

mutual
/-- A value of a trivial type whose object representation has no padding:
an `int`, or a non-empty aggregate of such values. -/
def Val.flat : Val → Bool
  | .int _ => true
  | .record fs => !fs.isEmpty && Val.flat_all fs
  | _ => false
/-- Every value of the list is `flat`. -/
def Val.flat_all : List Val → Bool
  | [] => true
  | f :: fs => f.flat && Val.flat_all fs
end

mutual
/-- The values a C++ object of the embedded types can hold: an `int` lies in
the range of `int`, a `char` is one byte, the element count of a container fits
`std::size_t` (for the bit containers, so does the count rounded up to whole
bytes), the index of a variant fits its tag byte (variants of at most 256
alternatives, the limit of the format), and an aggregate of trivial type has no
padding. -/
def Val.wf : Val → Bool
  | .int i => decide (-2147483648 ≤ i) && decide (i < 2147483648)
  | .string s => decide (s.length < SIZE_MOD) && s.all (fun c => decide (c < 256))
  | .pair first second => first.wf && second.wf
  | .tuple fields => Val.wf_all fields
  | .nullopt => true
  | .some v => v.wf
  | .variant index v => decide (index < 256) && v.wf
  | .vector items => decide (items.length < SIZE_MOD) && Val.wf_all items
  | .vector_bool bits => decide (bits.length + 7 < SIZE_MOD)
  | .bitset bits => decide (bits.length + 7 < SIZE_MOD)
  | .record fields =>
    Val.wf_all fields && (!Val.all_trivial fields || Val.flat (.record fields))
/-- Every value of the list is `wf`. -/
def Val.wf_all : List Val → Bool
  | [] => true
  | f :: fs => f.wf && Val.wf_all fs
end

mutual
/-- The value `v` is of static type `T`. -/
def has_type : Val → Ty → Bool
  | .int _, .int => true
  | .string _, .string => true
  | .pair first second, .pair t u => has_type first t && has_type second u
  | .tuple fields, .tuple ts => have_types fields ts
  | .nullopt, .optional _ => true
  | .some v, .optional t => has_type v t
  | .variant index v, .variant ts =>
    match ts.get? index with
    | Option.some t => has_type v t
    | Option.none => false
  | .vector items, .vector t => all_have_type items t
  | .vector_bool _, .vector_bool => true
  | .bitset bits, .bitset n => decide (bits.length = n)
  | .record fields, .record ts => have_types fields ts
  | _, _ => false
/-- The fields are, in order, of the types `ts`. -/
def have_types : List Val → List Ty → Bool
  | [], [] => true
  | f :: fs, t :: ts => has_type f t && have_types fs ts
  | _, _ => false
/-- Every item is of type `t`. -/
def all_have_type : List Val → Ty → Bool
  | [], _ => true
  | x :: xs, t => has_type x t && all_have_type xs t
end

mutual
/-- No `std::vector<bool>` inside the value is empty. -/
def Val.no_empty_bits : Val → Bool
  | .pair first second => first.no_empty_bits && second.no_empty_bits
  | .tuple fields => Val.no_empty_bits_all fields
  | .some v => v.no_empty_bits
  | .variant _ v => v.no_empty_bits
  | .vector items => Val.no_empty_bits_all items
  | .vector_bool bits => !bits.isEmpty
  | .record fields => Val.no_empty_bits_all fields
  | _ => true
/-- No `std::vector<bool>` inside the values of the list is empty. -/
def Val.no_empty_bits_all : List Val → Bool
  | [] => true
  | f :: fs => f.no_empty_bits && Val.no_empty_bits_all fs
end

mutual
/-- The types built from `int`, strings, pairs, tuples, optionals, variants and
vectors. -/
def Ty.plain : Ty → Bool
  | .int => true
  | .string => true
  | .pair t u => t.plain && u.plain
  | .tuple ts => Ty.plain_all ts
  | .optional t => t.plain
  | .variant ts => Ty.plain_all ts
  | .vector t => t.plain
  | _ => false
/-- Every type of the list is `plain`. -/
def Ty.plain_all : List Ty → Bool
  | [] => true
  | t :: ts => t.plain && Ty.plain_all ts
end

/-! ## The wire format in the words of the specification -/

/-- The byte of a bit-packed collection at position `j`: bit `k` of the byte
is element `8 * j + k`, least significant bit first; bits past the end of the
collection are zero. -/
def pack_byte (bits : List Bool) (j : Nat) : Nat :=
  (bits.getD (8 * j) false).toNat
    ||| ((bits.getD (8 * j + 1) false).toNat <<< 1)
    ||| ((bits.getD (8 * j + 2) false).toNat <<< 2)
    ||| ((bits.getD (8 * j + 3) false).toNat <<< 3)
    ||| ((bits.getD (8 * j + 4) false).toNat <<< 4)
    ||| ((bits.getD (8 * j + 5) false).toNat <<< 5)
    ||| ((bits.getD (8 * j + 6) false).toNat <<< 6)
    ||| ((bits.getD (8 * j + 7) false).toNat <<< 7)

/-- The `ceil(count / 8)` bytes of a bit-packed collection. -/
def pack_bits (bits : List Bool) : List Nat :=
  (List.range ((bits.length + 7) / 8)).map (pack_byte bits)

mutual
/-- The wire value of the specification: a trivial value is its object
representation; a record, pair or tuple is the concatenation of its fields; a
container is its 8 byte element count followed by its elements; a bit-packed
vector is its count followed by the packed bits, a bit set the packed bits
alone; an optional is the tag byte 0, or the tag byte 1 followed by the
payload; a tagged union is the index byte followed by the active alternative. -/
def wire_value : Val → List Nat
  | .int i => int_repr i
  | .string s => size_repr s.length ++ s.map (fun c => c % 256)
  | .pair first second => wire_value first ++ wire_value second
  | .tuple fields => wire_fields fields
  | .nullopt => [0]
  | .some v => 1 :: wire_value v
  | .variant index v => index % 256 :: wire_value v
  | .vector items => size_repr items.length ++ wire_fields items
  | .vector_bool bits => size_repr bits.length ++ pack_bits bits
  | .bitset bits => pack_bits bits
  | .record fields => wire_fields fields
/-- Concatenation of the wire values of consecutive fields or items. -/
def wire_fields : List Val → List Nat
  | [] => []
  | f :: fs => wire_value f ++ wire_fields fs
end

/-- The call `f buffer` writes an object of `n` bytes: on every region whose
first `n` bytes are `pre` it returns the count `n`, changes no byte after the
first `n`, and over zeroed bytes leaves the bytes `w`. -/
def Writes (f : List Nat → Except Fault (Nat × List Nat)) (n : Nat) (w : List Nat) : Prop :=
  ∀ pre tail : List Nat, pre.length = n →
    ∃ out, out.length = n ∧ f (pre ++ tail) = .ok (n, out ++ tail) ∧
      ((∀ b ∈ pre, b = 0) → out = w)

mutual
/-- The value holds no bit container (`std::vector<bool>`, `std::bitset<N>`). -/
def Val.no_bits : Val → Bool
  | .pair first second => first.no_bits && second.no_bits
  | .tuple fields => Val.no_bits_all fields
  | .some v => v.no_bits
  | .variant _ v => v.no_bits
  | .vector items => Val.no_bits_all items
  | .vector_bool _ => false
  | .bitset _ => false
  | .record fields => Val.no_bits_all fields
  | _ => true
/-- No value of the list holds a bit container. -/
def Val.no_bits_all : List Val → Bool
  | [] => true
  | f :: fs => f.no_bits && Val.no_bits_all fs
end

/-- The call `f buffer` overwrites the first `n` bytes of every region with the
bytes `w`, whatever they held before, returns the count `n` and changes no byte
after the first `n`. -/
def Overwrites (f : List Nat → Except Fault (Nat × List Nat)) (n : Nat) (w : List Nat) : Prop :=
  w.length = n ∧ ∀ pre tail : List Nat, pre.length = n → f (pre ++ tail) = .ok (n, w ++ tail)

/-- Two entries whose keys a `std::map` ordered by `less` takes for the same
key: neither key is less than the other. -/
def key_equiv (less : Val → Val → Bool) (a b : Val) : Prop :=
  less a.key b.key = false ∧ less b.key a.key = false

/-- Entry `e` stands in `items` at a place before which no entry is equivalent
to it. -/
def FirstOccurrence (eqv : Val → Val → Prop) (items : List Val) (e : Val) : Prop :=
  ∃ pre post, items = pre ++ e :: post ∧ ∀ a ∈ pre, ¬ eqv a e

/-! # Theorems -/

/-- Structural induction over values, the fields of tuples, vectors and
records handled through membership. -/
theorem Val.induct {P : Val → Prop}
    (hint : ∀ i, P (.int i)) (hstring : ∀ s, P (.string s))
    (hpair : ∀ a b, P a → P b → P (.pair a b))
    (htuple : ∀ fs, (∀ f ∈ fs, P f) → P (.tuple fs))
    (hnull : P .nullopt) (hsome : ∀ v, P v → P (.some v))
    (hvariant : ∀ i v, P v → P (.variant i v))
    (hvector : ∀ xs, (∀ x ∈ xs, P x) → P (.vector xs))
    (hvbool : ∀ bits, P (.vector_bool bits)) (hbitset : ∀ bits, P (.bitset bits))
    (hrecord : ∀ fs, (∀ f ∈ fs, P f) → P (.record fs)) : ∀ v, P v :=
  @Val.rec P (fun fs => ∀ f ∈ fs, P f) hint hstring hpair htuple hnull hsome hvariant
    hvector hvbool hbitset hrecord
    (fun _ h => by cases h)
    (fun head tail hh ht f hf => by
      rcases List.mem_cons.mp hf with rfl | h
      · exact hh
      · exact ht f h)

/-! ## Object representations and spans -/

theorem to_le_length (w n : Nat) : (to_le w n).length = w := by
  induction w generalizing n with
  | zero => rfl
  | succ w ih => simp [to_le, ih]

theorem of_le_to_le (w n : Nat) : of_le (to_le w n) = n % 256 ^ w := by
  induction w generalizing n with
  | zero => simp [to_le, of_le, Nat.mod_one]
  | succ w ih =>
    simp only [to_le, of_le, ih]
    rw [pow_succ, Nat.mul_comm (256 ^ w) 256, Nat.mod_mul]

theorem size_repr_length (n : Nat) : (size_repr n).length = 8 := to_le_length _ _

theorem int_repr_length (i : Int) : (int_repr i).length = 4 := to_le_length _ _

theorem of_le_size_repr (n : Nat) (h : n < SIZE_MOD) : of_le (size_repr n) = n := by
  unfold size_repr
  rw [of_le_to_le]
  have : (256 : Nat) ^ sizeof_size_t = SIZE_MOD := by norm_num [sizeof_size_t, SIZE_MOD]
  rw [this, Nat.mod_mod, Nat.mod_eq_of_lt h]

theorem int_of_repr_int_repr (i : Int) (h1 : -2147483648 ≤ i) (h2 : i < 2147483648) :
    int_of_repr (int_repr i) = i := by
  unfold int_of_repr int_repr
  rw [of_le_to_le]
  have : (256 : Nat) ^ sizeof_int = 4294967296 := by norm_num [sizeof_int]
  rw [this]
  have hm : (i % 4294967296).toNat < 4294967296 := by omega
  rw [Nat.mod_eq_of_lt hm]
  split <;> omega

theorem subspan_append (pre tail : List Nat) (n : Nat) (h : pre.length = n) :
    subspan (pre ++ tail) n = .ok tail := by
  subst h
  simp [subspan]

theorem copy_to_append (obj pre tail : List Nat) (h : pre.length = obj.length) :
    copy_to obj (pre ++ tail) = .ok (obj.length, obj ++ tail) := by
  unfold copy_to
  rw [if_pos (by simp [h]), ← h, List.drop_left]

theorem copy_from_append (pre rest : List Nat) (n : Nat) (h : pre.length = n) :
    copy_from n (pre ++ rest) = .ok (pre, rest) := by
  subst h
  simp [copy_from]

/-! ## Bit packing -/

theorem read_at_eq (buf : List Nat) (i : Nat) (h : i < buf.length) :
    read_at buf i = .ok (buf.getD i 0) := by
  simp [read_at, h]

theorem write_at_eq (buf : List Nat) (i b : Nat) (h : i < buf.length) :
    write_at buf i b = .ok (buf.set i b) := by
  simp [write_at, h]

theorem testBit_toNat_shift (b : Bool) (s k : Nat) :
    (b.toNat <<< s).testBit k = (decide (k = s) && b) := by
  rw [Nat.testBit_shiftLeft, Nat.testBit_bool_to_nat]
  by_cases hk : s ≤ k
  · by_cases hks : k = s
    · subst hks; simp
    · have : k - s ≠ 0 := by omega
      simp [hk, hks, this]
  · have : k ≠ s := by omega
    simp [hk, this]

theorem and_shift_ne_zero (x s : Nat) : (x &&& (1 <<< s) != 0) = x.testBit s := by
  rw [Nat.one_shiftLeft, Nat.and_two_pow]
  cases h : x.testBit s <;> simp [h]

theorem write_ith_bit_eq (i : Nat) (bit : Bool) (buf : List Nat) (h : i / 8 < buf.length) :
    write_ith_bit i bit buf =
      .ok (buf.set (i / 8) (buf.getD (i / 8) 0 ||| (bit.toNat <<< (i % 8)))) := by
  simp only [write_ith_bit, CHAR_BIT, read_at_eq buf _ h, write_at_eq buf _ _ h]

theorem read_ith_bit_eq (i : Nat) (buf : List Nat) (h : i / 8 < buf.length) :
    read_ith_bit i buf = .ok ((buf.getD (i / 8) 0).testBit (i % 8)) := by
  simp only [read_ith_bit, CHAR_BIT, read_at_eq buf _ h, and_shift_ne_zero]

theorem getD_set (buf : List Nat) (i j b : Nat) (h : i < buf.length) :
    (buf.set i b).getD j 0 = if j = i then b else buf.getD j 0 := by
  simp only [List.getD_eq_getElem?_getD, List.getElem?_set]
  by_cases hji : j = i
  · subst hji; simp [h]
  · have : ¬ i = j := fun h => hji h.symm
    simp [hji, this]

theorem write_bits_spec (bits : List Bool) : ∀ (i : Nat) (buf : List Nat),
    (bits = [] ∨ (i + bits.length - 1) / 8 < buf.length) →
    ∃ out, write_bits bits i buf = .ok out ∧ out.length = buf.length ∧
      ∀ j k, (out.getD j 0).testBit k =
        ((buf.getD j 0).testBit k ||
          (decide (k < 8) && decide (i ≤ 8 * j + k) && bits.getD (8 * j + k - i) false)) := by
  induction bits with
  | nil =>
    intro i buf _
    exact ⟨buf, rfl, rfl, by simp⟩
  | cons b bs ih =>
    intro i buf h
    have hlen : (i + (bs.length + 1) - 1) / 8 < buf.length := by
      rcases h with h | h
      · cases h
      · simpa using h
    have hi : i / 8 < buf.length := by
      have : i / 8 ≤ (i + (bs.length + 1) - 1) / 8 := Nat.div_le_div_right (by omega)
      omega
    have hrec : bs = [] ∨ (i + 1 + bs.length - 1) / 8 < (buf.set (i / 8)
        (buf.getD (i / 8) 0 ||| (b.toNat <<< (i % 8)))).length := by
      right
      rw [List.length_set]
      have : i + 1 + bs.length - 1 = i + (bs.length + 1) - 1 := by omega
      rw [this]; exact hlen
    obtain ⟨out, hout, hl, hbit⟩ := ih (i + 1) _ hrec
    refine ⟨out, ?_, ?_, ?_⟩
    · simp only [write_bits, write_ith_bit_eq i b buf hi, hout]
    · rw [hl, List.length_set]
    · intro j k
      rw [hbit j k, getD_set buf _ _ _ hi]
      by_cases hj : j = i / 8
      · subst hj
        rw [if_pos rfl, Nat.testBit_lor, testBit_toNat_shift]
        by_cases hk : k = i % 8
        · subst hk
          have h1 : 8 * (i / 8) + i % 8 = i := Nat.div_add_mod i 8
          have h2 : i % 8 < 8 := Nat.mod_lt _ (by norm_num)
          simp [h1, h2]
        · by_cases hk8 : k < 8
          · by_cases hle : i + 1 ≤ 8 * (i / 8) + k
            · have h3 : i ≤ 8 * (i / 8) + k := by omega
              have h4 : 8 * (i / 8) + k - i = (8 * (i / 8) + k - (i + 1)) + 1 := by omega
              simp [hk, hk8, hle, h3, h4]
            · have h3 : ¬ i ≤ 8 * (i / 8) + k := by omega
              simp [hk, hk8, hle, h3]
          · simp [hk, hk8]
      · rw [if_neg hj]
        by_cases hk8 : k < 8
        · by_cases hle : i + 1 ≤ 8 * j + k
          · have h3 : i ≤ 8 * j + k := by omega
            have h4 : 8 * j + k - i = (8 * j + k - (i + 1)) + 1 := by omega
            simp [hk8, hle, h3, h4]
          · have h3 : ¬ i ≤ 8 * j + k := by omega
            simp [hk8, hle, h3]
        · simp [hk8]

theorem read_bits_spec (count : Nat) : ∀ (i : Nat) (buf : List Nat),
    (count = 0 ∨ (i + count - 1) / 8 < buf.length) →
    read_bits count i buf =
      .ok ((List.range count).map (fun k => (buf.getD ((i + k) / 8) 0).testBit ((i + k) % 8))) := by
  induction count with
  | zero => intro i buf _; rfl
  | succ n ih =>
    intro i buf h
    have hlen : (i + (n + 1) - 1) / 8 < buf.length := by
      rcases h with h | h
      · cases h
      · exact h
    have hi : i / 8 < buf.length := by
      have : i / 8 ≤ (i + (n + 1) - 1) / 8 := Nat.div_le_div_right (by omega)
      omega
    have hrec : n = 0 ∨ (i + 1 + n - 1) / 8 < buf.length := by
      right
      have : i + 1 + n - 1 = i + (n + 1) - 1 := by omega
      rw [this]; exact hlen
    simp only [read_bits, read_ith_bit_eq i buf hi, ih (i + 1) buf hrec]
    rw [List.range_succ_eq_map]
    simp only [List.map_cons, List.map_map, Nat.add_zero]
    congr 2
    apply List.map_congr_left
    intro k _
    simp only [Function.comp, Nat.succ_eq_add_one]
    have : i + 1 + k = i + (k + 1) := by omega
    rw [this]

theorem testBit_pack_byte (bits : List Bool) (j k : Nat) :
    (pack_byte bits j).testBit k = (decide (k < 8) && bits.getD (8 * j + k) false) := by
  unfold pack_byte
  simp only [Nat.testBit_lor, testBit_toNat_shift, Nat.testBit_bool_to_nat]
  by_cases h0 : k = 0
  · subst h0; simp
  by_cases h1 : k = 1
  · subst h1; simp
  by_cases h2 : k = 2
  · subst h2; simp
  by_cases h3 : k = 3
  · subst h3; simp
  by_cases h4 : k = 4
  · subst h4; simp
  by_cases h5 : k = 5
  · subst h5; simp
  by_cases h6 : k = 6
  · subst h6; simp
  by_cases h7 : k = 7
  · subst h7; simp
  have : ¬ k < 8 := by omega
  simp [h0, h1, h2, h3, h4, h5, h6, h7, this]

theorem ceil_divide_eq (n : Nat) (h : n + 7 < SIZE_MOD) :
    ceil_divide n CHAR_BIT = (n + 7) / 8 := by
  have e : (n + CHAR_BIT + (SIZE_MOD - 1)) % SIZE_MOD = n + 7 := by
    simp only [CHAR_BIT, SIZE_MOD] at h ⊢
    omega
  unfold ceil_divide
  rw [e]

theorem ext_getD (l1 l2 : List Nat) (hl : l1.length = l2.length)
    (h : ∀ j, l1.getD j 0 = l2.getD j 0) : l1 = l2 := by
  apply List.ext_getElem hl
  intro n h1 h2
  have := h n
  simpa [List.getD_eq_getElem?_getD, List.getElem?_eq_getElem h1, List.getElem?_eq_getElem h2]
    using this

theorem getD_pack_bits (bits : List Bool) (j : Nat) (h : j < (bits.length + 7) / 8) :
    (pack_bits bits).getD j 0 = pack_byte bits j := by
  unfold pack_bits
  simp [List.getD_eq_getElem?_getD, List.getElem?_map, List.getElem?_range h]

theorem pack_bits_length (bits : List Bool) : (pack_bits bits).length = (bits.length + 7) / 8 := by
  simp [pack_bits]

/-- Reading back the packed bits. -/
theorem read_bits_pack (bits : List Bool) (rest : List Nat) :
    read_bits bits.length 0 (pack_bits bits ++ rest) = .ok bits := by
  rw [read_bits_spec]
  · congr 1
    apply List.ext_getElem
    · simp
    · intro k h1 h2
      simp only [List.length_map, List.length_range] at h1
      simp only [List.getElem_map, List.getElem_range, Nat.zero_add]
      have hj : k / 8 < (bits.length + 7) / 8 := by omega
      rw [List.getD_append _ _ _ _ (by rw [pack_bits_length]; exact hj), getD_pack_bits _ _ hj,
        testBit_pack_byte]
      have h8 : k % 8 < 8 := Nat.mod_lt _ (by norm_num)
      simp [h8, Nat.div_add_mod, List.getD_eq_getElem?_getD, List.getElem?_eq_getElem h2]
  · by_cases hn : bits.length = 0
    · left; exact hn
    · right
      rw [List.length_append, pack_bits_length]
      omega

/-- Writing the bits over a region whose first `ceil(n / 8)` bytes are `pre`. -/
theorem write_bits_region (bits : List Bool) (pre tail : List Nat)
    (h : pre.length = (bits.length + 7) / 8) :
    ∃ out, out.length = pre.length ∧ write_bits bits 0 (pre ++ tail) = .ok (out ++ tail) ∧
      ((∀ x ∈ pre, x = 0) → out = pack_bits bits) := by
  have hc : bits = [] ∨ (0 + bits.length - 1) / 8 < (pre ++ tail).length := by
    by_cases hn : bits = []
    · left; exact hn
    · right
      have : 0 < bits.length := List.length_pos.mpr hn
      rw [List.length_append]; omega
  obtain ⟨out, hout, hl, hbit⟩ := write_bits_spec bits 0 (pre ++ tail) hc
  have htail : out.drop pre.length = tail := by
    apply ext_getD
    · simp [hl]
    · intro j
      apply Nat.eq_of_testBit_eq
      intro k
      have := hbit (pre.length + j) k
      rw [List.getD_eq_getElem?_getD, List.getElem?_drop, ← List.getD_eq_getElem?_getD, this]
      rw [List.getD_append_right _ _ _ _ (by omega)]
      have e : pre.length + j - pre.length = j := by omega
      rw [e]
      by_cases hk : k < 8
      · have : bits.length ≤ 8 * (pre.length + j) + k := by omega
        simp [List.getD_eq_getElem?_getD, List.getElem?_eq_none this]
      · simp [hk]
  refine ⟨out.take pre.length, ?_, ?_, ?_⟩
  · simp [hl]
  · rw [hout]
    congr 1
    conv_lhs => rw [← List.take_append_drop pre.length out, htail]
  · intro hz
    apply ext_getD
    · simp [hl, pack_bits_length, h]
    · intro j
      by_cases hj : j < pre.length
      · rw [getD_pack_bits _ _ (by omega)]
        apply Nat.eq_of_testBit_eq
        intro k
        have := hbit j k
        rw [List.getD_eq_getElem?_getD, List.getElem?_take_of_lt hj, ← List.getD_eq_getElem?_getD,
          this, testBit_pack_byte, List.getD_append _ _ _ _ hj]
        have hz0 : pre[j]?.getD 0 = 0 := by
          rw [List.getElem?_eq_getElem hj]
          exact hz _ (List.getElem_mem _)
        simp [List.getD_eq_getElem?_getD, hz0]
      · have h1 : (List.take pre.length out).length ≤ j := by simp [hl]; omega
        have h2 : (pack_bits bits).length ≤ j := by rw [pack_bits_length]; omega
        simp [List.getD_eq_getElem?_getD, List.getElem?_eq_none h1, List.getElem?_eq_none h2]

/-! ## Encoding: what `serialize` writes -/

theorem serialize_fields_eq (fs : List Val) : ∀ (buf : List Nat) (bw : Nat),
    serialize_fields fs buf bw = serialize_items serialize fs buf bw := by
  induction fs with
  | nil => intro buf bw; simp [serialize_fields, serialize_items]
  | cons f fs ih =>
    intro buf bw
    simp only [serialize_fields, serialize_items]
    cases subspan buf bw with
    | error e => rfl
    | ok sub =>
      simp only
      cases serialize f sub with
      | error e => rfl
      | ok r => simp only [ih]

theorem serialized_size_fields_eq (fs : List Val) :
    serialized_size_fields fs = (fs.map serialized_size).sum := by
  induction fs with
  | nil => simp [serialized_size_fields]
  | cons f fs ih => simp [serialized_size_fields, ih]

theorem wire_fields_eq (fs : List Val) : wire_fields fs = (fs.map wire_value).flatten := by
  induction fs with
  | nil => simp [wire_fields]
  | cons f fs ih => simp [wire_fields, ih]

theorem wf_all_iff (fs : List Val) : Val.wf_all fs = true ↔ ∀ f ∈ fs, f.wf = true := by
  induction fs with
  | nil => simp [Val.wf_all]
  | cons f fs ih => simp [Val.wf_all, ih]

theorem no_empty_bits_all_iff (fs : List Val) :
    Val.no_empty_bits_all fs = true ↔ ∀ f ∈ fs, f.no_empty_bits = true := by
  induction fs with
  | nil => simp [Val.no_empty_bits_all]
  | cons f fs ih => simp [Val.no_empty_bits_all, ih]

theorem serialize_items_spec {α : Type} (ser : α → List Nat → Except Fault (Nat × List Nat))
    (size : α → Nat) (wire : α → List Nat) (items : List α)
    (h : ∀ x ∈ items, Writes (ser x) (size x) (wire x)) :
    ∀ (done pre tail : List Nat), pre.length = (items.map size).sum →
      ∃ out, out.length = pre.length ∧
        serialize_items ser items (done ++ (pre ++ tail)) done.length =
          .ok (done.length + (items.map size).sum, done ++ (out ++ tail)) ∧
        ((∀ b ∈ pre, b = 0) → out = (items.map wire).flatten) := by
  induction items with
  | nil =>
    intro done pre tail hp
    simp only [List.map_nil, List.sum_nil, List.length_eq_zero] at hp
    subst hp
    exact ⟨[], rfl, by simp [serialize_items], fun _ => by simp⟩
  | cons x xs ih =>
    intro done pre tail hp
    simp only [List.map_cons, List.sum_cons] at hp
    have hx := h x (List.mem_cons_self _ _)
    have hxs : ∀ y ∈ xs, Writes (ser y) (size y) (wire y) :=
      fun y hy => h y (List.mem_cons_of_mem _ hy)
    have h1 : (pre.take (size x)).length = size x := by simp; omega
    have h2 : (pre.drop (size x)).length = (xs.map size).sum := by simp; omega
    obtain ⟨o1, ho1, hs1, hw1⟩ := hx (pre.take (size x)) (pre.drop (size x) ++ tail) h1
    obtain ⟨o2, ho2, hs2, hw2⟩ := ih hxs (done ++ o1) (pre.drop (size x)) tail h2
    refine ⟨o1 ++ o2, ?_, ?_, ?_⟩
    · simp [ho1, ho2, h2]; omega
    · have e1 : done ++ (pre ++ tail) =
          done ++ (pre.take (size x) ++ (pre.drop (size x) ++ tail)) := by
        rw [← List.append_assoc (pre.take _), List.take_append_drop]
      simp only [serialize_items, List.map_cons, List.sum_cons]
      rw [e1, subspan_append done _ _ rfl]
      simp only [hs1]
      rw [List.take_left]
      have e2 : done ++ (o1 ++ (pre.drop (size x) ++ tail)) =
          (done ++ o1) ++ (pre.drop (size x) ++ tail) := by simp
      have e3 : done.length + size x = (done ++ o1).length := by simp [ho1]
      rw [e2, e3, hs2]
      simp [ho1, Nat.add_assoc]
    · intro hz
      have z1 : ∀ b ∈ pre.take (size x), b = 0 := fun b hb => hz b (List.mem_of_mem_take hb)
      have z2 : ∀ b ∈ pre.drop (size x), b = 0 := fun b hb => hz b (List.mem_of_mem_drop hb)
      simp [hw1 z1, hw2 z2]

theorem flat_all_iff (fs : List Val) : Val.flat_all fs = true ↔ ∀ f ∈ fs, f.flat = true := by
  induction fs with
  | nil => simp [Val.flat_all]
  | cons f fs ih => simp [Val.flat_all, ih]

theorem obj_repr_fields_eq (fs : List Val) :
    obj_repr_fields fs = (fs.map obj_repr).flatten := by
  induction fs with
  | nil => simp [obj_repr_fields]
  | cons f fs ih => simp [obj_repr_fields, ih]

theorem obj_repr_flat (v : Val) : v.flat = true → obj_repr v = wire_value v := by
  induction v using Val.induct with
  | hint i => intro _; simp [obj_repr, wire_value]
  | hrecord fs ih =>
    intro h
    simp only [Val.flat, Bool.and_eq_true, flat_all_iff] at h
    simp only [obj_repr, wire_value, obj_repr_fields_eq, wire_fields_eq]
    congr 1
    apply List.map_congr_left
    intro f hf
    exact ih f hf (h.2 f hf)
  | _ => intro h; simp [Val.flat] at h

theorem serialized_container_size_eq {α : Type} (size : α → Nat) (c : List α) :
    serialized_container_size size c = 8 + (c.map size).sum := by
  unfold serialized_container_size
  have : ∀ (l : List α) (a : Nat), l.foldl (fun s item => s + size item) a = a + (l.map size).sum := by
    intro l
    induction l with
    | nil => intro a; simp
    | cons x xs ih => intro a; simp [ih, Nat.add_assoc]
  exact this c _

theorem serialize_container_spec {α : Type} (ser : α → List Nat → Except Fault (Nat × List Nat))
    (size : α → Nat) (wire : α → List Nat) (items : List α)
    (h : ∀ x ∈ items, Writes (ser x) (size x) (wire x)) :
    Writes (serialize_container ser items) (8 + (items.map size).sum)
      (size_repr items.length ++ (items.map wire).flatten) := by
  intro pre tail hp
  have h1 : (pre.take 8).length = (size_repr items.length).length := by
    rw [size_repr_length]; simp; omega
  have h2 : (pre.drop 8).length = (items.map size).sum := by simp; omega
  obtain ⟨out, ho, hs, hw⟩ :=
    serialize_items_spec ser size wire items h (size_repr items.length) (pre.drop 8) tail h2
  refine ⟨size_repr items.length ++ out, ?_, ?_, ?_⟩
  · simp [size_repr_length, ho, h2]
  · have e1 : pre ++ tail = pre.take 8 ++ (pre.drop 8 ++ tail) := by
      rw [← List.append_assoc, List.take_append_drop]
    unfold serialize_container
    rw [e1, copy_to_append _ _ _ h1]
    rw [size_repr_length] at hs
    simp only [hs, size_repr_length, List.append_assoc]
  · intro hz
    have z2 : ∀ b ∈ pre.drop 8, b = 0 := fun b hb => hz b (List.mem_of_mem_drop hb)
    rw [hw z2]

theorem writes_copy_to (obj : List Nat) : Writes (copy_to obj) obj.length obj := by
  intro pre tail hp
  exact ⟨obj, rfl, copy_to_append obj pre tail hp, fun _ => rfl⟩

theorem write_at_zero (x b : Nat) (l : List Nat) : write_at (x :: l) 0 b = .ok (b :: l) := by
  simp [write_at]

theorem subspan_one (x : Nat) (l : List Nat) : subspan (x :: l) 1 = .ok l := by
  simp [subspan]

theorem flatten_singletons (f : Nat → Nat) (s : List Nat) :
    (List.map (fun c => [f c]) s).flatten = s.map f := by
  induction s with
  | nil => rfl
  | cons c cs ih => simp [ih]

theorem writes_fields (fs : List Val)
    (h : ∀ f ∈ fs, Writes (serialize f) (serialized_size f) (wire_value f)) :
    Writes (fun buffer => serialize_fields fs buffer 0) (serialized_size_fields fs)
      (wire_fields fs) := by
  intro pre tail hp
  rw [serialized_size_fields_eq] at hp
  obtain ⟨out, ho, hs, hw⟩ :=
    serialize_items_spec serialize serialized_size wire_value fs h [] pre tail hp
  refine ⟨out, ?_, ?_, ?_⟩
  · rw [ho, hp, serialized_size_fields_eq]
  · simp only [serialize_fields_eq, serialized_size_fields_eq]
    simpa using hs
  · intro hz
    rw [hw hz, wire_fields_eq]

theorem writes_tagged (tag : Nat) (v : Val)
    (h : Writes (serialize v) (serialized_size v) (wire_value v)) :
    ∀ pre tail : List Nat, pre.length = 1 + serialized_size v →
      ∃ out, out.length = serialized_size v ∧
        write_at (pre ++ tail) 0 tag = .ok (tag :: (pre.drop 1 ++ tail)) ∧
        subspan (tag :: (pre.drop 1 ++ tail)) 1 = .ok (pre.drop 1 ++ tail) ∧
        serialize v (pre.drop 1 ++ tail) = .ok (serialized_size v, out ++ tail) ∧
        ((∀ b ∈ pre, b = 0) → out = wire_value v) := by
  intro pre tail hp
  cases pre with
  | nil => simp at hp; omega
  | cons x pre1 =>
    have hp1 : pre1.length = serialized_size v := by simp at hp; omega
    obtain ⟨out, ho, hs, hw⟩ := h pre1 tail hp1
    refine ⟨out, ho, ?_, ?_, ?_, ?_⟩
    · simp [write_at]
    · simp [subspan]
    · simpa using hs
    · intro hz
      exact hw (fun b hb => hz b (List.mem_cons_of_mem _ hb))

/-- On a region of at least `serialized_size v` bytes `serialize` returns the
count `serialized_size v`, leaves the bytes after them unchanged and, over
zeroed bytes, writes the wire value. -/
theorem serialize_writes (v : Val) :
    v.wf = true → v.no_empty_bits = true →
      Writes (serialize v) (serialized_size v) (wire_value v) := by
  induction v using Val.induct with
  | hint i =>
    intro _ _
    have := writes_copy_to (int_repr i)
    rw [int_repr_length] at this
    simpa [serialize, serialized_size, wire_value] using this
  | hstring s =>
    intro _ _
    have := serialize_container_spec (fun c b => copy_to (char_repr c) b) (fun _ => 1)
      (fun c => [c % 256]) s (fun c _ => writes_copy_to (char_repr c))
    rw [flatten_singletons (fun c => c % 256)] at this
    simpa [serialize, serialized_size, wire_value, serialized_container_size_eq] using this
  | hpair a b iha ihb =>
    intro hwf hne
    simp only [Val.wf, Val.no_empty_bits, Bool.and_eq_true] at hwf hne
    have ha := iha hwf.1 hne.1
    have hb := ihb hwf.2 hne.2
    intro pre tail hp
    simp only [serialized_size] at hp ⊢
    have h1 : (pre.take (serialized_size a)).length = serialized_size a := by simp; omega
    have h2 : (pre.drop (serialized_size a)).length = serialized_size b := by simp; omega
    obtain ⟨o1, ho1, hs1, hw1⟩ := ha _ (pre.drop (serialized_size a) ++ tail) h1
    obtain ⟨o2, ho2, hs2, hw2⟩ := hb _ tail h2
    refine ⟨o1 ++ o2, by simp [ho1, ho2], ?_, ?_⟩
    · have e1 : pre ++ tail =
          pre.take (serialized_size a) ++ (pre.drop (serialized_size a) ++ tail) := by
        rw [← List.append_assoc, List.take_append_drop]
      simp only [serialize]
      rw [e1, hs1]
      simp only [subspan_append o1 _ _ ho1, hs2]
      rw [List.take_left' ho1]
      simp
    · intro hz
      have z1 : ∀ x ∈ pre.take (serialized_size a), x = 0 :=
        fun x hx => hz x (List.mem_of_mem_take hx)
      have z2 : ∀ x ∈ pre.drop (serialized_size a), x = 0 :=
        fun x hx => hz x (List.mem_of_mem_drop hx)
      simp [wire_value, hw1 z1, hw2 z2]
  | htuple fs ih =>
    intro hwf hne
    simp only [Val.wf, Val.no_empty_bits, wf_all_iff, no_empty_bits_all_iff] at hwf hne
    have := writes_fields fs (fun f hf => ih f hf (hwf f hf) (hne f hf))
    simpa [serialize, serialized_size, wire_value] using this
  | hnull =>
    intro _ _ pre tail hp
    simp only [serialized_size] at hp
    cases pre with
    | nil => simp at hp
    | cons x pre1 =>
      have : pre1 = [] := by simpa using hp
      subst this
      exact ⟨[0], rfl, by simp [serialize, write_at, serialized_size], fun _ => rfl⟩
  | hsome v ih =>
    intro hwf hne pre tail hp
    simp only [Val.wf, Val.no_empty_bits] at hwf hne
    simp only [serialized_size] at hp
    obtain ⟨out, ho, h1, h2, h3, h4⟩ := writes_tagged 1 v (ih hwf hne) pre tail hp
    refine ⟨1 :: out, by simp [serialized_size, ho]; omega, ?_, ?_⟩
    · simp only [serialize, h1, h2, h3, serialized_size]
      simp [Nat.add_comm]
    · intro hz
      simp [wire_value, h4 hz]
  | hvariant i v ih =>
    intro hwf hne pre tail hp
    simp only [Val.wf, Val.no_empty_bits, Bool.and_eq_true] at hwf hne
    simp only [serialized_size] at hp
    obtain ⟨out, ho, h1, h2, h3, h4⟩ := writes_tagged (i % 256) v (ih hwf.2 hne) pre tail hp
    refine ⟨i % 256 :: out, by simp [serialized_size, ho]; omega, ?_, ?_⟩
    · simp only [serialize, h1, h2, h3, serialized_size]
      simp
    · intro hz
      simp [wire_value, h4 hz]
  | hvector xs ih =>
    intro hwf hne
    simp only [Val.wf, Val.no_empty_bits, wf_all_iff, no_empty_bits_all_iff,
      Bool.and_eq_true] at hwf hne
    have := serialize_container_spec serialize serialized_size wire_value xs
      (fun f hf => ih f hf (hwf.2 f hf) (hne f hf))
    intro pre tail hp
    simp only [serialized_size, serialized_size_fields_eq] at hp ⊢
    obtain ⟨out, ho, hs, hw⟩ := this pre tail hp
    refine ⟨out, ho, ?_, ?_⟩
    · simp only [serialize, serialize_fields_eq]
      exact hs
    · intro hz
      rw [hw hz, wire_value, wire_fields_eq]
  | hvbool bits =>
    intro hwf hne pre tail hp
    simp only [Val.wf, decide_eq_true_eq] at hwf
    simp only [Val.no_empty_bits, Bool.not_eq_true', List.isEmpty_eq_false] at hne
    have hpos : 0 < bits.length := List.length_pos.mpr hne
    simp only [serialized_size, sizeof_size_t, ceil_divide_eq _ hwf] at hp ⊢
    have h1 : (pre.take 8).length = (size_repr bits.length).length := by
      rw [size_repr_length]; simp; omega
    have h2 : (pre.drop 8).length = (bits.length + 7) / 8 := by simp; omega
    have hm : 0 < (bits.length + 7) / 8 := by omega
    have hidx : ((bits.length + 7) / 8 + (SIZE_MOD - 1)) % SIZE_MOD = (bits.length + 7) / 8 - 1 := by
      simp only [SIZE_MOD] at hwf ⊢
      omega
    have hlt : (bits.length + 7) / 8 - 1 < (pre.drop 8).length := by omega
    have h3 : ((pre.drop 8).set ((bits.length + 7) / 8 - 1) 0).length = (bits.length + 7) / 8 := by
      rw [List.length_set]; exact h2
    obtain ⟨out, ho, hs, hw⟩ := write_bits_region bits _ tail h3
    refine ⟨size_repr bits.length ++ out, ?_, ?_, ?_⟩
    · simp [size_repr_length, ho, h2]
    · have e1 : pre ++ tail = pre.take 8 ++ (pre.drop 8 ++ tail) := by
        rw [← List.append_assoc, List.take_append_drop]
      simp only [serialize, ceil_divide_eq _ hwf, hidx]
      rw [e1, copy_to_append _ _ _ h1]
      simp only [subspan_append _ _ _ rfl]
      have hw1 : write_at (pre.drop 8 ++ tail) ((bits.length + 7) / 8 - 1) 0 =
          .ok ((pre.drop 8).set ((bits.length + 7) / 8 - 1) 0 ++ tail) := by
        rw [write_at_eq _ _ _ (by rw [List.length_append]; omega), List.set_append_left _ _ hlt]
      simp only [hw1, hs, List.take_left, sizeof_size_t, List.append_assoc]
    · intro hz
      have z2 : ∀ b ∈ (pre.drop 8).set ((bits.length + 7) / 8 - 1) 0, b = 0 := by
        intro b hb
        rcases List.mem_or_eq_of_mem_set hb with hb | hb
        · exact hz b (List.mem_of_mem_drop hb)
        · exact hb
      rw [hw z2, wire_value]
  | hbitset bits =>
    intro hwf _ pre tail hp
    simp only [Val.wf, decide_eq_true_eq] at hwf
    simp only [serialized_size, ceil_divide_eq _ hwf] at hp ⊢
    obtain ⟨out, ho, hs, hw⟩ := write_bits_region bits pre tail hp
    refine ⟨out, by rw [ho, hp], ?_, ?_⟩
    · simp only [serialize, hs, ceil_divide_eq _ hwf]
    · intro hz
      rw [hw hz, wire_value]
  | hrecord fs ih =>
    intro hwf hne
    simp only [Val.wf, Val.no_empty_bits, wf_all_iff, no_empty_bits_all_iff,
      Bool.and_eq_true, Bool.or_eq_true, Bool.not_eq_true'] at hwf hne
    by_cases ht : Val.all_trivial fs = true
    · have hflat : Val.flat (.record fs) = true := by
        rcases hwf.2 with h | h
        · rw [ht] at h; cases h
        · exact h
      have e := obj_repr_flat _ hflat
      simp only [obj_repr, wire_value] at e
      have := writes_copy_to (obj_repr_fields fs)
      simp only [serialize, serialized_size, wire_value, ht, if_true]
      rw [← e]
      exact this
    · have := writes_fields fs (fun f hf => ih f hf (hwf.1 f hf) (hne f hf))
      simpa [serialize, serialized_size, wire_value, ht] using this

/-! ## Decoding: what `deserialize` reads -/

theorem deserialize_items_spec {α : Type} (dec : List Nat → Except Fault (α × List Nat))
    (wire : α → List Nat) (items : List α)
    (h : ∀ x ∈ items, ∀ rest, dec (wire x ++ rest) = .ok (x, rest)) (rest : List Nat) :
    deserialize_items dec items.length ((items.map wire).flatten ++ rest) = .ok (items, rest) := by
  induction items with
  | nil => simp [deserialize_items]
  | cons x xs ih =>
    have hx := h x (List.mem_cons_self _ _)
    have hxs := ih (fun y hy => h y (List.mem_cons_of_mem _ hy))
    simp only [List.length_cons, deserialize_items, List.map_cons, List.flatten_cons,
      List.append_assoc, hx, hxs]

theorem container_elements_spec (n : Nat) (hn : n < SIZE_MOD) (rest : List Nat) :
    container_elements (size_repr n ++ rest) = .ok n := by
  unfold container_elements
  rw [copy_from_append _ _ _ (size_repr_length n)]
  simp only [of_le_size_repr n hn]

theorem deserialize_container_spec {α : Type} (dec : List Nat → Except Fault (α × List Nat))
    (wire : α → List Nat) (items : List α) (hn : items.length < SIZE_MOD)
    (h : ∀ x ∈ items, ∀ rest, dec (wire x ++ rest) = .ok (x, rest)) (rest : List Nat) :
    deserialize_container dec (size_repr items.length ++ ((items.map wire).flatten ++ rest)) =
      .ok (items, rest) := by
  unfold deserialize_container
  rw [copy_from_append _ _ _ (size_repr_length _)]
  simp only [of_le_size_repr _ hn, deserialize_items_spec dec wire items h rest]

theorem all_have_type_iff (xs : List Val) (t : Ty) :
    all_have_type xs t = true ↔ ∀ x ∈ xs, has_type x t = true := by
  induction xs with
  | nil => simp [all_have_type]
  | cons x xs ih => simp [all_have_type, ih]

theorem deserialize_fields_spec (fs : List Val) : ∀ (ts : List Ty),
    have_types fs ts = true →
    (∀ f ∈ fs, ∀ T, has_type f T = true → ∀ rest, deserialize T (wire_value f ++ rest) = .ok (f, rest)) →
    ∀ rest, deserialize_fields ts (wire_fields fs ++ rest) = .ok (fs, rest) := by
  induction fs with
  | nil =>
    intro ts ht _ rest
    cases ts with
    | nil => simp [deserialize_fields, wire_fields]
    | cons t ts => simp [have_types] at ht
  | cons f fs ih =>
    intro ts ht h rest
    cases ts with
    | nil => simp [have_types] at ht
    | cons t ts =>
      simp only [have_types, Bool.and_eq_true] at ht
      have hf := h f (List.mem_cons_self _ _) t ht.1
      have hfs := ih ts ht.2 (fun g hg => h g (List.mem_cons_of_mem _ hg)) rest
      simp only [deserialize_fields, wire_fields, List.append_assoc, hf, hfs]

theorem constexpr_for_past (ts : List Ty) : ∀ (k index : Nat) (out : Val) (buf : List Nat),
    index < k → constexpr_for ts k index out buf = .ok (out, buf) := by
  induction ts with
  | nil => intro k index out buf _; simp [constexpr_for]
  | cons t ts ih =>
    intro k index out buf h
    have : ¬ index = k := by omega
    simp only [constexpr_for, this, if_false]
    exact ih (k + 1) index out buf (by omega)

theorem constexpr_for_spec (t : Ty) (v : Val) (buf rest : List Nat) (index : Nat)
    (hd : deserialize t buf = .ok (v, rest)) (ts : List Ty) :
    ∀ (k : Nat) (out : Val), k ≤ index → ts.get? (index - k) = some t →
      constexpr_for ts k index out buf = .ok (.variant index v, rest) := by
  induction ts with
  | nil => intro k out _ h; simp at h
  | cons t1 ts ih =>
    intro k out hk h
    by_cases e : index = k
    · subst e
      simp only [Nat.sub_self, List.get?_cons_zero, Option.some.injEq] at h
      subst h
      simp only [constexpr_for, if_true, hd]
      exact constexpr_for_past ts _ _ _ _ (by omega)
    · have e1 : index - k = (index - (k + 1)) + 1 := by omega
      rw [e1, List.get?_cons_succ] at h
      simp only [constexpr_for, e, if_false]
      exact ih (k + 1) out (by omega) h

theorem all_trivial_eq (fs : List Val) : ∀ (ts : List Ty), have_types fs ts = true →
    (∀ f ∈ fs, ∀ T, has_type f T = true → f.is_trivial = T.is_trivial) →
    Val.all_trivial fs = Ty.all_trivial ts := by
  induction fs with
  | nil =>
    intro ts ht _
    cases ts with
    | nil => rfl
    | cons t ts => simp [have_types] at ht
  | cons f fs ih =>
    intro ts ht h
    cases ts with
    | nil => simp [have_types] at ht
    | cons t ts =>
      simp only [have_types, Bool.and_eq_true] at ht
      simp only [Val.all_trivial, Ty.all_trivial, h f (List.mem_cons_self _ _) t ht.1,
        ih ts ht.2 (fun g hg => h g (List.mem_cons_of_mem _ hg))]

theorem is_trivial_eq (v : Val) : ∀ T, has_type v T = true → v.is_trivial = T.is_trivial := by
  induction v using Val.induct with
  | hint i => intro T h; cases T <;> simp [has_type] at h; rfl
  | hstring s => intro T h; cases T <;> simp [has_type] at h; rfl
  | hpair a b _ _ => intro T h; cases T <;> simp [has_type] at h; rfl
  | htuple fs ih =>
    intro T h
    cases T with
    | tuple ts =>
      simp only [has_type] at h
      cases fs with
      | nil =>
        cases ts with
        | nil => rfl
        | cons t ts => simp [have_types] at h
      | cons f fs =>
        cases ts with
        | nil => simp [have_types] at h
        | cons t ts => rfl
    | _ => simp [has_type] at h
  | hnull => intro T h; cases T <;> simp [has_type] at h; rfl
  | hsome v _ => intro T h; cases T <;> simp [has_type] at h; rfl
  | hvariant i v _ => intro T h; cases T <;> simp [has_type] at h; rfl
  | hvector xs _ => intro T h; cases T <;> simp [has_type] at h; rfl
  | hvbool bits => intro T h; cases T <;> simp [has_type] at h; rfl
  | hbitset bits => intro T h; cases T <;> simp [has_type] at h; rfl
  | hrecord fs ih =>
    intro T h
    cases T with
    | record ts =>
      simp only [has_type] at h
      simp only [Val.is_trivial, Ty.is_trivial]
      exact all_trivial_eq fs ts h ih
    | _ => simp [has_type] at h

theorem of_obj_repr_fields_spec (fs : List Val) : ∀ (ts : List Ty), have_types fs ts = true →
    (∀ f ∈ fs, ∀ T, has_type f T = true →
      T.sizeof = (obj_repr f).length ∧ of_obj_repr T (obj_repr f) = f) →
    Ty.sizeof_fields ts = (obj_repr_fields fs).length ∧
      of_obj_repr_fields ts (obj_repr_fields fs) = fs := by
  induction fs with
  | nil =>
    intro ts ht _
    cases ts with
    | nil => exact ⟨rfl, rfl⟩
    | cons t ts => simp [have_types] at ht
  | cons f fs ih =>
    intro ts ht h
    cases ts with
    | nil => simp [have_types] at ht
    | cons t ts =>
      simp only [have_types, Bool.and_eq_true] at ht
      obtain ⟨h1, h2⟩ := h f (List.mem_cons_self _ _) t ht.1
      obtain ⟨h3, h4⟩ := ih ts ht.2 (fun g hg => h g (List.mem_cons_of_mem _ hg))
      constructor
      · simp [Ty.sizeof_fields, obj_repr_fields, h1, h3]
      · simp only [of_obj_repr_fields, obj_repr_fields, h1, List.take_left, List.drop_left, h2, h4]

theorem of_obj_repr_spec (v : Val) : ∀ T, has_type v T = true → v.flat = true → v.wf = true →
    T.sizeof = (obj_repr v).length ∧ of_obj_repr T (obj_repr v) = v := by
  induction v using Val.induct with
  | hint i =>
    intro T h _ hwf
    cases T with
    | int =>
      simp only [Val.wf, Bool.and_eq_true, decide_eq_true_eq] at hwf
      have e : List.take sizeof_int (int_repr i) = int_repr i :=
        List.take_of_length_le (by rw [int_repr_length])
      simp only [Ty.sizeof, obj_repr, of_obj_repr, int_repr_length, e,
        int_of_repr_int_repr i hwf.1 hwf.2, and_self]
    | _ => simp [has_type] at h
  | hrecord fs ih =>
    intro T h hflat hwf
    cases T with
    | record ts =>
      simp only [has_type] at h
      simp only [Val.flat, Bool.and_eq_true, flat_all_iff] at hflat
      simp only [Val.wf, Bool.and_eq_true, wf_all_iff] at hwf
      have := of_obj_repr_fields_spec fs ts h
        (fun f hf T hT => ih f hf T hT (hflat.2 f hf) (hwf.1 f hf))
      simp only [Ty.sizeof, obj_repr, of_obj_repr, this, and_self]
    | _ => simp [has_type] at h
  | _ => intro T _ hflat _; simp [Val.flat] at hflat

theorem map_mod_chars (s : List Nat) (h : s.all (fun c => decide (c < 256)) = true) :
    s.map (fun c => c % 256) = s := by
  induction s with
  | nil => rfl
  | cons c cs ih =>
    simp only [List.all_cons, Bool.and_eq_true, decide_eq_true_eq] at h
    simp only [List.map_cons, Nat.mod_eq_of_lt h.1, ih h.2]

theorem deserialize_char_spec (c : Nat) (rest : List Nat) :
    deserialize_char ([c] ++ rest) = .ok (c, rest) := by
  simp [deserialize_char, copy_from, of_le]

theorem read_at_zero (x : Nat) (l : List Nat) : read_at (x :: l) 0 = .ok x := by
  simp [read_at]

theorem deserialize_bitset_wire (bits : List Bool) (rest : List Nat)
    (hwf : bits.length + 7 < SIZE_MOD) :
    deserialize (.bitset bits.length) (pack_bits bits ++ rest) = .ok (.bitset bits, rest) := by
  rw [deserialize, ceil_divide_eq _ hwf, read_bits_pack,
    subspan_append _ _ _ (pack_bits_length bits)]

theorem deserialize_vector_bool_wire (bits : List Bool) (rest : List Nat)
    (hwf : bits.length + 7 < SIZE_MOD) :
    deserialize .vector_bool (size_repr bits.length ++ (pack_bits bits ++ rest)) =
      .ok (.vector_bool bits, rest) := by
  have hn : bits.length < SIZE_MOD := by omega
  have hlen := size_repr_length bits.length
  have hof := of_le_size_repr _ hn
  generalize size_repr bits.length = pfx at hlen hof ⊢
  rewrite [deserialize, copy_from_append pfx _ 8 hlen]
  dsimp only
  rw [hof, ceil_divide_eq _ hwf, read_bits_pack, subspan_append _ _ _ (pack_bits_length bits)]

/-- Decoding the wire value of a value of type `T`, followed by any bytes,
returns the value and leaves exactly those bytes in the cursor. -/
theorem deserialize_wire (v : Val) : ∀ T, has_type v T = true → v.wf = true →
    ∀ rest, deserialize T (wire_value v ++ rest) = .ok (v, rest) := by
  induction v using Val.induct with
  | hint i =>
    intro T h hwf rest
    cases T with
    | int =>
      simp only [Val.wf, Bool.and_eq_true, decide_eq_true_eq] at hwf
      simp only [deserialize, wire_value, copy_from_append _ _ _ (int_repr_length i),
        int_of_repr_int_repr i hwf.1 hwf.2]
    | _ => simp [has_type] at h
  | hstring s =>
    intro T h hwf rest
    cases T with
    | string =>
      simp only [Val.wf, Bool.and_eq_true, decide_eq_true_eq] at hwf
      have e : s.map (fun c => c % 256) = (s.map (fun c => [c])).flatten := by
        rw [map_mod_chars s hwf.2, flatten_singletons (fun c => c)]; simp
      simp only [deserialize, wire_value, List.append_assoc,
        container_elements_spec _ hwf.1, e,
        deserialize_container_spec deserialize_char (fun c => [c]) s hwf.1
          (fun c _ rest => deserialize_char_spec c rest)]
    | _ => simp [has_type] at h
  | hpair a b iha ihb =>
    intro T h hwf rest
    cases T with
    | pair t u =>
      simp only [has_type, Bool.and_eq_true] at h
      simp only [Val.wf, Bool.and_eq_true] at hwf
      simp only [deserialize, wire_value, List.append_assoc, iha t h.1 hwf.1, ihb u h.2 hwf.2]
    | _ => simp [has_type] at h
  | htuple fs ih =>
    intro T h hwf rest
    cases T with
    | tuple ts =>
      simp only [has_type] at h
      simp only [Val.wf, wf_all_iff] at hwf
      have := deserialize_fields_spec fs ts h
        (fun f hf T hT rest => ih f hf T hT (hwf f hf) rest) rest
      simp only [deserialize, wire_value, this]
    | _ => simp [has_type] at h
  | hnull =>
    intro T h _ rest
    cases T with
    | optional t =>
      simp only [deserialize, wire_value, List.singleton_append, read_at_zero, subspan_one]
      rfl
    | _ => simp [has_type] at h
  | hsome v ih =>
    intro T h hwf rest
    cases T with
    | optional t =>
      simp only [has_type] at h
      simp only [Val.wf] at hwf
      simp only [deserialize, wire_value, List.cons_append, read_at_zero, subspan_one,
        ih t h hwf]
      rfl
    | _ => simp [has_type] at h
  | hvariant i v ih =>
    intro T h hwf rest
    cases T with
    | variant ts =>
      simp only [has_type] at h
      simp only [Val.wf, Bool.and_eq_true, decide_eq_true_eq] at hwf
      cases hg : ts.get? i with
      | none => rw [hg] at h; cases h
      | some t =>
        rw [hg] at h
        have hd : deserialize t (wire_value v ++ rest) = .ok (v, rest) := ih t h hwf.2 rest
        simp only [deserialize, wire_value, List.cons_append, read_at_zero, subspan_one,
          Nat.mod_eq_of_lt hwf.1]
        exact constexpr_for_spec t v _ rest i hd ts 0 _ (Nat.zero_le _) hg
    | _ => simp [has_type] at h
  | hvector xs ih =>
    intro T h hwf rest
    cases T with
    | vector t =>
      simp only [has_type, all_have_type_iff] at h
      simp only [Val.wf, Bool.and_eq_true, decide_eq_true_eq, wf_all_iff] at hwf
      simp only [deserialize, wire_value, List.append_assoc, wire_fields_eq,
        container_elements_spec _ hwf.1,
        deserialize_container_spec (deserialize t) wire_value xs hwf.1
          (fun x hx rest => ih x hx t (h x hx) (hwf.2 x hx) rest)]
    | _ => simp [has_type] at h
  | hvbool bits =>
    intro T h hwf rest
    cases T with
    | vector_bool =>
      simp only [Val.wf, decide_eq_true_eq] at hwf
      rw [wire_value, List.append_assoc]
      exact deserialize_vector_bool_wire bits rest hwf
    | _ => simp [has_type] at h
  | hbitset bits =>
    intro T h hwf rest
    cases T with
    | bitset n =>
      simp only [has_type, decide_eq_true_eq] at h
      subst h
      simp only [Val.wf, decide_eq_true_eq] at hwf
      rw [wire_value]
      exact deserialize_bitset_wire bits rest hwf
    | _ => simp [has_type] at h
  | hrecord fs ih =>
    intro T h hwf rest
    cases T with
    | record ts =>
      simp only [has_type] at h
      simp only [Val.wf, Bool.and_eq_true, Bool.or_eq_true, Bool.not_eq_true', wf_all_iff] at hwf
      have htriv := all_trivial_eq fs ts h (fun f _ T hT => is_trivial_eq f T hT)
      by_cases ht : Val.all_trivial fs = true
      · have hflat : Val.flat (.record fs) = true := by
          rcases hwf.2 with h | h
          · rw [ht] at h; cases h
          · exact h
        have e := obj_repr_flat _ hflat
        simp only [obj_repr, wire_value] at e
        have hf := hflat
        simp only [Val.flat, Bool.and_eq_true, flat_all_iff] at hf
        obtain ⟨h1, h2⟩ := of_obj_repr_fields_spec fs ts h
          (fun f hf1 T hT => of_obj_repr_spec f T hT (hf.2 f hf1) (hwf.1 f hf1))
        rw [htriv] at ht
        simp only [deserialize, wire_value, ht, if_true, ← e,
          copy_from_append _ _ _ h1.symm, h2]
      · rw [htriv] at ht
        have := deserialize_fields_spec fs ts h
          (fun f hf T hT rest => ih f hf T hT (hwf.1 f hf) rest) rest
        simp only [deserialize, wire_value, ht, this]
        rfl
    | _ => simp [has_type] at h

/-! ## The facade: `save` and `load` -/

theorem save_of_writes (v : Val)
    (h : Writes (serialize v) (serialized_size v) (wire_value v)) :
    save v = .ok (wire_value v) ∧ (wire_value v).length = serialized_size v := by
  obtain ⟨out, ho, hs, hw⟩ := h (List.replicate (serialized_size v) 0) [] (by simp)
  have hz : out = wire_value v := hw (fun b hb => (List.mem_replicate.mp hb).2)
  subst hz
  rw [List.append_nil, List.append_nil] at hs
  constructor
  · simp only [save, hs]
  · exact ho

/-- A value without an empty `std::vector<bool>` is saved as its wire value,
of `serialized_size` bytes. -/
theorem save_eq_wire (v : Val) (hwf : v.wf = true) (hne : v.no_empty_bits = true) :
    save v = .ok (wire_value v) ∧ (wire_value v).length = serialized_size v :=
  save_of_writes v (serialize_writes v hwf hne)

theorem plain_all_types (fs : List Val) : ∀ (ts : List Ty), Ty.plain_all ts = true →
    have_types fs ts = true →
    (∀ f ∈ fs, ∀ T, T.plain = true → has_type f T = true → f.no_empty_bits = true) →
    Val.no_empty_bits_all fs = true := by
  induction fs with
  | nil => intro ts _ _ _; rfl
  | cons f fs ih =>
    intro ts hp ht h
    cases ts with
    | nil => simp [have_types] at ht
    | cons t ts =>
      simp only [have_types, Ty.plain_all, Bool.and_eq_true] at ht hp
      simp only [Val.no_empty_bits_all, Bool.and_eq_true]
      exact ⟨h f (List.mem_cons_self _ _) t hp.1 ht.1,
        ih ts hp.2 ht.2 (fun g hg => h g (List.mem_cons_of_mem _ hg))⟩

theorem plain_all_get (ts : List Ty) : ∀ (i : Nat) (t : Ty), Ty.plain_all ts = true →
    ts.get? i = some t → t.plain = true := by
  induction ts with
  | nil => intro i t _ h; simp at h
  | cons t1 ts ih =>
    intro i t hp h
    simp only [Ty.plain_all, Bool.and_eq_true] at hp
    cases i with
    | zero =>
      simp only [List.get?_cons_zero, Option.some.injEq] at h
      subst h; exact hp.1
    | succ i =>
      rw [List.get?_cons_succ] at h
      exact ih i t hp.2 h

/-- A value of a type built from `int`, strings, pairs, tuples, optionals,
variants and vectors holds no `std::vector<bool>`. -/
theorem plain_no_empty_bits (v : Val) : ∀ T, T.plain = true → has_type v T = true →
    v.no_empty_bits = true := by
  induction v using Val.induct with
  | hint i => intro T _ _; rfl
  | hstring s => intro T _ _; rfl
  | hpair a b iha ihb =>
    intro T hp h
    cases T with
    | pair t u =>
      simp only [has_type, Ty.plain, Bool.and_eq_true] at h hp
      simp only [Val.no_empty_bits, Bool.and_eq_true]
      exact ⟨iha t hp.1 h.1, ihb u hp.2 h.2⟩
    | _ => simp [has_type] at h
  | htuple fs ih =>
    intro T hp h
    cases T with
    | tuple ts =>
      simp only [has_type, Ty.plain] at h hp
      simp only [Val.no_empty_bits]
      exact plain_all_types fs ts hp h ih
    | _ => simp [has_type] at h
  | hnull => intro T _ _; rfl
  | hsome v ih =>
    intro T hp h
    cases T with
    | optional t =>
      simp only [has_type, Ty.plain] at h hp
      simp only [Val.no_empty_bits]
      exact ih t hp h
    | _ => simp [has_type] at h
  | hvariant i v ih =>
    intro T hp h
    cases T with
    | variant ts =>
      simp only [has_type, Ty.plain] at h hp
      simp only [Val.no_empty_bits]
      cases hg : ts.get? i with
      | none => rw [hg] at h; cases h
      | some t =>
        rw [hg] at h
        exact ih t (plain_all_get ts i t hp hg) h
    | _ => simp [has_type] at h
  | hvector xs ih =>
    intro T hp h
    cases T with
    | vector t =>
      simp only [has_type, Ty.plain, all_have_type_iff] at h hp
      simp only [Val.no_empty_bits, no_empty_bits_all_iff]
      exact fun x hx => ih x hx t hp (h x hx)
    | _ => simp [has_type] at h
  | hvbool bits =>
    intro T hp h
    cases T <;> simp [has_type, Ty.plain] at h hp
  | hbitset bits => intro T _ _; rfl
  | hrecord fs ih =>
    intro T hp h
    cases T <;> simp [has_type, Ty.plain] at h hp

/-- Saving a value without an empty `std::vector<bool>` and decoding the
bytes, followed by any other bytes, gives the value back and leaves exactly
the other bytes. -/
theorem decode_consumption (v : Val) (T : Ty) (rest : List Nat)
    (ht : has_type v T = true) (hwf : v.wf = true) (hne : v.no_empty_bits = true) :
    ∃ bytes, save v = .ok bytes ∧ bytes.length = serialized_size v ∧
      deserialize T (bytes ++ rest) = .ok (v, rest) ∧ load T (bytes ++ rest) = .ok v := by
  obtain ⟨h1, h2⟩ := save_eq_wire v hwf hne
  have h3 := deserialize_wire v T ht hwf rest
  refine ⟨wire_value v, h1, h2, h3, ?_⟩
  unfold load
  rw [h3]

/-- C1. Round trip inside a record: for every type `T` built from `int`, strings,
pairs, tuples, optionals, variants and vectors, every value `v` of type `T` and
all `pre`, `post` such that the aggregate `{pre, v, post}` is a value of the
embedding (`pre`, `post` and the integers of `v` in the range of `int`, `char`s
bytes, element counts within `std::size_t`, variant indices within the tag byte,
no padding), `load<pre_post<T>>(save({pre, v, post}))` is `{pre, v, post}`. -/
theorem round_trip_pre_post (T : Ty) (v : Val) (pre post : Int)
    (hT : T.plain = true) (hv : has_type v T = true)
    (hwf : (pre_post pre v post).wf = true) :
    ∃ bytes, save (pre_post pre v post) = .ok bytes ∧
      load (Ty.pre_post T) bytes = .ok (pre_post pre v post) := by
  have hne : (pre_post pre v post).no_empty_bits = true := by
    simp only [pre_post, Val.no_empty_bits, Val.no_empty_bits_all, Bool.and_eq_true, and_true,
      true_and]
    exact plain_no_empty_bits v T hT hv
  have ht : has_type (pre_post pre v post) (Ty.pre_post T) = true := by
    simp only [pre_post, Ty.pre_post, has_type, have_types, Bool.and_eq_true, and_true, true_and]
    exact hv
  obtain ⟨bytes, h1, _, _, h4⟩ := decode_consumption _ _ [] ht hwf hne
  rw [List.append_nil] at h4
  exact ⟨bytes, h1, h4⟩

theorem round_trip_pre_post_witness :
    (Ty.variant [.int, .vector (.tuple [.string, .optional .int])]).plain = true ∧
    has_type (.variant 1 (.vector [.tuple [.string [97, 98], .some (.int (-7))],
        .tuple [.string [], .nullopt]]))
      (.variant [.int, .vector (.tuple [.string, .optional .int])]) = true ∧
    (pre_post 10 (.variant 1 (.vector [.tuple [.string [97, 98], .some (.int (-7))],
        .tuple [.string [], .nullopt]])) 20).wf = true ∧
    ∃ bytes, save (pre_post 10 (.variant 1 (.vector [.tuple [.string [97, 98], .some (.int (-7))],
        .tuple [.string [], .nullopt]])) 20) = .ok bytes ∧
      load (Ty.pre_post (.variant [.int, .vector (.tuple [.string, .optional .int])])) bytes =
        .ok (pre_post 10 (.variant 1 (.vector [.tuple [.string [97, 98], .some (.int (-7))],
        .tuple [.string [], .nullopt]])) 20) :=
  ⟨by decide, by decide, by decide, round_trip_pre_post _ _ 10 20 (by decide) (by decide) (by decide)⟩

/-- C8. Optional wire format: an absent optional is saved as the single byte 0
and has size 1; an optional holding `x` is saved as the byte 1 followed by the
bytes `save` gives for `x` (and has no encoding when `x` has none) and has size
`1 + serialized_size(x)`; `some(7)` is saved as `[1]` followed by the four bytes
of 7. -/
theorem optional_wire_format :
    save .nullopt = .ok [0] ∧
    (∀ x : Val, save (.some x) =
      match save x with
      | .ok payload => .ok (1 :: payload)
      | .error e => .error e) ∧
    serialized_size .nullopt = 1 ∧
    (∀ x : Val, serialized_size (.some x) = 1 + serialized_size x) ∧
    save (.some (.int 7)) = .ok [1, 7, 0, 0, 0] := by
  refine ⟨rfl, ?_, rfl, ?_, rfl⟩
  · intro x
    have e : List.replicate (1 + serialized_size x) 0 =
        0 :: List.replicate (serialized_size x) 0 := by
      rw [Nat.add_comm, List.replicate_succ]
    simp only [save, serialized_size, serialize, e, write_at_zero, subspan_one]
    generalize serialize x (List.replicate (serialized_size x) 0) = r
    cases r with
    | error e => rfl
    | ok p => rfl
  · intro x
    simp only [serialized_size]

theorem constexpr_for_dispatch (t : Ty) (buf : List Nat) (index : Nat) (ts : List Ty) :
    ∀ (k : Nat) (out : Val), k ≤ index → ts.get? (index - k) = some t →
      constexpr_for ts k index out buf =
        match deserialize t buf with
        | .ok (v, rest) => .ok (.variant index v, rest)
        | .error e => .error e := by
  induction ts with
  | nil => intro k out _ h; simp at h
  | cons t1 ts ih =>
    intro k out hk h
    by_cases e : index = k
    · subst e
      simp only [Nat.sub_self, List.get?_cons_zero, Option.some.injEq] at h
      subst h
      simp only [constexpr_for, if_true]
      cases hd : deserialize t1 buf with
      | error e => rfl
      | ok p =>
        obtain ⟨v, rest⟩ := p
        exact constexpr_for_past ts _ _ _ _ (by omega)
    · have e1 : index - k = (index - (k + 1)) + 1 := by omega
      rw [e1, List.get?_cons_succ] at h
      simp only [constexpr_for, e, if_false]
      exact ih (k + 1) out (by omega) h

/-- C9. Tagged-union wire format: a variant over at most 256 alternatives holding
`x` at `index` is saved as the byte `index` followed by the bytes `save` gives
for `x` (and has no encoding when `x` has none), its size is
`1 + serialized_size(x)`, and decoding a buffer that starts with the byte
`index` decodes the rest as the alternative at that index and returns it as the
active alternative `index`; `variant<int, string>` holding `"x"` is saved as the
byte 1, the 8 byte length 1 and the byte of `x`. -/
theorem variant_wire_format (ts : List Ty) (index : Nat) (x : Val)
    (hk : ts.length ≤ 256) (hi : index < ts.length) :
    (save (.variant index x) =
      match save x with
      | .ok payload => .ok (index :: payload)
      | .error e => .error e) ∧
    serialized_size (.variant index x) = 1 + serialized_size x ∧
    (∀ (t : Ty) (buffer : List Nat), ts.get? index = some t →
      deserialize (.variant ts) (index :: buffer) =
        match deserialize t buffer with
        | .ok (v, rest) => .ok (.variant index v, rest)
        | .error e => .error e) ∧
    save (.variant 1 (.string [120])) = .ok [1, 1, 0, 0, 0, 0, 0, 0, 0, 120] := by
  have h256 : index % 256 = index := Nat.mod_eq_of_lt (by omega)
  refine ⟨?_, ?_, ?_, rfl⟩
  · have e : List.replicate (1 + serialized_size x) 0 =
        0 :: List.replicate (serialized_size x) 0 := by
      rw [Nat.add_comm, List.replicate_succ]
    simp only [save, serialized_size, serialize, e, write_at_zero, subspan_one, h256]
    generalize serialize x (List.replicate (serialized_size x) 0) = r
    cases r with
    | error e => rfl
    | ok p => rfl
  · simp only [serialized_size]
  · intro t buffer ht
    simp only [deserialize, read_at_zero, subspan_one]
    exact constexpr_for_dispatch t buffer index ts 0 _ (Nat.zero_le _) ht

theorem variant_wire_format_witness :
    [Ty.int, Ty.string].length ≤ 256 ∧ 1 < [Ty.int, Ty.string].length ∧
    ((save (.variant 1 (.string [120])) =
      match save (.string [120]) with
      | .ok payload => .ok (1 :: payload)
      | .error e => .error e) ∧
    serialized_size (.variant 1 (.string [120])) = 1 + serialized_size (.string [120]) ∧
    (∀ (t : Ty) (buffer : List Nat), [Ty.int, Ty.string].get? 1 = some t →
      deserialize (.variant [.int, .string]) (1 :: buffer) =
        match deserialize t buffer with
        | .ok (v, rest) => .ok (.variant 1 v, rest)
        | .error e => .error e) ∧
    save (.variant 1 (.string [120])) = .ok [1, 1, 0, 0, 0, 0, 0, 0, 0, 120]) :=
  ⟨by decide, by decide, variant_wire_format [.int, .string] 1 (.string [120]) (by decide) (by decide)⟩

theorem forall₂_save (items : List Val)
    (h : ∀ x ∈ items, x.wf = true ∧ x.no_empty_bits = true) :
    List.Forall₂ (fun x e => save x = .ok e) items (items.map wire_value) := by
  induction items with
  | nil => exact List.Forall₂.nil
  | cons x xs ih =>
    have hx := h x (List.mem_cons_self _ _)
    exact List.Forall₂.cons (save_eq_wire x hx.1 hx.2).1
      (ih (fun y hy => h y (List.mem_cons_of_mem _ hy)))

/-- C7. Container wire format: a string is saved as the 8 byte encoding of its
size followed by its `char`s, a vector (the generic `std::vector<T>`) as the
8 byte encoding of its size followed by the bytes `save` gives for each of its
elements, in order (elements representable and free of empty
`std::vector<bool>`, which have no encoding); `serialized_size` is 8 plus the sum
of the element sizes; `save("")` is eight zero bytes, from which `load<string>`
gives the empty string. -/
theorem container_wire_format (s : List Nat) (items : List Val)
    (hs : ∀ c ∈ s, c < 256)
    (hitems : ∀ x ∈ items, x.wf = true ∧ x.no_empty_bits = true) :
    (size_repr s.length).length = 8 ∧ (size_repr items.length).length = 8 ∧
    save (.string s) = .ok (size_repr s.length ++ s) ∧
    serialized_size (.string s) = 8 + s.length ∧
    (∃ encodings : List (List Nat),
      List.Forall₂ (fun x e => save x = .ok e) items encodings ∧
      save (.vector items) = .ok (size_repr items.length ++ encodings.flatten)) ∧
    serialized_size (.vector items) = 8 + (items.map serialized_size).sum ∧
    save (.string []) = .ok [0, 0, 0, 0, 0, 0, 0, 0] ∧
    load .string [0, 0, 0, 0, 0, 0, 0, 0] = .ok (.string []) := by
  have hall : s.all (fun c => decide (c < 256)) = true := by
    simpa [List.all_eq_true] using hs
  have hstr := save_of_writes (.string s)
    (by
      have := serialize_container_spec (fun c b => copy_to (char_repr c) b) (fun _ => 1)
        (fun c => [c % 256]) s (fun c _ => writes_copy_to (char_repr c))
      rw [flatten_singletons (fun c => c % 256)] at this
      simpa [serialize, serialized_size, wire_value, serialized_container_size_eq] using this)
  have hvec := save_of_writes (.vector items)
    (by
      have := serialize_container_spec serialize serialized_size wire_value items
        (fun x hx => serialize_writes x (hitems x hx).1 (hitems x hx).2)
      intro pre tail hp
      simp only [serialized_size, serialized_size_fields_eq] at hp ⊢
      obtain ⟨out, ho, hs, hw⟩ := this pre tail hp
      refine ⟨out, ho, ?_, ?_⟩
      · simp only [serialize, serialize_fields_eq]
        exact hs
      · intro hz
        rw [hw hz, wire_value, wire_fields_eq])
  refine ⟨size_repr_length _, size_repr_length _, ?_, ?_,
    ⟨items.map wire_value, forall₂_save items hitems, ?_⟩, ?_, rfl, rfl⟩
  · rw [hstr.1, wire_value, map_mod_chars s hall]
  · simp [serialized_size, serialized_container_size_eq]
  · rw [hvec.1, wire_value, wire_fields_eq]
  · simp only [serialized_size, serialized_size_fields_eq]

theorem container_wire_format_witness :
    (∀ c ∈ [97, 98, 99], c < 256) ∧
    (∀ x ∈ [Val.string [97], Val.some (.int 5), Val.vector_bool [true]],
      x.wf = true ∧ x.no_empty_bits = true) ∧
    ((size_repr [97, 98, 99].length).length = 8 ∧
    (size_repr [Val.string [97], Val.some (.int 5), Val.vector_bool [true]].length).length = 8 ∧
    save (.string [97, 98, 99]) = .ok (size_repr [97, 98, 99].length ++ [97, 98, 99]) ∧
    serialized_size (.string [97, 98, 99]) = 8 + [97, 98, 99].length ∧
    (∃ encodings : List (List Nat),
      List.Forall₂ (fun x e => save x = .ok e)
        [Val.string [97], Val.some (.int 5), Val.vector_bool [true]] encodings ∧
      save (.vector [Val.string [97], Val.some (.int 5), Val.vector_bool [true]]) =
        .ok (size_repr [Val.string [97], Val.some (.int 5), Val.vector_bool [true]].length ++
          encodings.flatten)) ∧
    serialized_size (.vector [Val.string [97], Val.some (.int 5), Val.vector_bool [true]]) =
      8 + ([Val.string [97], Val.some (.int 5), Val.vector_bool [true]].map serialized_size).sum ∧
    save (.string []) = .ok [0, 0, 0, 0, 0, 0, 0, 0] ∧
    load .string [0, 0, 0, 0, 0, 0, 0, 0] = .ok (.string [])) :=
  ⟨by decide, by decide,
    container_wire_format [97, 98, 99] [Val.string [97], Val.some (.int 5), Val.vector_bool [true]]
      (by decide) (by decide)⟩

/-- On a region of at least `serialized_size v` bytes, `serialize` of a value
without an empty `std::vector<bool>` returns `serialized_size v`, keeps the
length of the region and changes no byte at an index from `serialized_size v`
on. -/
theorem serialize_region (v : Val) (region : List Nat)
    (hwf : v.wf = true) (hne : v.no_empty_bits = true)
    (hlen : serialized_size v ≤ region.length) :
    ∃ out, serialize v region = .ok (serialized_size v, out) ∧ out.length = region.length ∧
      ∀ i, serialized_size v ≤ i → out.getD i 0 = region.getD i 0 := by
  obtain ⟨o, ho, hs, _⟩ := serialize_writes v hwf hne (region.take (serialized_size v))
    (region.drop (serialized_size v)) (by simp; omega)
  rw [List.take_append_drop] at hs
  refine ⟨o ++ region.drop (serialized_size v), hs, by simp [ho]; omega, ?_⟩
  intro i hi
  rw [List.getD_append_right _ _ _ _ (by omega), ho]
  simp only [List.getD_eq_getElem?_getD, List.getElem?_drop]
  congr 2
  omega

/-- The bytes `save` gives for a non-empty `std::vector<bool>`: the 8 byte
count, then `ceil(n / 8)` bytes whose bit `i mod 8` of byte `i div 8` is
element `i`. -/
theorem save_vector_bool (bits : List Bool) (h0 : bits ≠ [])
    (hn : bits.length + 7 < SIZE_MOD) :
    ∃ packed, save (.vector_bool bits) = .ok (size_repr bits.length ++ packed) ∧
      packed.length = (bits.length + 7) / 8 ∧
      ∀ i, i < bits.length → (packed.getD (i / 8) 0).testBit (i % 8) = bits.getD i false := by
  have hwf : (Val.vector_bool bits).wf = true := by simp [Val.wf, hn]
  have hne : (Val.vector_bool bits).no_empty_bits = true := by simp [Val.no_empty_bits, h0]
  refine ⟨pack_bits bits, ?_, pack_bits_length bits, ?_⟩
  · rw [(save_eq_wire _ hwf hne).1, wire_value]
  · intro i hi
    rw [getD_pack_bits _ _ (by omega), testBit_pack_byte]
    have h8 : i % 8 < 8 := Nat.mod_lt _ (by norm_num)
    simp [h8, Nat.div_add_mod]

/-- Round trip of a non-empty `std::vector<bool>`, alone and as the middle field
of `pre_post`. -/
theorem vector_bool_round_trip (bits : List Bool) (pre post : Int) (h0 : bits ≠ [])
    (hn : bits.length + 7 < SIZE_MOD)
    (hpre : -2147483648 ≤ pre ∧ pre < 2147483648)
    (hpost : -2147483648 ≤ post ∧ post < 2147483648) :
    (∃ bytes, save (.vector_bool bits) = .ok bytes ∧
      load .vector_bool bytes = .ok (.vector_bool bits)) ∧
    (∃ bytes, save (pre_post pre (.vector_bool bits) post) = .ok bytes ∧
      load (Ty.pre_post .vector_bool) bytes = .ok (pre_post pre (.vector_bool bits) post)) := by
  have hwf : (Val.vector_bool bits).wf = true := by simp [Val.wf, hn]
  have hne : (Val.vector_bool bits).no_empty_bits = true := by simp [Val.no_empty_bits, h0]
  constructor
  · obtain ⟨bytes, h1, _, _, h4⟩ := decode_consumption (.vector_bool bits) .vector_bool [] rfl hwf hne
    rw [List.append_nil] at h4
    exact ⟨bytes, h1, h4⟩
  · have hwf2 : (pre_post pre (.vector_bool bits) post).wf = true := by
      simp [pre_post, Val.wf, Val.wf_all, Val.all_trivial, Val.is_trivial, hn, hpre.1, hpre.2,
        hpost.1, hpost.2]
    have hne2 : (pre_post pre (.vector_bool bits) post).no_empty_bits = true := by
      simp [pre_post, Val.no_empty_bits, Val.no_empty_bits_all, h0]
    obtain ⟨bytes, h1, _, _, h4⟩ :=
      decode_consumption (pre_post pre (.vector_bool bits) post) (Ty.pre_post .vector_bool) []
        rfl hwf2 hne2
    rw [List.append_nil] at h4
    exact ⟨bytes, h1, h4⟩

/-! ## The empty `std::vector<bool>` -/

theorem ceil_divide_zero : ceil_divide 0 CHAR_BIT = 0 := by decide

theorem serialize_empty_vector_bool (region : List Nat) (h8 : 8 ≤ region.length)
    (hmax : region.length < SIZE_MOD) :
    serialize (.vector_bool []) region =
      .error (.index 18446744073709551615 (region.length - 8)) := by
  obtain ⟨pre, tail, rfl, hpre⟩ : ∃ pre tail, region = pre ++ tail ∧ pre.length = 8 :=
    ⟨region.take 8, region.drop 8, (List.take_append_drop 8 region).symm, by simp; omega⟩
  have hl : pre.length = (size_repr 0).length := by rw [size_repr_length, hpre]
  have hidx : (0 + (SIZE_MOD - 1)) % SIZE_MOD = 18446744073709551615 := by decide
  have hd : (pre ++ tail).length - 8 = tail.length := by simp [hpre]
  have hw : write_at tail 18446744073709551615 0 =
      .error (.index 18446744073709551615 tail.length) := by
    unfold write_at
    rw [if_neg]
    rw [List.length_append, hpre] at hmax
    simp only [SIZE_MOD] at hmax
    omega
  rw [serialize, List.length_nil, ceil_divide_zero, copy_to_append _ _ _ hl, hd]
  simp only [size_repr_length, subspan_append (size_repr 0) tail 8 (size_repr_length 0), hidx, hw]

/-! ## Which values have an encoding -/

theorem copy_to_ok (obj buf : List Nat) (n : Nat) (out : List Nat)
    (h : copy_to obj buf = .ok (n, out)) : out.length = buf.length := by
  unfold copy_to at h
  split at h
  · rename_i hle
    simp only [Except.ok.injEq, Prod.mk.injEq] at h
    rw [← h.2]
    simp
    omega
  · cases h

theorem subspan_ok (buf : List Nat) (k : Nat) (sub : List Nat)
    (h : subspan buf k = .ok sub) : k ≤ buf.length ∧ sub = buf.drop k := by
  unfold subspan at h
  split at h
  · rename_i hle
    simp only [Except.ok.injEq] at h
    exact ⟨hle, h.symm⟩
  · cases h

theorem write_at_ok (buf : List Nat) (i b : Nat) (out : List Nat)
    (h : write_at buf i b = .ok out) : out.length = buf.length := by
  unfold write_at at h
  split at h
  · simp only [Except.ok.injEq] at h
    rw [← h, List.length_set]
  · cases h

theorem write_ith_bit_ok (i : Nat) (bit : Bool) (buf out : List Nat)
    (h : write_ith_bit i bit buf = .ok out) : out.length = buf.length := by
  unfold write_ith_bit at h
  dsimp only at h
  split at h
  · cases h
  · exact write_at_ok _ _ _ _ h

theorem write_bits_ok (bits : List Bool) : ∀ (i : Nat) (buf out : List Nat),
    write_bits bits i buf = .ok out → out.length = buf.length := by
  induction bits with
  | nil =>
    intro i buf out h
    simp only [write_bits, Except.ok.injEq] at h
    rw [h]
  | cons b bs ih =>
    intro i buf out h
    rw [write_bits] at h
    split at h
    · cases h
    · rename_i b1 hb
      rw [ih _ _ _ h, write_ith_bit_ok _ _ _ _ hb]

theorem serialize_items_ok {α : Type} (ser : α → List Nat → Except Fault (Nat × List Nat))
    (items : List α)
    (hser : ∀ x ∈ items, ∀ buf n out, ser x buf = .ok (n, out) → out.length = buf.length) :
    ∀ (buf : List Nat) (bw n : Nat) (out : List Nat),
      serialize_items ser items buf bw = .ok (n, out) → out.length = buf.length := by
  induction items with
  | nil =>
    intro buf bw n out h
    simp only [serialize_items, Except.ok.injEq, Prod.mk.injEq] at h
    rw [h.2]
  | cons x xs ih =>
    intro buf bw n out h
    rw [serialize_items] at h
    split at h
    · cases h
    · rename_i sub hsub
      split at h
      · cases h
      · rename_i k sub1 hx
        obtain ⟨hle, rfl⟩ := subspan_ok _ _ _ hsub
        have h1 := hser x (List.mem_cons_self _ _) _ _ _ hx
        have h2 := ih (fun y hy => hser y (List.mem_cons_of_mem _ hy)) _ _ _ _ h
        rw [h2]
        simp [h1]
        omega

/-- Whenever `serialize` returns, the span has kept its length. -/
theorem serialize_length (v : Val) : ∀ (buf : List Nat) (n : Nat) (out : List Nat),
    serialize v buf = .ok (n, out) → out.length = buf.length := by
  induction v using Val.induct with
  | hint i =>
    intro buf n out h
    rw [serialize] at h
    exact copy_to_ok _ _ _ _ h
  | hstring s =>
    intro buf n out h
    rw [serialize, serialize_container] at h
    split at h
    · cases h
    · rename_i bw b1 hc
      rw [serialize_items_ok _ s (fun c _ buf n out hc => copy_to_ok _ _ _ _ hc) _ _ _ _ h,
        copy_to_ok _ _ _ _ hc]
  | hpair a b iha ihb =>
    intro buf n out h
    rw [serialize] at h
    split at h
    · cases h
    · rename_i n1 b1 ha
      split at h
      · cases h
      · rename_i sub hsub
        split at h
        · cases h
        · rename_i n2 sub1 hb
          obtain ⟨hle, rfl⟩ := subspan_ok _ _ _ hsub
          simp only [Except.ok.injEq, Prod.mk.injEq] at h
          rw [← h.2, ← iha _ _ _ ha]
          have := ihb _ _ _ hb
          simp [this]
          omega
  | htuple fs ih =>
    intro buf n out h
    rw [serialize, serialize_fields_eq] at h
    exact serialize_items_ok serialize fs ih _ _ _ _ h
  | hnull =>
    intro buf n out h
    rw [serialize] at h
    split at h
    · cases h
    · rename_i b1 hw
      simp only [Except.ok.injEq, Prod.mk.injEq] at h
      rw [← h.2, write_at_ok _ _ _ _ hw]
  | hsome v ih =>
    intro buf n out h
    rw [serialize] at h
    split at h
    · cases h
    · rename_i b1 hw
      split at h
      · cases h
      · rename_i sub hsub
        split at h
        · cases h
        · rename_i n2 sub1 hb
          obtain ⟨hle, rfl⟩ := subspan_ok _ _ _ hsub
          simp only [Except.ok.injEq, Prod.mk.injEq] at h
          rw [← h.2, ← write_at_ok _ _ _ _ hw]
          have := ih _ _ _ hb
          simp [this]
          omega
  | hvariant i v ih =>
    intro buf n out h
    rw [serialize] at h
    split at h
    · cases h
    · rename_i b1 hw
      split at h
      · cases h
      · rename_i sub hsub
        split at h
        · cases h
        · rename_i n2 sub1 hb
          obtain ⟨hle, rfl⟩ := subspan_ok _ _ _ hsub
          simp only [Except.ok.injEq, Prod.mk.injEq] at h
          rw [← h.2, ← write_at_ok _ _ _ _ hw]
          have := ih _ _ _ hb
          simp [this]
          omega
  | hvector xs ih =>
    intro buf n out h
    rw [serialize] at h
    split at h
    · cases h
    · rename_i bw b1 hc
      rw [serialize_fields_eq] at h
      rw [serialize_items_ok serialize xs ih _ _ _ _ h, copy_to_ok _ _ _ _ hc]
  | hvbool bits =>
    intro buf n out h
    rw [serialize] at h
    generalize ceil_divide bits.length CHAR_BIT = nb at h
    split at h
    · cases h
    · rename_i bw b1 hc
      split at h
      · cases h
      · rename_i sub hsub
        dsimp only at h
        generalize (nb + (SIZE_MOD - 1)) % SIZE_MOD = idx at h
        split at h
        · cases h
        · rename_i sub1 hw
          split at h
          · cases h
          · rename_i sub2 hb
            obtain ⟨hle, rfl⟩ := subspan_ok _ _ _ hsub
            simp only [Except.ok.injEq, Prod.mk.injEq] at h
            rw [← h.2, ← copy_to_ok _ _ _ _ hc]
            have h1 := write_bits_ok _ _ _ _ hb
            have h2 := write_at_ok _ _ _ _ hw
            simp [h1, h2]
            omega
  | hbitset bits =>
    intro buf n out h
    rw [serialize] at h
    generalize ceil_divide bits.length CHAR_BIT = nb at h
    split at h
    · cases h
    · rename_i b1 hb
      simp only [Except.ok.injEq, Prod.mk.injEq] at h
      rw [← h.2, write_bits_ok _ _ _ _ hb]
  | hrecord fs ih =>
    intro buf n out h
    rw [serialize] at h
    split at h
    · exact copy_to_ok _ _ _ _ h
    · rw [serialize_fields_eq] at h
      exact serialize_items_ok serialize fs ih _ _ _ _ h

theorem serialize_items_faults {α : Type} (ser : α → List Nat → Except Fault (Nat × List Nat))
    (items : List α)
    (hlen : ∀ x ∈ items, ∀ buf n out, ser x buf = .ok (n, out) → out.length = buf.length)
    (hbad : ∃ x ∈ items, ∀ buf : List Nat, buf.length < SIZE_MOD → ∃ e, ser x buf = .error e) :
    ∀ (buf : List Nat) (bw : Nat), buf.length < SIZE_MOD →
      ∃ e, serialize_items ser items buf bw = .error e := by
  induction items with
  | nil =>
    obtain ⟨x, hx, _⟩ := hbad
    cases hx
  | cons x xs ih =>
    intro buf bw hb
    rw [serialize_items]
    split
    · exact ⟨_, rfl⟩
    · rename_i sub hsub
      obtain ⟨hle, rfl⟩ := subspan_ok _ _ _ hsub
      split
      · exact ⟨_, rfl⟩
      · rename_i k sub1 hx
        have hl := hlen x (List.mem_cons_self _ _) _ _ _ hx
        obtain ⟨y, hy, hyb⟩ := hbad
        rcases List.mem_cons.mp hy with rfl | hy
        · obtain ⟨e, he⟩ := hyb (buf.drop bw) (by simp; omega)
          rw [he] at hx
          cases hx
        · apply ih (fun z hz => hlen z (List.mem_cons_of_mem _ hz)) ⟨y, hy, hyb⟩
          simp [hl]
          omega

theorem exists_bad_of_all (fs : List Val) (h : Val.no_empty_bits_all fs = false) :
    ∃ f ∈ fs, f.no_empty_bits = false := by
  induction fs with
  | nil => simp [Val.no_empty_bits_all] at h
  | cons f fs ih =>
    simp only [Val.no_empty_bits_all, Bool.and_eq_false_iff] at h
    rcases h with h | h
    · exact ⟨f, List.mem_cons_self _ _, h⟩
    · obtain ⟨g, hg, hgb⟩ := ih h
      exact ⟨g, List.mem_cons_of_mem _ hg, hgb⟩

theorem trivial_no_empty_bits (v : Val) : v.is_trivial = true → v.no_empty_bits = true := by
  induction v using Val.induct with
  | hrecord fs ih =>
    intro h
    simp only [Val.is_trivial] at h
    simp only [Val.no_empty_bits, no_empty_bits_all_iff]
    intro f hf
    have : ∀ (gs : List Val), Val.all_trivial gs = true → ∀ g ∈ gs, g.is_trivial = true := by
      intro gs
      induction gs with
      | nil => intro _ g hg; cases hg
      | cons a as iha =>
        intro hall g hg
        simp only [Val.all_trivial, Bool.and_eq_true] at hall
        rcases List.mem_cons.mp hg with rfl | hg
        · exact hall.1
        · exact iha hall.2 g hg
    exact ih f hf (this fs h f hf)
  | htuple fs ih =>
    intro h
    cases fs with
    | nil => rfl
    | cons f fs => simp [Val.is_trivial] at h
  | _ => intro _; first | rfl | (rename_i h; simp [Val.is_trivial] at h)

theorem serialize_fields_faults (fs : List Val)
    (ih : ∀ f ∈ fs, f.no_empty_bits = false →
      ∀ buf : List Nat, buf.length < SIZE_MOD → ∃ e, serialize f buf = .error e)
    (h : Val.no_empty_bits_all fs = false) :
    ∀ (buf : List Nat) (bw : Nat), buf.length < SIZE_MOD →
      ∃ e, serialize_fields fs buf bw = .error e := by
  intro buf bw hb
  rw [serialize_fields_eq]
  obtain ⟨f, hf, hfb⟩ := exists_bad_of_all fs h
  exact serialize_items_faults serialize fs (fun x _ => serialize_length x)
    ⟨f, hf, ih f hf hfb⟩ buf bw hb

/-- A value that holds an empty `std::vector<bool>` cannot be serialised: on
every span `serialize` stops at an access outside the span. -/
theorem serialize_faults (v : Val) : v.no_empty_bits = false →
    ∀ buf : List Nat, buf.length < SIZE_MOD → ∃ e, serialize v buf = .error e := by
  induction v using Val.induct with
  | hint i => intro h; simp [Val.no_empty_bits] at h
  | hstring s => intro h; simp [Val.no_empty_bits] at h
  | hpair a b iha ihb =>
    intro h buf hb
    simp only [Val.no_empty_bits, Bool.and_eq_false_iff] at h
    rw [serialize]
    split
    · exact ⟨_, rfl⟩
    · rename_i n1 b1 ha
      split
      · exact ⟨_, rfl⟩
      · rename_i sub hsub
        split
        · exact ⟨_, rfl⟩
        · rename_i n2 sub1 hbb
          obtain ⟨hle, rfl⟩ := subspan_ok _ _ _ hsub
          have hl := serialize_length a _ _ _ ha
          rcases h with h | h
          · obtain ⟨e, he⟩ := iha h buf hb
            rw [he] at ha; cases ha
          · obtain ⟨e, he⟩ := ihb h (b1.drop n1) (by simp; omega)
            rw [he] at hbb; cases hbb
  | htuple fs ih =>
    intro h buf hb
    simp only [Val.no_empty_bits] at h
    rw [serialize]
    exact serialize_fields_faults fs ih h buf 0 hb
  | hnull => intro h; simp [Val.no_empty_bits] at h
  | hsome v ih =>
    intro h buf hb
    simp only [Val.no_empty_bits] at h
    rw [serialize]
    split
    · exact ⟨_, rfl⟩
    · rename_i b1 hw
      split
      · exact ⟨_, rfl⟩
      · rename_i sub hsub
        split
        · exact ⟨_, rfl⟩
        · rename_i n2 sub1 hbb
          obtain ⟨hle, rfl⟩ := subspan_ok _ _ _ hsub
          have hl := write_at_ok _ _ _ _ hw
          obtain ⟨e, he⟩ := ih h (b1.drop 1) (by simp; omega)
          rw [he] at hbb; cases hbb
  | hvariant i v ih =>
    intro h buf hb
    simp only [Val.no_empty_bits] at h
    rw [serialize]
    split
    · exact ⟨_, rfl⟩
    · rename_i b1 hw
      split
      · exact ⟨_, rfl⟩
      · rename_i sub hsub
        split
        · exact ⟨_, rfl⟩
        · rename_i n2 sub1 hbb
          obtain ⟨hle, rfl⟩ := subspan_ok _ _ _ hsub
          have hl := write_at_ok _ _ _ _ hw
          obtain ⟨e, he⟩ := ih h (b1.drop 1) (by simp; omega)
          rw [he] at hbb; cases hbb
  | hvector xs ih =>
    intro h buf hb
    simp only [Val.no_empty_bits] at h
    rw [serialize]
    split
    · exact ⟨_, rfl⟩
    · rename_i bw b1 hc
      have hl := copy_to_ok _ _ _ _ hc
      exact serialize_fields_faults xs ih h b1 bw (by omega)
  | hvbool bits =>
    intro h buf hb
    simp only [Val.no_empty_bits, Bool.not_eq_false', List.isEmpty_iff] at h
    subst h
    by_cases h8 : 8 ≤ buf.length
    · exact ⟨_, serialize_empty_vector_bool buf h8 hb⟩
    · rw [serialize]
      have : copy_to (size_repr ([] : List Bool).length) buf =
          .error (.copy 8 buf.length) := by
        unfold copy_to
        rw [size_repr_length, if_neg (by omega)]
      rw [this]
      exact ⟨_, rfl⟩
  | hbitset bits => intro h; simp [Val.no_empty_bits] at h
  | hrecord fs ih =>
    intro h buf hb
    simp only [Val.no_empty_bits] at h
    rw [serialize]
    split
    · rename_i ht
      have := trivial_no_empty_bits (.record fs) (by simpa [Val.is_trivial] using ht)
      simp only [Val.no_empty_bits] at this
      rw [this] at h
      cases h
    · exact serialize_fields_faults fs ih h buf 0 hb

/-- The values `save` gives bytes for are exactly those without an empty
`std::vector<bool>`, and the bytes are then the wire value. -/
theorem save_ok_iff (v : Val) (bytes : List Nat) (hwf : v.wf = true)
    (hsz : serialized_size v < SIZE_MOD) :
    save v = .ok bytes ↔ (v.no_empty_bits = true ∧ bytes = wire_value v) := by
  constructor
  · intro h
    cases hne : v.no_empty_bits with
    | true =>
      rw [(save_eq_wire v hwf hne).1] at h
      simp only [Except.ok.injEq] at h
      exact ⟨rfl, h.symm⟩
    | false =>
      obtain ⟨e, he⟩ := serialize_faults v hne (List.replicate (serialized_size v) 0)
        (by simpa using hsz)
      simp only [save, he] at h
      cases h
  · rintro ⟨hne, rfl⟩
    exact (save_eq_wire v hwf hne).1

/-- C2 (decode consumption) at the failing input `std::vector<bool>{}`: `save`
runs into the out-of-bounds write of `to_bytes` (index 2^64 - 1 of an empty
span) and yields no bytes for `deserialize` to consume; `deserialize` itself,
run on the wire value the format prescribes for the empty vector (eight zero
bytes) followed by any bytes, returns the empty vector and leaves those
bytes. -/
theorem decode_consumption_empty_vector_bool :
    save (.vector_bool []) = .error (.index 18446744073709551615 0) ∧
    ∀ rest : List Nat,
      deserialize .vector_bool ([0, 0, 0, 0, 0, 0, 0, 0] ++ rest) = .ok (.vector_bool [], rest) :=
  ⟨rfl, fun rest => deserialize_wire (.vector_bool []) .vector_bool rfl (by decide) rest⟩

/-- C3 (size/encode consistency) at the failing input `std::vector<bool>{}`:
its `serialized_size` is 8, and on every region of at least 8 bytes (of a
length a span can have) `serialize` returns no count: it stops at the write
`buffer[n_bytes - 1]` with `n_bytes = 0`. -/
theorem size_encode_empty_vector_bool (region : List Nat)
    (hlen : serialized_size (.vector_bool []) ≤ region.length)
    (hmax : region.length < SIZE_MOD) :
    serialized_size (.vector_bool []) = 8 ∧
    ∀ (count : Nat) (out : List Nat), serialize (.vector_bool []) region ≠ .ok (count, out) := by
  have h8 : serialized_size (.vector_bool []) = 8 := by decide
  refine ⟨h8, ?_⟩
  intro count out h
  rw [serialize_empty_vector_bool region (by omega) hmax] at h
  cases h

theorem size_encode_empty_vector_bool_witness :
    serialized_size (.vector_bool []) ≤ (List.replicate 16 0).length ∧
    (List.replicate 16 0).length < SIZE_MOD ∧
    (serialized_size (.vector_bool []) = 8 ∧
    ∀ (count : Nat) (out : List Nat),
      serialize (.vector_bool []) (List.replicate 16 0) ≠ .ok (count, out)) :=
  ⟨by decide, by decide, size_encode_empty_vector_bool (List.replicate 16 0) (by decide) (by decide)⟩

/-- C4 (no write past the end of the region) at the failing input
`std::vector<bool>{}`: on a region of exactly `serialized_size` bytes the write
`buffer[n_bytes - 1] = std::byte(0)` of `to_bytes` is at index 2^64 - 1 of the
span left after the count, whose length is 0. -/
theorem write_past_end_empty_vector_bool (region : List Nat)
    (hlen : region.length = serialized_size (.vector_bool [])) :
    serialize (.vector_bool []) region = .error (.index 18446744073709551615 0) := by
  have h8 : serialized_size (.vector_bool []) = 8 := by decide
  rw [h8] at hlen
  have := serialize_empty_vector_bool region (by omega) (by rw [hlen]; decide)
  rw [this, hlen]

theorem write_past_end_empty_vector_bool_witness :
    (List.replicate 8 0).length = serialized_size (.vector_bool []) ∧
    serialize (.vector_bool []) (List.replicate 8 0) = .error (.index 18446744073709551615 0) :=
  ⟨by decide, write_past_end_empty_vector_bool (List.replicate 8 0) (by decide)⟩

/-- C5 (bit-packed round trip at every length) at the failing length `n = 0`:
`save` of the empty `std::vector<bool>` does not succeed, alone or as the middle
field of `pre_post` between two `int`s; at the lengths 9 (the vector of the
test) and 65 `save` succeeds and `load` gives the vector back. -/
theorem bit_packed_round_trip_empty :
    save (.vector_bool []) = .error (.index 18446744073709551615 0) ∧
    save (pre_post 10 (.vector_bool []) 20) = .error (.index 18446744073709551615 4) ∧
    save (.vector_bool [true, false, true, true, false, false, false, true, true]) =
      .ok [9, 0, 0, 0, 0, 0, 0, 0, 141, 1] ∧
    load .vector_bool [9, 0, 0, 0, 0, 0, 0, 0, 141, 1] =
      .ok (.vector_bool [true, false, true, true, false, false, false, true, true]) ∧
    save (.vector_bool (List.replicate 65 true)) =
      .ok [65, 0, 0, 0, 0, 0, 0, 0, 255, 255, 255, 255, 255, 255, 255, 255, 1] ∧
    load .vector_bool [65, 0, 0, 0, 0, 0, 0, 0, 255, 255, 255, 255, 255, 255, 255, 255, 1] =
      .ok (.vector_bool (List.replicate 65 true)) :=
  ⟨rfl, rfl, rfl, rfl, rfl, rfl⟩

/-- C6 (`save` returns `serialized_size` bytes) at the failing input
`std::vector<bool>{}`: `serialized_size` is 8 and `save` returns no buffer; for
the scalar 42 `save` returns its four bytes and `load<int>` gives 42 back. -/
theorem save_length_empty_vector_bool :
    serialized_size (.vector_bool []) = 8 ∧
    (∀ bytes : List Nat, save (.vector_bool []) ≠ .ok bytes) ∧
    save (.int 42) = .ok [42, 0, 0, 0] ∧
    load .int [42, 0, 0, 0] = .ok (.int 42) := by
  refine ⟨by decide, ?_, rfl, rfl⟩
  intro bytes h
  have e : save (.vector_bool []) = .error (.index 18446744073709551615 0) := rfl
  rw [e] at h
  cases h

/-- C10 (bit-packed wire format) at the failing length `n = 0`: `save` of the
empty `std::vector<bool>` is not the 8 byte count 0 followed by no bytes, it
stops at an out-of-bounds write; the nine element vector `[T,F,T,T,F,F,F,T,T]`
is saved as the count 9 followed by `0b10001101`, `0b00000001`. -/
theorem bit_packed_format_empty :
    save (.vector_bool []) ≠ .ok (size_repr 0) ∧
    save (.vector_bool []) = .error (.index 18446744073709551615 0) ∧
    save (.vector_bool [true, false, true, true, false, false, false, true, true]) =
      .ok (size_repr 9 ++ [0b10001101, 0b00000001]) := by
  refine ⟨?_, rfl, rfl⟩
  intro h
  have e : save (.vector_bool []) = .error (.index 18446744073709551615 0) := rfl
  rw [e] at h
  cases h

/-! ## Bit sets, variant and optional tags -/

/-- C11. Fixed-width bit set: for every width `N` (whose byte count
`ceil_divide(N, CHAR_BIT)` does not wrap) and every `std::bitset<N>` `b`,
`save(b)` is exactly `ceil(N / 8)` bytes, the size `serialized_size` gives, with
no length prefix; bit `i mod 8` of byte `i div 8` is `b[i]` for every `i < N`;
`load<bitset<N>>(save(b))` is `b`; the 9-bit set `"101100011"` of the test is
saved inside `pre_post` as the two bytes 99, 1 between the two `int`s and
loaded back. -/
theorem bitset_wire_format (bits : List Bool) (hN : bits.length + 7 < SIZE_MOD) :
    (∃ bytes, save (.bitset bits) = .ok bytes ∧
      bytes.length = (bits.length + 7) / 8 ∧
      serialized_size (.bitset bits) = (bits.length + 7) / 8 ∧
      (∀ i, i < bits.length → (bytes.getD (i / 8) 0).testBit (i % 8) = bits.getD i false) ∧
      load (.bitset bits.length) bytes = .ok (.bitset bits)) ∧
    save (pre_post 10 (.bitset [true, true, false, false, false, true, true, false, true]) 20) =
      .ok [10, 0, 0, 0, 99, 1, 20, 0, 0, 0] ∧
    load (Ty.pre_post (.bitset 9)) [10, 0, 0, 0, 99, 1, 20, 0, 0, 0] =
      .ok (pre_post 10 (.bitset [true, true, false, false, false, true, true, false, true]) 20) := by
  have hwf : (Val.bitset bits).wf = true := by simp [Val.wf, hN]
  have hne : (Val.bitset bits).no_empty_bits = true := rfl
  have hty : has_type (.bitset bits) (.bitset bits.length) = true := by simp [has_type]
  obtain ⟨h1, h2⟩ := save_eq_wire _ hwf hne
  have h3 := deserialize_wire _ _ hty hwf []
  rw [List.append_nil] at h3
  rw [wire_value] at h1 h3
  refine ⟨⟨pack_bits bits, h1, pack_bits_length bits, ?_, ?_, ?_⟩, rfl, rfl⟩
  · rw [serialized_size, ceil_divide_eq _ hN]
  · intro i hi
    rw [getD_pack_bits _ _ (by omega), testBit_pack_byte]
    have h8 : i % 8 < 8 := Nat.mod_lt _ (by norm_num)
    simp [h8, Nat.div_add_mod]
  · unfold load
    rw [h3]

theorem bitset_wire_format_witness :
    [true, false, true].length + 7 < SIZE_MOD ∧
    ((∃ bytes, save (.bitset [true, false, true]) = .ok bytes ∧
      bytes.length = ([true, false, true].length + 7) / 8 ∧
      serialized_size (.bitset [true, false, true]) = ([true, false, true].length + 7) / 8 ∧
      (∀ i, i < [true, false, true].length →
        (bytes.getD (i / 8) 0).testBit (i % 8) = [true, false, true].getD i false) ∧
      load (.bitset [true, false, true].length) bytes = .ok (.bitset [true, false, true])) ∧
    save (pre_post 10 (.bitset [true, true, false, false, false, true, true, false, true]) 20) =
      .ok [10, 0, 0, 0, 99, 1, 20, 0, 0, 0] ∧
    load (Ty.pre_post (.bitset 9)) [10, 0, 0, 0, 99, 1, 20, 0, 0, 0] =
      .ok (pre_post 10 (.bitset [true, true, false, false, false, true, true, false, true]) 20)) :=
  ⟨by decide, bitset_wire_format [true, false, true] (by decide)⟩

theorem constexpr_for_beyond (ts : List Ty) : ∀ (k index : Nat) (out : Val) (buf : List Nat),
    k + ts.length ≤ index → constexpr_for ts k index out buf = .ok (out, buf) := by
  induction ts with
  | nil => intro k index out buf _; simp [constexpr_for]
  | cons t ts ih =>
    intro k index out buf h
    simp only [List.length_cons] at h
    have : ¬ index = k := by omega
    simp only [constexpr_for, this, if_false]
    exact ih (k + 1) index out buf (by omega)

/-- C16. Out-of-range union tag: for a variant type with `k >= 1` alternatives
and a buffer whose first byte is a value `>= k`, decoding reports no fault,
returns the default-constructed variant (alternative 0 holding its default
value) and leaves the cursor just after that one byte. -/
theorem variant_tag_out_of_range (t : Ty) (ts : List Ty) (tag : Nat) (rest : List Nat)
    (h : (t :: ts).length ≤ tag) :
    deserialize (.variant (t :: ts)) (tag :: rest) = .ok (.variant 0 (default_value t), rest) := by
  simp only [deserialize, read_at_zero, subspan_one, default_value]
  exact constexpr_for_beyond (t :: ts) 0 tag _ rest (by omega)

theorem variant_tag_out_of_range_witness :
    (Ty.int :: [Ty.string]).length ≤ 7 ∧
    deserialize (.variant (.int :: [.string])) (7 :: [1, 0, 0, 0, 0, 0, 0, 0, 120]) =
      .ok (.variant 0 (default_value .int), [1, 0, 0, 0, 0, 0, 0, 0, 120]) :=
  ⟨by decide, variant_tag_out_of_range .int [.string] 7 [1, 0, 0, 0, 0, 0, 0, 0, 120] (by decide)⟩

/-- C17. Optional decoding treats every non-zero tag byte as present: for a tag
`t != 0`, decoding `optional<T>` from `t` followed by `p` gives the same result
(value and remaining cursor, or fault) as decoding from 1 followed by `p`, and
that result is never the absent optional; the tag 0 gives the absent optional
and leaves `p`, one byte consumed. -/
theorem optional_tag_nonzero (T : Ty) (t : Nat) (p : List Nat) (ht : t ≠ 0) :
    deserialize (.optional T) (t :: p) = deserialize (.optional T) (1 :: p) ∧
    (∀ rest, deserialize (.optional T) (t :: p) ≠ .ok (.nullopt, rest)) ∧
    deserialize (.optional T) (0 :: p) = .ok (.nullopt, p) := by
  have e : ∀ tag, tag ≠ 0 → deserialize (.optional T) (tag :: p) =
      match deserialize T p with
      | .error e => .error e
      | .ok (v, buffer2) => .ok (.some v, buffer2) := by
    intro tag htag
    simp only [deserialize, read_at_zero, subspan_one, bne_iff_ne, ne_eq, htag,
      not_false_eq_true, if_true]
  refine ⟨?_, ?_, ?_⟩
  · rw [e t ht, e 1 (by decide)]
  · intro rest hr
    rw [e t ht] at hr
    split at hr
    · cases hr
    · cases hr
  · simp only [deserialize, read_at_zero, subspan_one]
    rfl

theorem optional_tag_nonzero_witness :
    (255 : Nat) ≠ 0 ∧
    (deserialize (.optional .int) (255 :: [7, 0, 0, 0, 9]) =
      deserialize (.optional .int) (1 :: [7, 0, 0, 0, 9]) ∧
    (∀ rest, deserialize (.optional .int) (255 :: [7, 0, 0, 0, 9]) ≠ .ok (.nullopt, rest)) ∧
    deserialize (.optional .int) (0 :: [7, 0, 0, 0, 9]) = .ok (.nullopt, [7, 0, 0, 0, 9])) :=
  ⟨by decide, optional_tag_nonzero .int 255 [7, 0, 0, 0, 9] (by decide)⟩

/-! ## Records, pairs and tuples -/

theorem record_wf (fs : List Val) (hnt : Val.all_trivial fs = false)
    (hfs : ∀ f ∈ fs, f.wf = true ∧ f.no_empty_bits = true) :
    (Val.record fs).wf = true ∧ (Val.record fs).no_empty_bits = true := by
  constructor
  · simp only [Val.wf, Bool.and_eq_true, wf_all_iff, hnt, Bool.not_false, Bool.true_or, and_true]
    exact fun f hf => (hfs f hf).1
  · simp only [Val.no_empty_bits, no_empty_bits_all_iff]
    exact fun f hf => (hfs f hf).2

/-- C13. Record strategy: for a non-trivial record with the fields `fs` of the
types `ts` (fields representable and with an encoding): `save` gives the
concatenation of the bytes `save` gives for each field, in declared order;
`serialize` writes exactly these bytes at the front of a zeroed region and
returns `serialized_size`, the sum of the field sizes; `deserialize` is the
field loop, which decodes the first field and then the remaining fields from
the cursor the first one left, and on the concatenated encodings followed by
`rest` it returns the record and leaves `rest`; `save` of
`pre_post<string>{10, s, 20}` is the bytes of 10, then `save(s)`, then the
bytes of 20. -/
theorem record_strategy (fs : List Val) (ts : List Ty) (s rest tail : List Nat)
    (hnt : Val.all_trivial fs = false) (ht : have_types fs ts = true)
    (hfs : ∀ f ∈ fs, f.wf = true ∧ f.no_empty_bits = true)
    (hs : (Val.string s).wf = true) :
    (∃ encodings : List (List Nat),
      List.Forall₂ (fun f e => save f = .ok e) fs encodings ∧
      save (.record fs) = .ok encodings.flatten ∧
      serialize (.record fs) (List.replicate encodings.flatten.length 0 ++ tail) =
        .ok (serialized_size (.record fs), encodings.flatten ++ tail) ∧
      deserialize (.record ts) (encodings.flatten ++ rest) = .ok (.record fs, rest)) ∧
    serialized_size (.record fs) = (fs.map serialized_size).sum ∧
    (∀ buffer, deserialize (.record ts) buffer =
      match deserialize_fields ts buffer with
      | .error e => .error e
      | .ok (fields, buffer1) => .ok (.record fields, buffer1)) ∧
    (∀ (t : Ty) (us : List Ty) (buffer : List Nat), deserialize_fields (t :: us) buffer =
      match deserialize t buffer with
      | .error e => .error e
      | .ok (field, buffer1) =>
        match deserialize_fields us buffer1 with
        | .error e => .error e
        | .ok (fields, buffer2) => .ok (field :: fields, buffer2)) ∧
    (∃ es, save (.string s) = .ok es ∧
      save (pre_post 10 (.string s) 20) = .ok (int_repr 10 ++ es ++ int_repr 20)) := by
  obtain ⟨hwf, hne⟩ := record_wf fs hnt hfs
  have hty : has_type (.record fs) (.record ts) = true := by simpa [has_type] using ht
  have hnT : Ty.all_trivial ts = false := by
    rw [← all_trivial_eq fs ts ht (fun f _ T hT => is_trivial_eq f T hT)]
    exact hnt
  obtain ⟨hsave, hlen⟩ := save_eq_wire _ hwf hne
  have hw : wire_value (.record fs) = (fs.map wire_value).flatten := by
    rw [wire_value, wire_fields_eq]
  have hsz : serialized_size (.record fs) = (fs.map serialized_size).sum := by
    simp only [serialized_size, hnt, serialized_size_fields_eq]
    rfl
  refine ⟨⟨fs.map wire_value, forall₂_save fs hfs, ?_, ?_, ?_⟩, hsz, ?_, ?_, ?_⟩
  · rw [hsave, hw]
  · obtain ⟨out, _, h2, h3⟩ := serialize_writes _ hwf hne
      (List.replicate (fs.map wire_value).flatten.length 0) tail
      (by rw [List.length_replicate, ← hw, hlen])
    rw [h2, h3 (fun b hb => (List.mem_replicate.mp hb).2), hw]
  · rw [← hw]
    exact deserialize_wire _ _ hty hwf rest
  · intro buffer
    rw [deserialize, hnT]
    rfl
  · intro t us buffer
    rw [deserialize_fields]
  · have hwf2 : (pre_post 10 (.string s) 20).wf = true := by
      simp [pre_post, Val.wf, Val.wf_all, Val.all_trivial, Val.is_trivial] at hs ⊢
      exact hs
    have hne2 : (pre_post 10 (.string s) 20).no_empty_bits = true := rfl
    refine ⟨wire_value (.string s), (save_eq_wire _ hs rfl).1, ?_⟩
    rw [(save_eq_wire _ hwf2 hne2).1]
    simp [pre_post, wire_value, wire_fields]

theorem record_strategy_witness :
    Val.all_trivial [Val.int 10, Val.some (.string [116]), Val.vector [.int 1]] = false ∧
    have_types [Val.int 10, Val.some (.string [116]), Val.vector [.int 1]]
      [Ty.int, Ty.optional .string, Ty.vector .int] = true ∧
    (∀ f ∈ [Val.int 10, Val.some (.string [116]), Val.vector [.int 1]],
      f.wf = true ∧ f.no_empty_bits = true) ∧
    (Val.string [116, 101, 115, 116]).wf = true ∧
    save (.record [Val.int 10, Val.some (.string [116]), Val.vector [.int 1]]) =
      .ok [10, 0, 0, 0, 1, 1, 0, 0, 0, 0, 0, 0, 0, 116, 1, 0, 0, 0, 0, 0, 0, 0, 1, 0, 0, 0] ∧
    ((∃ encodings : List (List Nat),
      List.Forall₂ (fun f e => save f = .ok e)
        [Val.int 10, Val.some (.string [116]), Val.vector [.int 1]] encodings ∧
      save (.record [Val.int 10, Val.some (.string [116]), Val.vector [.int 1]]) =
        .ok encodings.flatten ∧
      serialize (.record [Val.int 10, Val.some (.string [116]), Val.vector [.int 1]])
          (List.replicate encodings.flatten.length 0 ++ [7, 7]) =
        .ok (serialized_size (.record [Val.int 10, Val.some (.string [116]), Val.vector [.int 1]]),
          encodings.flatten ++ [7, 7]) ∧
      deserialize (.record [Ty.int, Ty.optional .string, Ty.vector .int])
          (encodings.flatten ++ [9]) =
        .ok (.record [Val.int 10, Val.some (.string [116]), Val.vector [.int 1]], [9])) ∧
    serialized_size (.record [Val.int 10, Val.some (.string [116]), Val.vector [.int 1]]) =
      ([Val.int 10, Val.some (.string [116]), Val.vector [.int 1]].map serialized_size).sum ∧
    (∀ buffer, deserialize (.record [Ty.int, Ty.optional .string, Ty.vector .int]) buffer =
      match deserialize_fields [Ty.int, Ty.optional .string, Ty.vector .int] buffer with
      | .error e => .error e
      | .ok (fields, buffer1) => .ok (.record fields, buffer1)) ∧
    (∀ (t : Ty) (us : List Ty) (buffer : List Nat), deserialize_fields (t :: us) buffer =
      match deserialize t buffer with
      | .error e => .error e
      | .ok (field, buffer1) =>
        match deserialize_fields us buffer1 with
        | .error e => .error e
        | .ok (fields, buffer2) => .ok (field :: fields, buffer2)) ∧
    (∃ es, save (.string [116, 101, 115, 116]) = .ok es ∧
      save (pre_post 10 (.string [116, 101, 115, 116]) 20) =
        .ok (int_repr 10 ++ es ++ int_repr 20))) :=
  ⟨by decide, by decide, by decide, by decide, rfl,
    record_strategy [Val.int 10, Val.some (.string [116]), Val.vector [.int 1]]
      [Ty.int, Ty.optional .string, Ty.vector .int] [116, 101, 115, 116] [9] [7, 7]
      (by decide) (by decide) (by decide) (by decide)⟩

theorem subspan_zero (buffer : List Nat) : subspan buffer 0 = .ok buffer := by
  simp [subspan]

theorem serialize_tuple_two (a b : Val) (buffer : List Nat) :
    serialize_fields [a, b] buffer 0 = serialize (.pair a b) buffer := by
  simp only [serialize, serialize_fields, subspan_zero, List.take_zero, List.nil_append,
    Nat.zero_add]

/-- C19. Pairs, tuples and records share one wire shape: on every region
`serialize` of `tuple(a, b)` and of a non-trivial record with the fields `a`,
`b` does exactly what `serialize` of `pair(a, b)` does (same count, same bytes,
same fault), the three sizes are equal and so are the three results of `save`;
when `a` and `b` have encodings, that result is the encoding of `a` followed
by the encoding of `b`, with no tag or count; and a buffer decodes as
`pair<T, U>` with the components `x`, `y` exactly when it decodes as
`tuple<T, U>`, and as a non-trivial record with fields of types `T`, `U`, with
the same components and the same remaining cursor. -/
theorem pair_tuple_record_shape (a b : Val) (t u : Ty) (buffer : List Nat) :
    serialize (.tuple [a, b]) buffer = serialize (.pair a b) buffer ∧
    serialized_size (.tuple [a, b]) = serialized_size (.pair a b) ∧
    save (.tuple [a, b]) = save (.pair a b) ∧
    (Val.all_trivial [a, b] = false →
      serialize (.record [a, b]) buffer = serialize (.pair a b) buffer ∧
      serialized_size (.record [a, b]) = serialized_size (.pair a b) ∧
      save (.record [a, b]) = save (.pair a b)) ∧
    (a.wf = true → a.no_empty_bits = true → b.wf = true → b.no_empty_bits = true →
      ∃ ea eb, save a = .ok ea ∧ save b = .ok eb ∧ save (.pair a b) = .ok (ea ++ eb)) ∧
    (∀ x y rest, deserialize (.pair t u) buffer = .ok (.pair x y, rest) ↔
      deserialize (.tuple [t, u]) buffer = .ok (.tuple [x, y], rest)) ∧
    (Ty.all_trivial [t, u] = false →
      ∀ x y rest, deserialize (.pair t u) buffer = .ok (.pair x y, rest) ↔
        deserialize (.record [t, u]) buffer = .ok (.record [x, y], rest)) := by
  have hs1 : ∀ buf, serialize (.tuple [a, b]) buf = serialize (.pair a b) buf := by
    intro buf
    rw [← serialize_tuple_two, serialize]
  have hz1 : serialized_size (.tuple [a, b]) = serialized_size (.pair a b) := by
    simp only [serialized_size, serialized_size_fields, Nat.add_zero]
  have hd : ∀ x y rest, deserialize (.pair t u) buffer = .ok (.pair x y, rest) ↔
      deserialize_fields [t, u] buffer = .ok ([x, y], rest) := by
    intro x y rest
    simp only [deserialize, deserialize_fields]
    cases deserialize t buffer with
    | error e => simp
    | ok r =>
      obtain ⟨x1, b1⟩ := r
      simp only
      cases deserialize u b1 with
      | error e => simp
      | ok r2 =>
        obtain ⟨y1, b2⟩ := r2
        simp
  refine ⟨hs1 buffer, hz1, ?_, ?_, ?_, ?_, ?_⟩
  · simp only [save, hz1, hs1]
  · intro hnt
    have hs2 : ∀ buf, serialize (.record [a, b]) buf = serialize (.pair a b) buf := by
      intro buf
      rw [← serialize_tuple_two, serialize, hnt]
      rfl
    have hz2 : serialized_size (.record [a, b]) = serialized_size (.pair a b) := by
      simp only [serialized_size, serialized_size_fields, Nat.add_zero, hnt]
      rfl
    refine ⟨hs2 buffer, hz2, ?_⟩
    simp only [save, hz2, hs2]
  · intro hwa hna hwb hnb
    refine ⟨wire_value a, wire_value b, (save_eq_wire a hwa hna).1, (save_eq_wire b hwb hnb).1, ?_⟩
    have := (save_eq_wire (.pair a b) (by simp [Val.wf, hwa, hwb])
      (by simp [Val.no_empty_bits, hna, hnb])).1
    rw [this, wire_value]
  · intro x y rest
    rw [hd x y rest]
    rw [deserialize]
    cases deserialize_fields [t, u] buffer with
    | error e => simp
    | ok r => obtain ⟨fs, b1⟩ := r; simp
  · intro hnT x y rest
    rw [hd x y rest]
    rw [deserialize, hnT]
    cases deserialize_fields [t, u] buffer with
    | error e => simp
    | ok r => obtain ⟨fs, b1⟩ := r; simp

theorem pair_tuple_record_shape_witness :
    Val.all_trivial [Val.string [97], Val.int 5] = false ∧
    (Val.string [97]).wf = true ∧ (Val.string [97]).no_empty_bits = true ∧
    (Val.int 5).wf = true ∧ (Val.int 5).no_empty_bits = true ∧
    Ty.all_trivial [Ty.string, Ty.int] = false ∧
    save (.record [Val.string [97], Val.int 5]) =
      .ok [1, 0, 0, 0, 0, 0, 0, 0, 97, 5, 0, 0, 0] ∧
    deserialize (.tuple [.string, .int]) [1, 0, 0, 0, 0, 0, 0, 0, 97, 5, 0, 0, 0] =
      .ok (.tuple [Val.string [97], Val.int 5], []) ∧
    (serialize (.tuple [Val.string [97], Val.int 5]) (List.replicate 13 0) =
      serialize (.pair (Val.string [97]) (Val.int 5)) (List.replicate 13 0) ∧
    serialized_size (.tuple [Val.string [97], Val.int 5]) =
      serialized_size (.pair (Val.string [97]) (Val.int 5)) ∧
    save (.tuple [Val.string [97], Val.int 5]) = save (.pair (Val.string [97]) (Val.int 5)) ∧
    (Val.all_trivial [Val.string [97], Val.int 5] = false →
      serialize (.record [Val.string [97], Val.int 5]) (List.replicate 13 0) =
        serialize (.pair (Val.string [97]) (Val.int 5)) (List.replicate 13 0) ∧
      serialized_size (.record [Val.string [97], Val.int 5]) =
        serialized_size (.pair (Val.string [97]) (Val.int 5)) ∧
      save (.record [Val.string [97], Val.int 5]) =
        save (.pair (Val.string [97]) (Val.int 5))) ∧
    ((Val.string [97]).wf = true → (Val.string [97]).no_empty_bits = true →
      (Val.int 5).wf = true → (Val.int 5).no_empty_bits = true →
      ∃ ea eb, save (Val.string [97]) = .ok ea ∧ save (Val.int 5) = .ok eb ∧
        save (.pair (Val.string [97]) (Val.int 5)) = .ok (ea ++ eb)) ∧
    (∀ x y rest, deserialize (.pair .string .int) (List.replicate 13 0) = .ok (.pair x y, rest) ↔
      deserialize (.tuple [.string, .int]) (List.replicate 13 0) = .ok (.tuple [x, y], rest)) ∧
    (Ty.all_trivial [Ty.string, Ty.int] = false →
      ∀ x y rest, deserialize (.pair .string .int) (List.replicate 13 0) = .ok (.pair x y, rest) ↔
        deserialize (.record [.string, .int]) (List.replicate 13 0) =
          .ok (.record [x, y], rest))) :=
  ⟨by decide, by decide, by decide, by decide, by decide, by decide, rfl, rfl,
    pair_tuple_record_shape (.string [97]) (.int 5) .string .int (List.replicate 13 0)⟩

/-! ## `ceil_divide` -/

theorem ceil_divide_no_wrap (a b : Nat) (hb1 : 1 ≤ b) (h : a + b - 1 < SIZE_MOD) :
    ceil_divide a b = (a + b - 1) / b := by
  have e : (a + b + (SIZE_MOD - 1)) % SIZE_MOD = a + b - 1 := by
    simp only [SIZE_MOD] at h ⊢
    omega
  unfold ceil_divide
  rw [e]

theorem ceil_divide_wrap (a b : Nat) (ha : a < SIZE_MOD) (hb : b < SIZE_MOD)
    (h : SIZE_MOD - b < a) :
    ceil_divide a b = (a + b - 1 - SIZE_MOD) / b := by
  have e : (a + b + (SIZE_MOD - 1)) % SIZE_MOD = a + b - 1 - SIZE_MOD := by
    simp only [SIZE_MOD] at h ha hb ⊢
    omega
  unfold ceil_divide
  rw [e]

theorem ceiling_least (a b : Nat) (hb1 : 1 ≤ b) :
    a ≤ (a + b - 1) / b * b ∧ ∀ q, a ≤ q * b → (a + b - 1) / b ≤ q := by
  constructor
  · have h1 := Nat.div_add_mod (a + b - 1) b
    have h2 := Nat.mod_lt (a + b - 1) (by omega : b > 0)
    have h3 : b * ((a + b - 1) / b) = (a + b - 1) / b * b := Nat.mul_comm _ _
    omega
  · intro q hq
    have : a + b - 1 < (q + 1) * b := by
      have : (q + 1) * b = q * b + b := by ring
      omega
    have := (Nat.div_lt_iff_lt_mul (by omega : 0 < b)).mpr this
    omega

/-- C20. The function `ceil_divide(a, b)`, computed as `(a + b - 1) / b` on 64 bit
unsigned integers: for `b >= 1` and `a + b - 1 < 2^64` it is the ceiling of
`a / b`, that is the least `q` with `a <= q * b` (so `ceil_divide(0, 8) = 0`,
`ceil_divide(9, 8) = 2`, `ceil_divide(65, 8) = 9`); for `a > 2^64 - b` the sum
wraps modulo 2^64, the result is `(a + b - 1 - 2^64) / b`, smaller than the
ceiling. -/
theorem ceil_divide_spec (a b : Nat) (ha : a < SIZE_MOD) (hb1 : 1 ≤ b) (hb : b < SIZE_MOD) :
    (a + b - 1 < SIZE_MOD →
      ceil_divide a b = (a + b - 1) / b ∧
      (ceil_divide a b : ℚ) = ⌈(a : ℚ) / (b : ℚ)⌉₊ ∧
      a ≤ ceil_divide a b * b ∧ ∀ q, a ≤ q * b → ceil_divide a b ≤ q) ∧
    (SIZE_MOD - b < a →
      ceil_divide a b = (a + b - 1 - SIZE_MOD) / b ∧
      ∀ q, (a ≤ q * b ∧ ∀ r, a ≤ r * b → q ≤ r) → ceil_divide a b < q) ∧
    ceil_divide 0 8 = 0 ∧ ceil_divide 9 8 = 2 ∧ ceil_divide 65 8 = 9 := by
  refine ⟨?_, ?_, by decide, by decide, by decide⟩
  · intro h
    have e := ceil_divide_no_wrap a b hb1 h
    obtain ⟨h1, h2⟩ := ceiling_least a b hb1
    have hbq : (0 : ℚ) < (b : ℚ) := by exact_mod_cast hb1
    have hc : ⌈(a : ℚ) / (b : ℚ)⌉₊ = (a + b - 1) / b := by
      apply le_antisymm
      · rw [Nat.ceil_le, div_le_iff₀ hbq]
        exact_mod_cast h1
      · have := Nat.le_ceil ((a : ℚ) / (b : ℚ))
        rw [div_le_iff₀ hbq] at this
        apply h2
        exact_mod_cast this
    refine ⟨e, by rw [e, hc], by rw [e]; exact h1, by rw [e]; exact h2⟩
  · intro h
    have e := ceil_divide_wrap a b ha hb h
    refine ⟨e, ?_⟩
    intro q ⟨hq1, hq2⟩
    rw [e]
    obtain ⟨h1, h2⟩ := ceiling_least a b hb1
    have hq : q = (a + b - 1) / b := le_antisymm (hq2 _ h1) (h2 q hq1)
    rw [hq]
    have hlt : a + b - 1 - SIZE_MOD + b ≤ a + b - 1 := by
      simp only [SIZE_MOD] at h ha hb ⊢
      omega
    have h3 : (a + b - 1 - SIZE_MOD + b) / b ≤ (a + b - 1) / b := Nat.div_le_div_right hlt
    rw [Nat.add_div_right _ (by omega : 0 < b)] at h3
    exact h3

theorem ceil_divide_spec_witness :
    (18446744073709551610 : Nat) < SIZE_MOD ∧ 1 ≤ 8 ∧ 8 < SIZE_MOD ∧
    SIZE_MOD - 8 < 18446744073709551610 ∧
    ((18446744073709551610 + 8 - 1 < SIZE_MOD →
      ceil_divide 18446744073709551610 8 = (18446744073709551610 + 8 - 1) / 8 ∧
      (ceil_divide 18446744073709551610 8 : ℚ) =
        ⌈((18446744073709551610 : Nat) : ℚ) / ((8 : Nat) : ℚ)⌉₊ ∧
      18446744073709551610 ≤ ceil_divide 18446744073709551610 8 * 8 ∧
      ∀ q, 18446744073709551610 ≤ q * 8 → ceil_divide 18446744073709551610 8 ≤ q) ∧
    (SIZE_MOD - 8 < 18446744073709551610 →
      ceil_divide 18446744073709551610 8 = (18446744073709551610 + 8 - 1 - SIZE_MOD) / 8 ∧
      ∀ q, (18446744073709551610 ≤ q * 8 ∧ ∀ r, 18446744073709551610 ≤ r * 8 → q ≤ r) →
        ceil_divide 18446744073709551610 8 < q) ∧
    ceil_divide 0 8 = 0 ∧ ceil_divide 9 8 = 2 ∧ ceil_divide 65 8 = 9) ∧
    ceil_divide 18446744073709551610 8 = 0 :=
  ⟨by decide, by decide, by decide, by decide,
    ceil_divide_spec 18446744073709551610 8 (by decide) (by decide) (by decide), by decide⟩

/-! ## Temporal adapters -/

theorem rep_repr_length (w : Nat) (count : Int) : (rep_repr w count).length = w :=
  to_le_length _ _

theorem rep_of_repr_rep_repr (w : Nat) (count : Int)
    (h1 : -((256 ^ w : Nat) : Int) ≤ 2 * count) (h2 : 2 * count < ((256 ^ w : Nat) : Int)) :
    rep_of_repr w (rep_repr w count) = count := by
  unfold rep_of_repr rep_repr
  rw [of_le_to_le]
  generalize (256 ^ w : Nat) = M at h1 h2 ⊢
  have hM : (0 : Int) < (M : Int) := by omega
  have hnn : 0 ≤ count % (M : Int) := Int.emod_nonneg _ (by omega)
  have hlt : count % (M : Int) < (M : Int) := Int.emod_lt_of_pos _ hM
  have hmod : (count % (M : Int)).toNat % M = (count % (M : Int)).toNat := by
    apply Nat.mod_eq_of_lt
    omega
  rw [hmod]
  have hcast : (((count % (M : Int)).toNat : Nat) : Int) = count % (M : Int) :=
    Int.toNat_of_nonneg hnn
  by_cases hc : 0 ≤ count
  · have e : count % (M : Int) = count := Int.emod_eq_of_lt hc (by omega)
    rw [e] at hcast ⊢
    rw [if_pos (by omega), hcast]
  · have e : count % (M : Int) = count + M := by
      rw [← Int.add_emod_self]
      exact Int.emod_eq_of_lt (by omega) (by omega)
    rw [e] at hcast ⊢
    rw [if_neg (by omega), hcast]
    omega

theorem save_rep (w : Nat) (count : Int) :
    save_bytes w (serialize_rep w count) = .ok (rep_repr w count) := by
  unfold save_bytes serialize_rep
  have := copy_to_append (rep_repr w count) (List.replicate w 0) []
    (by rw [List.length_replicate, rep_repr_length])
  rw [List.append_nil, List.append_nil] at this
  rw [this]

theorem deserialize_rep_spec (w : Nat) (count : Int) (rest : List Nat)
    (h1 : -((256 ^ w : Nat) : Int) ≤ 2 * count) (h2 : 2 * count < ((256 ^ w : Nat) : Int)) :
    deserialize_rep w (rep_repr w count ++ rest) = .ok (count, rest) := by
  unfold deserialize_rep
  rw [copy_from_append _ _ _ (rep_repr_length w count)]
  simp only [rep_of_repr_rep_repr w count h1 h2]

/-- C15. Temporal adapters: for a duration `d` and a time point `t` whose tick
counts lie in the range of the signed integer tick type of `w` bytes, `save(d)`
is `save` of the integer `d.count()` and `save(t)` is `save` of
`t.time_since_epoch().count()` (at the tick type `int`, the bytes `save` gives
for that `int`), the size is the width `w` of the tick type, the bytes are the
`w` bytes of the object representation of the count, and decoding them,
followed by any bytes, rebuilds the duration (time point) with that tick count
and leaves those bytes. -/
theorem temporal_adapters (w : Nat) (d : duration) (t : time_point)
    (hd : -((256 ^ w : Nat) : Int) ≤ 2 * d.count ∧ 2 * d.count < ((256 ^ w : Nat) : Int))
    (ht : -((256 ^ w : Nat) : Int) ≤ 2 * t.time_since_epoch.count ∧
      2 * t.time_since_epoch.count < ((256 ^ w : Nat) : Int)) :
    save_bytes (duration_size w d) (duration_to_bytes w d) =
      save_bytes w (serialize_rep w d.count) ∧
    save_bytes (time_point_size w t) (time_point_to_bytes w t) =
      save_bytes w (serialize_rep w t.time_since_epoch.count) ∧
    duration_size w d = w ∧ time_point_size w t = w ∧
    (∃ bytes, save_bytes (duration_size w d) (duration_to_bytes w d) = .ok bytes ∧
      bytes.length = w ∧
      load_bytes (duration_from_bytes w) bytes = .ok d ∧
      ∀ rest, duration_from_bytes w (bytes ++ rest) = .ok (d, rest)) ∧
    (∃ bytes, save_bytes (time_point_size w t) (time_point_to_bytes w t) = .ok bytes ∧
      bytes.length = w ∧
      load_bytes (time_point_from_bytes w) bytes = .ok t ∧
      ∀ rest, time_point_from_bytes w (bytes ++ rest) = .ok (t, rest)) ∧
    (∀ count : Int, save_bytes 4 (serialize_rep 4 count) = save (.int count)) := by
  have hdec : ∀ rest, duration_from_bytes w (rep_repr w d.count ++ rest) = .ok (d, rest) := by
    intro rest
    unfold duration_from_bytes
    rw [deserialize_rep_spec w d.count rest hd.1 hd.2]
  have htec : ∀ rest, time_point_from_bytes w (rep_repr w t.time_since_epoch.count ++ rest) =
      .ok (t, rest) := by
    intro rest
    unfold time_point_from_bytes
    rw [deserialize_rep_spec w t.time_since_epoch.count rest ht.1 ht.2]
  refine ⟨rfl, rfl, rfl, rfl, ⟨rep_repr w d.count, save_rep w d.count, rep_repr_length _ _, ?_,
    hdec⟩, ⟨rep_repr w t.time_since_epoch.count, save_rep w _, rep_repr_length _ _, ?_, htec⟩, ?_⟩
  · have := hdec []
    rw [List.append_nil] at this
    unfold load_bytes
    rw [this]
  · have := htec []
    rw [List.append_nil] at this
    unfold load_bytes
    rw [this]
  · intro count
    rw [save_rep]
    have : save (.int count) = .ok (wire_value (.int count)) := by
      have := save_of_writes (.int count) (by
        have := writes_copy_to (int_repr count)
        rw [int_repr_length] at this
        simpa [serialize, serialized_size, wire_value] using this)
      exact this.1
    rw [this, wire_value]
    rfl

theorem temporal_adapters_witness :
    (-((256 ^ 8 : Nat) : Int) ≤ 2 * (⟨-2⟩ : duration).count ∧
      2 * (⟨-2⟩ : duration).count < ((256 ^ 8 : Nat) : Int)) ∧
    (-((256 ^ 8 : Nat) : Int) ≤ 2 * (⟨⟨1700000000000000000⟩⟩ : time_point).time_since_epoch.count ∧
      2 * (⟨⟨1700000000000000000⟩⟩ : time_point).time_since_epoch.count <
        ((256 ^ 8 : Nat) : Int)) ∧
    save_bytes (duration_size 8 ⟨-2⟩) (duration_to_bytes 8 ⟨-2⟩) =
      .ok [254, 255, 255, 255, 255, 255, 255, 255] ∧
    (save_bytes (duration_size 8 ⟨-2⟩) (duration_to_bytes 8 ⟨-2⟩) =
      save_bytes 8 (serialize_rep 8 (⟨-2⟩ : duration).count) ∧
    save_bytes (time_point_size 8 ⟨⟨1700000000000000000⟩⟩)
        (time_point_to_bytes 8 ⟨⟨1700000000000000000⟩⟩) =
      save_bytes 8 (serialize_rep 8
        (⟨⟨1700000000000000000⟩⟩ : time_point).time_since_epoch.count) ∧
    duration_size 8 ⟨-2⟩ = 8 ∧ time_point_size 8 ⟨⟨1700000000000000000⟩⟩ = 8 ∧
    (∃ bytes, save_bytes (duration_size 8 ⟨-2⟩) (duration_to_bytes 8 ⟨-2⟩) = .ok bytes ∧
      bytes.length = 8 ∧
      load_bytes (duration_from_bytes 8) bytes = .ok ⟨-2⟩ ∧
      ∀ rest, duration_from_bytes 8 (bytes ++ rest) = .ok (⟨-2⟩, rest)) ∧
    (∃ bytes, save_bytes (time_point_size 8 ⟨⟨1700000000000000000⟩⟩)
        (time_point_to_bytes 8 ⟨⟨1700000000000000000⟩⟩) = .ok bytes ∧
      bytes.length = 8 ∧
      load_bytes (time_point_from_bytes 8) bytes = .ok ⟨⟨1700000000000000000⟩⟩ ∧
      ∀ rest, time_point_from_bytes 8 (bytes ++ rest) = .ok (⟨⟨1700000000000000000⟩⟩, rest)) ∧
    (∀ count : Int, save_bytes 4 (serialize_rep 4 count) = save (.int count))) :=
  ⟨by decide, by decide, rfl,
    temporal_adapters 8 ⟨-2⟩ ⟨⟨1700000000000000000⟩⟩ (by decide) (by decide)⟩

/-! ## What the region held before -/

theorem no_bits_all_iff (fs : List Val) :
    Val.no_bits_all fs = true ↔ ∀ f ∈ fs, f.no_bits = true := by
  induction fs with
  | nil => simp [Val.no_bits_all]
  | cons f fs ih => simp [Val.no_bits_all, ih]

theorem overwrites_copy_to (obj : List Nat) : Overwrites (copy_to obj) obj.length obj :=
  ⟨rfl, fun pre tail hp => copy_to_append obj pre tail hp⟩

theorem serialize_items_overwrites {α : Type}
    (ser : α → List Nat → Except Fault (Nat × List Nat))
    (size : α → Nat) (wire : α → List Nat) (items : List α)
    (h : ∀ x ∈ items, Overwrites (ser x) (size x) (wire x)) :
    ((items.map wire).flatten).length = (items.map size).sum ∧
    ∀ (done pre tail : List Nat), pre.length = (items.map size).sum →
      serialize_items ser items (done ++ (pre ++ tail)) done.length =
        .ok (done.length + (items.map size).sum,
          done ++ ((items.map wire).flatten ++ tail)) := by
  induction items with
  | nil =>
    refine ⟨rfl, ?_⟩
    intro done pre tail hp
    simp only [List.map_nil, List.sum_nil, List.length_eq_zero] at hp
    subst hp
    simp [serialize_items]
  | cons x xs ih =>
    obtain ⟨hxl, hx⟩ := h x (List.mem_cons_self _ _)
    obtain ⟨ihl, ihs⟩ := ih (fun y hy => h y (List.mem_cons_of_mem _ hy))
    refine ⟨by simp [hxl, ihl], ?_⟩
    intro done pre tail hp
    simp only [List.map_cons, List.sum_cons] at hp
    have h1 : (pre.take (size x)).length = size x := by simp; omega
    have h2 : (pre.drop (size x)).length = (xs.map size).sum := by simp; omega
    have hs1 := hx (pre.take (size x)) (pre.drop (size x) ++ tail) h1
    have hs2 := ihs (done ++ wire x) (pre.drop (size x)) tail h2
    have e1 : done ++ (pre ++ tail) =
        done ++ (pre.take (size x) ++ (pre.drop (size x) ++ tail)) := by
      rw [← List.append_assoc (pre.take _), List.take_append_drop]
    simp only [serialize_items, List.map_cons, List.sum_cons, List.flatten_cons]
    rw [e1, subspan_append done _ _ rfl]
    simp only [hs1]
    rw [List.take_left]
    have e2 : done ++ (wire x ++ (pre.drop (size x) ++ tail)) =
        (done ++ wire x) ++ (pre.drop (size x) ++ tail) := by simp
    have e3 : done.length + size x = (done ++ wire x).length := by simp [hxl]
    rw [e2, e3, hs2]
    simp [hxl, Nat.add_assoc]

theorem serialize_container_overwrites {α : Type}
    (ser : α → List Nat → Except Fault (Nat × List Nat))
    (size : α → Nat) (wire : α → List Nat) (items : List α)
    (h : ∀ x ∈ items, Overwrites (ser x) (size x) (wire x)) :
    Overwrites (serialize_container ser items) (8 + (items.map size).sum)
      (size_repr items.length ++ (items.map wire).flatten) := by
  obtain ⟨hl, hs⟩ := serialize_items_overwrites ser size wire items h
  refine ⟨by simp [size_repr_length, hl], ?_⟩
  intro pre tail hp
  have h1 : (pre.take 8).length = (size_repr items.length).length := by
    rw [size_repr_length]; simp; omega
  have h2 : (pre.drop 8).length = (items.map size).sum := by simp; omega
  have := hs (size_repr items.length) (pre.drop 8) tail h2
  rw [size_repr_length] at this
  have e1 : pre ++ tail = pre.take 8 ++ (pre.drop 8 ++ tail) := by
    rw [← List.append_assoc, List.take_append_drop]
  unfold serialize_container
  rw [e1, copy_to_append _ _ _ h1]
  simp only [this, size_repr_length, List.append_assoc]

theorem overwrites_fields (fs : List Val)
    (h : ∀ f ∈ fs, Overwrites (serialize f) (serialized_size f) (wire_value f)) :
    Overwrites (fun buffer => serialize_fields fs buffer 0) (serialized_size_fields fs)
      (wire_fields fs) := by
  obtain ⟨hl, hs⟩ := serialize_items_overwrites serialize serialized_size wire_value fs h
  refine ⟨by rw [wire_fields_eq, serialized_size_fields_eq, hl], ?_⟩
  intro pre tail hp
  rw [serialized_size_fields_eq] at hp
  have := hs [] pre tail hp
  simp only [serialize_fields_eq, serialized_size_fields_eq, wire_fields_eq]
  simpa using this

theorem overwrites_tagged (tag : Nat) (v : Val)
    (h : Overwrites (serialize v) (serialized_size v) (wire_value v)) :
    ∀ pre tail : List Nat, pre.length = 1 + serialized_size v →
      write_at (pre ++ tail) 0 tag = .ok (tag :: (pre.drop 1 ++ tail)) ∧
      subspan (tag :: (pre.drop 1 ++ tail)) 1 = .ok (pre.drop 1 ++ tail) ∧
      serialize v (pre.drop 1 ++ tail) = .ok (serialized_size v, wire_value v ++ tail) := by
  intro pre tail hp
  cases pre with
  | nil => simp at hp; omega
  | cons x pre1 =>
    have hp1 : pre1.length = serialized_size v := by simp at hp; omega
    refine ⟨by simp [write_at], by simp [subspan], ?_⟩
    simpa using h.2 pre1 tail hp1

/-- A value without bit containers is written by plain assignments: on every
region of at least `serialized_size v` bytes, whatever it held, `serialize`
leaves the wire value in the first `serialized_size v` bytes. -/
theorem serialize_overwrites (v : Val) :
    v.wf = true → v.no_bits = true →
      Overwrites (serialize v) (serialized_size v) (wire_value v) := by
  induction v using Val.induct with
  | hint i =>
    intro _ _
    have := overwrites_copy_to (int_repr i)
    rw [int_repr_length] at this
    simpa [serialize, serialized_size, wire_value] using this
  | hstring s =>
    intro _ _
    have := serialize_container_overwrites (fun c b => copy_to (char_repr c) b) (fun _ => 1)
      (fun c => [c % 256]) s (fun c _ => overwrites_copy_to (char_repr c))
    rw [flatten_singletons (fun c => c % 256)] at this
    simpa [serialize, serialized_size, wire_value, serialized_container_size_eq] using this
  | hpair a b iha ihb =>
    intro hwf hnb
    simp only [Val.wf, Val.no_bits, Bool.and_eq_true] at hwf hnb
    obtain ⟨hal, ha⟩ := iha hwf.1 hnb.1
    obtain ⟨hbl, hb⟩ := ihb hwf.2 hnb.2
    refine ⟨by simp [wire_value, serialized_size, hal, hbl], ?_⟩
    intro pre tail hp
    simp only [serialized_size] at hp ⊢
    have h1 : (pre.take (serialized_size a)).length = serialized_size a := by simp; omega
    have h2 : (pre.drop (serialized_size a)).length = serialized_size b := by simp; omega
    have hs1 := ha _ (pre.drop (serialized_size a) ++ tail) h1
    have hs2 := hb _ tail h2
    have e1 : pre ++ tail =
        pre.take (serialized_size a) ++ (pre.drop (serialized_size a) ++ tail) := by
      rw [← List.append_assoc, List.take_append_drop]
    simp only [serialize]
    rw [e1, hs1]
    simp only [subspan_append (wire_value a) _ _ hal, hs2]
    rw [List.take_left' hal]
    simp [wire_value]
  | htuple fs ih =>
    intro hwf hnb
    simp only [Val.wf, Val.no_bits, wf_all_iff, no_bits_all_iff] at hwf hnb
    have := overwrites_fields fs (fun f hf => ih f hf (hwf f hf) (hnb f hf))
    simpa [serialize, serialized_size, wire_value] using this
  | hnull =>
    intro _ _
    refine ⟨rfl, ?_⟩
    intro pre tail hp
    simp only [serialized_size] at hp
    cases pre with
    | nil => simp at hp
    | cons x pre1 =>
      have : pre1 = [] := by simpa using hp
      subst this
      simp [serialize, write_at, serialized_size, wire_value]
  | hsome v ih =>
    intro hwf hnb
    simp only [Val.wf, Val.no_bits] at hwf hnb
    have hv := ih hwf hnb
    refine ⟨by simp [wire_value, serialized_size, hv.1]; omega, ?_⟩
    intro pre tail hp
    simp only [serialized_size] at hp
    obtain ⟨h1, h2, h3⟩ := overwrites_tagged 1 v hv pre tail hp
    simp only [serialize, h1, h2, h3, serialized_size, wire_value]
    simp [Nat.add_comm]
  | hvariant i v ih =>
    intro hwf hnb
    simp only [Val.wf, Val.no_bits, Bool.and_eq_true] at hwf hnb
    have hv := ih hwf.2 hnb
    refine ⟨by simp [wire_value, serialized_size, hv.1]; omega, ?_⟩
    intro pre tail hp
    simp only [serialized_size] at hp
    obtain ⟨h1, h2, h3⟩ := overwrites_tagged (i % 256) v hv pre tail hp
    simp only [serialize, h1, h2, h3, serialized_size, wire_value]
    simp
  | hvector xs ih =>
    intro hwf hnb
    simp only [Val.wf, Val.no_bits, wf_all_iff, no_bits_all_iff, Bool.and_eq_true] at hwf hnb
    obtain ⟨hl, hs⟩ := serialize_container_overwrites serialize serialized_size wire_value xs
      (fun f hf => ih f hf (hwf.2 f hf) (hnb f hf))
    refine ⟨by rw [wire_value, wire_fields_eq, serialized_size, serialized_size_fields_eq]; exact hl,
      ?_⟩
    intro pre tail hp
    simp only [serialized_size, serialized_size_fields_eq] at hp ⊢
    have := hs pre tail hp
    simp only [serialize, serialize_fields_eq, wire_value, wire_fields_eq]
    exact this
  | hvbool bits => intro _ h; simp [Val.no_bits] at h
  | hbitset bits => intro _ h; simp [Val.no_bits] at h
  | hrecord fs ih =>
    intro hwf hnb
    simp only [Val.wf, Val.no_bits, wf_all_iff, no_bits_all_iff,
      Bool.and_eq_true, Bool.or_eq_true, Bool.not_eq_true'] at hwf hnb
    by_cases ht : Val.all_trivial fs = true
    · have hflat : Val.flat (.record fs) = true := by
        rcases hwf.2 with h | h
        · rw [ht] at h; cases h
        · exact h
      have e := obj_repr_flat _ hflat
      simp only [obj_repr, wire_value] at e
      have := overwrites_copy_to (obj_repr_fields fs)
      simp only [serialize, serialized_size, wire_value, ht, if_true]
      rw [← e]
      exact this
    · have := overwrites_fields fs (fun f hf => ih f hf (hwf.1 f hf) (hnb f hf))
      simpa [serialize, serialized_size, wire_value, ht] using this

/-- On two regions of exactly `serialized_size v` bytes, a value without bit
containers leaves the same bytes, its wire value, whatever the regions held. -/
theorem serialize_region_independent (v : Val) (hwf : v.wf = true) (hnb : v.no_bits = true)
    (r1 r2 : List Nat) (h1 : r1.length = serialized_size v)
    (h2 : r2.length = serialized_size v) :
    serialize v r1 = .ok (serialized_size v, wire_value v) ∧
      serialize v r2 = serialize v r1 := by
  have h := (serialize_overwrites v hwf hnb).2
  have e1 := h r1 [] h1
  have e2 := h r2 [] h2
  simp only [List.append_nil] at e1 e2
  exact ⟨e1, e2.trans e1.symm⟩

/-- C14, refuted by evaluation: the bytes a bit container leaves in a region
depend on what the region held before.  `write_ith_bit` ors each bit into the
byte already there; the `bitset` serializer clears nothing and the
`vector<bool>` serializer clears only the last payload byte.  The all-clear
`bitset<8>` written over a region holding `0xFF` leaves `0xFF`, which loads as
the all-set `bitset<8>`; over a zeroed region it leaves `0x00`.  Nine clear
booleans written over ten `0xFF` bytes leave `0xFF` in the first payload
byte, over ten zero bytes they leave zero there. -/
theorem prior_contents_leak :
    serialized_size (.bitset (List.replicate 8 false)) = 1 ∧
    serialize (.bitset (List.replicate 8 false)) [0] = .ok (1, [0]) ∧
    serialize (.bitset (List.replicate 8 false)) [255] = .ok (1, [255]) ∧
    load (.bitset 8) [0] = .ok (.bitset (List.replicate 8 false)) ∧
    load (.bitset 8) [255] = .ok (.bitset (List.replicate 8 true)) ∧
    serialized_size (.vector_bool (List.replicate 9 false)) = 10 ∧
    serialize (.vector_bool (List.replicate 9 false)) (List.replicate 10 0) =
      .ok (10, [9, 0, 0, 0, 0, 0, 0, 0, 0, 0]) ∧
    serialize (.vector_bool (List.replicate 9 false)) (List.replicate 10 255) =
      .ok (10, [9, 0, 0, 0, 0, 0, 0, 0, 255, 0]) ∧
    load .vector_bool [9, 0, 0, 0, 0, 0, 0, 0, 255, 0] =
      .ok (.vector_bool (List.replicate 8 true ++ [false])) :=
  ⟨rfl, rfl, rfl, rfl, rfl, rfl, rfl, rfl, rfl⟩

/-! ## Maps and sets -/

theorem first_occurrence_concat (eqv : Val → Val → Prop) (xs : List Val) (x e : Val) :
    FirstOccurrence eqv (xs ++ [x]) e ↔
      FirstOccurrence eqv xs e ∨ (e = x ∧ ∀ a ∈ xs, ¬ eqv a e) := by
  constructor
  · rintro ⟨pre, post, h, hp⟩
    rcases List.eq_nil_or_concat post with rfl | ⟨post1, y, rfl⟩
    · obtain ⟨h1, h2⟩ := List.append_inj' h rfl
      simp only [List.cons.injEq, and_true] at h2
      subst h1; subst h2
      exact Or.inr ⟨rfl, hp⟩
    · have h3 : xs ++ [x] = (pre ++ e :: post1) ++ [y] := by simpa using h
      obtain ⟨h1, _⟩ := List.append_inj' h3 rfl
      exact Or.inl ⟨pre, post1, h1, hp⟩
  · rintro (⟨pre, post, h, hp⟩ | ⟨rfl, hp⟩)
    · exact ⟨pre, post ++ [x], by simp [h], hp⟩
    · exact ⟨xs, [], rfl, hp⟩

theorem first_occurrence_mem {eqv : Val → Val → Prop} {xs : List Val} {e : Val}
    (h : FirstOccurrence eqv xs e) : e ∈ xs := by
  obtain ⟨pre, post, rfl, _⟩ := h
  simp

/-- A fold of an insertion that refuses an element equivalent to one already
there keeps exactly the first element of each class. -/
theorem foldl_insert_spec (U : Val → Prop) (eqv : Val → Val → Prop) (Inv : List Val → Prop)
    (ins : List Val → Val → List Val)
    (htrans : ∀ a b c, U a → U b → U c → eqv a b → eqv b c → eqv a c)
    (h0 : Inv [])
    (h1 : ∀ out x, (∀ a ∈ out, U a) → U x → Inv out → Inv (ins out x))
    (h2 : ∀ out x, (∀ a ∈ out, U a) → U x → Inv out → (∀ a ∈ out, ¬ eqv a x) →
      (ins out x).Perm (x :: out))
    (h3 : ∀ out x, (∀ a ∈ out, U a) → U x → Inv out → (∃ a ∈ out, eqv a x) → ins out x = out)
    (xs : List Val) (hU : ∀ a ∈ xs, U a) :
    Inv (xs.foldl ins []) ∧
    (∀ e, e ∈ xs.foldl ins [] ↔ FirstOccurrence eqv xs e) ∧
    (∀ a ∈ xs, ∃ e ∈ xs.foldl ins [], e = a ∨ eqv e a) ∧
    (xs.foldl ins []).length ≤ xs.length ∧
    (¬ xs.Pairwise (fun a b => ¬ eqv a b) → (xs.foldl ins []).length < xs.length) := by
  induction xs using List.reverseRecOn with
  | nil =>
    refine ⟨h0, ?_, ?_, ?_, ?_⟩
    · intro e
      constructor
      · intro h; simp at h
      · intro h; simpa using first_occurrence_mem h
    · intro a ha; simp at ha
    · simp
    · intro h; simp at h
  | append_singleton xs x ih =>
    have hUx : U x := hU x (by simp)
    have hUxs : ∀ a ∈ xs, U a := fun a ha => hU a (by simp [ha])
    obtain ⟨i1, i2, i3, i4, i5⟩ := ih hUxs
    have hsub : ∀ a ∈ xs.foldl ins [], a ∈ xs := fun a ha => first_occurrence_mem ((i2 a).1 ha)
    have hUo : ∀ a ∈ xs.foldl ins [], U a := fun a ha => hUxs a (hsub a ha)
    have hiff : (∀ a ∈ xs.foldl ins [], ¬ eqv a x) ↔ (∀ a ∈ xs, ¬ eqv a x) := by
      constructor
      · intro h a ha hax
        obtain ⟨e, he, hea⟩ := i3 a ha
        rcases hea with rfl | hea
        · exact h e he hax
        · exact h e he (htrans e a x (hUo e he) (hUxs a ha) hUx hea hax)
      · intro h a ha
        exact h a (hsub a ha)
    rw [List.foldl_append, List.foldl_cons, List.foldl_nil]
    by_cases hc : ∀ a ∈ xs.foldl ins [], ¬ eqv a x
    · have hp := h2 _ x hUo hUx i1 hc
      refine ⟨h1 _ x hUo hUx i1, ?_, ?_, ?_, ?_⟩
      · intro e
        rw [first_occurrence_concat, hp.mem_iff, List.mem_cons, i2 e]
        constructor
        · rintro (rfl | h)
          · exact Or.inr ⟨rfl, hiff.1 hc⟩
          · exact Or.inl h
        · rintro (h | ⟨rfl, _⟩)
          · exact Or.inr h
          · exact Or.inl rfl
      · intro a ha
        rcases List.mem_append.1 ha with ha | ha
        · obtain ⟨e, he, hea⟩ := i3 a ha
          exact ⟨e, hp.mem_iff.2 (List.mem_cons_of_mem _ he), hea⟩
        · have : a = x := by simpa using ha
          subst this
          exact ⟨a, hp.mem_iff.2 (List.mem_cons_self _ _), Or.inl rfl⟩
      · rw [hp.length_eq]; simp; exact i4
      · intro hnp
        rw [hp.length_eq]
        have : ¬ xs.Pairwise (fun a b => ¬ eqv a b) := by
          intro hpw
          apply hnp
          rw [List.pairwise_append]
          exact ⟨hpw, List.pairwise_singleton _ _, fun a ha b hb => by
            have : b = x := by simpa using hb
            subst this
            exact hiff.1 hc a ha⟩
        have := i5 this
        simp; omega
    · have hex : ∃ a ∈ xs.foldl ins [], eqv a x := by
        by_contra hne
        exact hc (fun a ha hax => hne ⟨a, ha, hax⟩)
      have he := h3 _ x hUo hUx i1 hex
      rw [he]
      refine ⟨i1, ?_, ?_, ?_, ?_⟩
      · intro e
        rw [first_occurrence_concat, i2 e]
        constructor
        · exact Or.inl
        · rintro (h | ⟨rfl, h⟩)
          · exact h
          · exact absurd (hiff.2 h) hc
      · intro a ha
        rcases List.mem_append.1 ha with ha | ha
        · exact i3 a ha
        · have : a = x := by simpa using ha
          subst this
          obtain ⟨e, he1, he2⟩ := hex
          exact ⟨e, he1, Or.inr he2⟩
      · simp; omega
      · intro _; simp; omega


theorem mem_ordered_insert (less : Val → Val → Bool) (key : Val → Val) (x : Val) :
    ∀ (out : List Val) (b : Val), b ∈ ordered_insert less key out x → b ∈ out ∨ b = x := by
  intro out
  induction out with
  | nil => intro b hb; simp [ordered_insert] at hb; exact Or.inr hb
  | cons e es ih =>
    intro b hb
    unfold ordered_insert at hb
    split_ifs at hb with h1 h2
    · rcases List.mem_cons.1 hb with rfl | hb
      · exact Or.inr rfl
      · exact Or.inl hb
    · rcases List.mem_cons.1 hb with rfl | hb
      · exact Or.inl (List.mem_cons_self _ _)
      · rcases ih b hb with h | h
        · exact Or.inl (List.mem_cons_of_mem _ h)
        · exact Or.inr h
    · exact Or.inl hb

theorem ordered_insert_sorted (less : Val → Val → Bool) (key : Val → Val) (U : Val → Prop)
    (htrans : ∀ a b c, U a → U b → U c → less (key a) (key b) = true →
      less (key b) (key c) = true → less (key a) (key c) = true) (x : Val) (hx : U x) :
    ∀ out : List Val, (∀ a ∈ out, U a) →
      out.Pairwise (fun a b => less (key a) (key b) = true) →
      (ordered_insert less key out x).Pairwise (fun a b => less (key a) (key b) = true) := by
  intro out
  induction out with
  | nil => intro _ _; simp [ordered_insert]
  | cons e es ih =>
    intro hU hs
    have hUe : U e := hU e (List.mem_cons_self _ _)
    have hUes : ∀ a ∈ es, U a := fun a ha => hU a (List.mem_cons_of_mem _ ha)
    rw [List.pairwise_cons] at hs
    unfold ordered_insert
    split_ifs with h1 h2
    · rw [List.pairwise_cons]
      refine ⟨?_, List.pairwise_cons.2 hs⟩
      intro a ha
      rcases List.mem_cons.1 ha with rfl | ha
      · exact h1
      · exact htrans x e a hx hUe (hUes a ha) h1 (hs.1 a ha)
    · rw [List.pairwise_cons]
      refine ⟨?_, ih hUes hs.2⟩
      intro a ha
      rcases mem_ordered_insert less key x es a ha with h | rfl
      · exact hs.1 a h
      · exact h2
    · exact List.pairwise_cons.2 hs

theorem ordered_insert_perm (less : Val → Val → Bool) (key : Val → Val) (x : Val) :
    ∀ out : List Val,
      (∀ a ∈ out, ¬ (less (key a) (key x) = false ∧ less (key x) (key a) = false)) →
      (ordered_insert less key out x).Perm (x :: out) := by
  intro out
  induction out with
  | nil => intro _; simp [ordered_insert]
  | cons e es ih =>
    intro h
    unfold ordered_insert
    split_ifs with h1 h2
    · exact List.Perm.refl _
    · exact ((ih (fun a ha => h a (List.mem_cons_of_mem _ ha))).cons e).trans (List.Perm.swap _ _ _)
    · exact absurd ⟨by simpa using h2, by simpa using h1⟩ (h e (List.mem_cons_self _ _))

theorem ordered_insert_present (less : Val → Val → Bool) (key : Val → Val) (U : Val → Prop)
    (htrans : ∀ a b c, U a → U b → U c → less (key a) (key b) = true →
      less (key b) (key c) = true → less (key a) (key c) = true) (x : Val) (hx : U x) :
    ∀ out : List Val, (∀ a ∈ out, U a) →
      out.Pairwise (fun a b => less (key a) (key b) = true) →
      (∃ a ∈ out, less (key a) (key x) = false ∧ less (key x) (key a) = false) →
      ordered_insert less key out x = out := by
  intro out
  induction out with
  | nil => intro _ _ h; simp at h
  | cons e es ih =>
    intro hU hs hex
    have hUe : U e := hU e (List.mem_cons_self _ _)
    have hUes : ∀ a ∈ es, U a := fun a ha => hU a (List.mem_cons_of_mem _ ha)
    rw [List.pairwise_cons] at hs
    obtain ⟨a, ha, hax, hxa⟩ := hex
    unfold ordered_insert
    split_ifs with h1 h2
    · exfalso
      rcases List.mem_cons.1 ha with rfl | ha
      · rw [h1] at hxa; cases hxa
      · have := htrans x e a hx hUe (hUes a ha) h1 (hs.1 a ha)
        rw [this] at hxa; cases hxa
    · rcases List.mem_cons.1 ha with rfl | ha
      · rw [h2] at hax; cases hax
      · rw [ih hUes hs.2 ⟨a, ha, hax, hxa⟩]
    · rfl

/-- Inserting into an ordered container an entry above all entries already
there puts it last. -/
theorem ordered_insert_last (less : Val → Val → Bool) (key : Val → Val) (x : Val) :
    ∀ out : List Val,
      (∀ a ∈ out, less (key a) (key x) = true ∧ less (key x) (key a) = false) →
      ordered_insert less key out x = out ++ [x] := by
  intro out
  induction out with
  | nil => intro _; rfl
  | cons e es ih =>
    intro h
    obtain ⟨h1, h2⟩ := h e (List.mem_cons_self _ _)
    unfold ordered_insert
    rw [if_neg (by simp [h2]), if_pos h1, ih (fun a ha => h a (List.mem_cons_of_mem _ ha))]
    rfl

/-- Decoding the entries of an ordered container in ascending key order
rebuilds the same sequence. -/
theorem foldl_ordered_insert_sorted (less : Val → Val → Bool) (key : Val → Val)
    (items : List Val)
    (hasym : ∀ a ∈ items, ∀ b ∈ items, less (key a) (key b) = true → less (key b) (key a) = false)
    (hs : items.Pairwise (fun a b => less (key a) (key b) = true)) :
    items.foldl (ordered_insert less key) [] = items := by
  induction items using List.reverseRecOn with
  | nil => rfl
  | append_singleton xs x ih =>
    rw [List.pairwise_append] at hs
    rw [List.foldl_append, List.foldl_cons, List.foldl_nil,
      ih (fun a ha b hb => hasym a (by simp [ha]) b (by simp [hb])) hs.1]
    apply ordered_insert_last
    intro a ha
    have h := hs.2.2 a ha x (by simp)
    exact ⟨h, hasym a (by simp [ha]) x (by simp) h⟩

theorem unordered_insert_absent (equal : Val → Val → Bool)
    (place : List Val → Val → List Val) (key : Val → Val) (out : List Val) (x : Val)
    (h : ∀ a ∈ out, equal (key a) (key x) = false) :
    unordered_insert equal place key out x = place out x := by
  unfold unordered_insert
  rw [if_neg]
  simp only [List.any_eq_true, not_exists, not_and, Bool.not_eq_true]
  exact h

theorem unordered_insert_present (equal : Val → Val → Bool)
    (place : List Val → Val → List Val) (key : Val → Val) (out : List Val) (x : Val)
    (h : ∃ a ∈ out, equal (key a) (key x) = true) :
    unordered_insert equal place key out x = out := by
  unfold unordered_insert
  rw [if_pos]
  simp only [List.any_eq_true]
  exact h

/-- Decoding the entries of an unordered container with distinct keys rebuilds
a container with the same entries. -/
theorem foldl_unordered_insert_distinct (equal : Val → Val → Bool)
    (place : List Val → Val → List Val) (key : Val → Val)
    (hplace : ∀ out item, (place out item).Perm (item :: out))
    (items : List Val)
    (hd : items.Pairwise (fun a b => equal (key a) (key b) = false)) :
    (items.foldl (unordered_insert equal place key) []).Perm items := by
  induction items using List.reverseRecOn with
  | nil => exact List.Perm.refl _
  | append_singleton xs x ih =>
    rw [List.pairwise_append] at hd
    have hp := ih hd.1
    rw [List.foldl_append, List.foldl_cons, List.foldl_nil,
      unordered_insert_absent equal place key _ x
        (fun a ha => hd.2.2 a (hp.mem_iff.1 ha) x (by simp))]
    exact (hplace _ x).trans (((hp.cons x).trans (List.perm_append_singleton x xs).symm))

/-- What `from_bytes` of `std::map` builds from any sequence of decoded entries:
the first entry of each key, in ascending key order. -/
theorem foldl_ordered_insert_first (less : Val → Val → Bool) (items : List Val)
    (hlt : ∀ a ∈ items, ∀ b ∈ items, ∀ c ∈ items, less a.key b.key = true →
      less b.key c.key = true → less a.key c.key = true)
    (hli : ∀ a ∈ items, ∀ b ∈ items, ∀ c ∈ items, key_equiv less a b →
      key_equiv less b c → key_equiv less a c) :
    (items.foldl (ordered_insert less Val.key) []).Pairwise
      (fun a b => less a.key b.key = true) ∧
    (∀ e, e ∈ items.foldl (ordered_insert less Val.key) [] ↔
      FirstOccurrence (key_equiv less) items e) ∧
    (∀ a ∈ items, ∃ e ∈ items.foldl (ordered_insert less Val.key) [],
      e = a ∨ key_equiv less e a) ∧
    (items.foldl (ordered_insert less Val.key) []).length ≤ items.length ∧
    (¬ items.Pairwise (fun a b => ¬ key_equiv less a b) →
      (items.foldl (ordered_insert less Val.key) []).length < items.length) := by
  have ht : ∀ a b c, a ∈ items → b ∈ items → c ∈ items → less (Val.key a) (Val.key b) = true →
      less (Val.key b) (Val.key c) = true → less (Val.key a) (Val.key c) = true :=
    fun a b c ha hb hc => hlt a ha b hb c hc
  exact foldl_insert_spec (fun a => a ∈ items) (key_equiv less)
    (fun out => out.Pairwise (fun a b => less a.key b.key = true))
    (ordered_insert less Val.key)
    (fun a b c ha hb hc => hli a ha b hb c hc)
    List.Pairwise.nil
    (fun out x hU hx hs => ordered_insert_sorted less Val.key _ ht x hx out hU hs)
    (fun out x _ _ _ h => ordered_insert_perm less Val.key x out h)
    (fun out x hU hx hs h => ordered_insert_present less Val.key _ ht x hx out hU hs h)
    items (fun _ h => h)

/-- What `from_bytes` of `std::unordered_map` builds from any sequence of
decoded entries: the first entry of each key. -/
theorem foldl_unordered_insert_first (equal : Val → Val → Bool)
    (place : List Val → Val → List Val)
    (hplace : ∀ out item, (place out item).Perm (item :: out)) (items : List Val)
    (het : ∀ a ∈ items, ∀ b ∈ items, ∀ c ∈ items, equal a.key b.key = true →
      equal b.key c.key = true → equal a.key c.key = true) :
    (∀ e, e ∈ items.foldl (unordered_insert equal place Val.key) [] ↔
      FirstOccurrence (fun a b => equal a.key b.key = true) items e) ∧
    (∀ a ∈ items, ∃ e ∈ items.foldl (unordered_insert equal place Val.key) [],
      e = a ∨ equal e.key a.key = true) ∧
    (items.foldl (unordered_insert equal place Val.key) []).length ≤ items.length ∧
    (¬ items.Pairwise (fun a b => ¬ equal a.key b.key = true) →
      (items.foldl (unordered_insert equal place Val.key) []).length < items.length) :=
  (foldl_insert_spec (fun a => a ∈ items) (fun a b => equal a.key b.key = true)
    (fun _ => True) (unordered_insert equal place Val.key)
    (fun a b c ha hb hc => het a ha b hb c hc)
    trivial
    (fun _ _ _ _ _ => trivial)
    (fun out x _ _ _ h => by
      rw [unordered_insert_absent equal place Val.key out x (fun a ha => by simpa using h a ha)]
      exact hplace out x)
    (fun out x _ _ _ h => unordered_insert_present equal place Val.key out x h)
    items (fun _ h => h)).2


theorem save_container_eq (items : List Val)
    (h : ∀ x ∈ items, x.wf = true ∧ x.no_empty_bits = true) :
    save_container items = .ok (size_repr items.length ++ (items.map wire_value).flatten) ∧
      (size_repr items.length ++ (items.map wire_value).flatten).length =
        container_size items := by
  have hw := serialize_container_spec serialize serialized_size wire_value items
    (fun x hx => serialize_writes x (h x hx).1 (h x hx).2)
  obtain ⟨out, ho, hs, hz⟩ :=
    hw (List.replicate (8 + (items.map serialized_size).sum) 0) [] (by simp)
  have := hz (fun b hb => (List.mem_replicate.mp hb).2)
  subst this
  simp only [List.append_nil] at hs
  constructor
  · simp only [save_container, container_size, container_to_bytes,
      serialized_container_size_eq, hs]
  · rw [ho, container_size, serialized_container_size_eq]

theorem decode_entries (E : Ty) (items : List Val) (hn : items.length < SIZE_MOD)
    (h : ∀ x ∈ items, has_type x E = true ∧ x.wf = true) (rest : List Nat) :
    deserialize_container (deserialize E)
        (size_repr items.length ++ ((items.map wire_value).flatten ++ rest)) =
      .ok (items, rest) :=
  deserialize_container_spec (deserialize E) wire_value items hn
    (fun x hx rest => deserialize_wire x E (h x hx).1 (h x hx).2 rest) rest

/-- C12: maps and sets round trip.  An ordered container is the sequence of
its entries in ascending key order, an unordered one the sequence of its
entries, with distinct keys, in iteration order; the entries are values that
`save` encodes.  `save` of the container is the count and then the entries in
that order, so for `std::map` and `std::set` the encoded entries are in
ascending key order; `load` of these bytes is the same ordered container, and
for an unordered container one with the same entries; the decoded element
count is the original count. -/
theorem map_set_round_trip (less equal : Val → Val → Bool)
    (place : List Val → Val → List Val) (K V T : Ty) (m s um us : List Val)
    (hplace : ∀ out item, (place out item).Perm (item :: out))
    (hm : m.length < SIZE_MOD ∧
      ∀ e ∈ m, has_type e (.pair K V) = true ∧ e.wf = true ∧ e.no_empty_bits = true)
    (hmo : m.Pairwise (fun a b => less a.key b.key = true))
    (hma : ∀ a ∈ m, ∀ b ∈ m, less a.key b.key = true → less b.key a.key = false)
    (hs : s.length < SIZE_MOD ∧
      ∀ e ∈ s, has_type e T = true ∧ e.wf = true ∧ e.no_empty_bits = true)
    (hso : s.Pairwise (fun a b => less a b = true))
    (hsa : ∀ a ∈ s, ∀ b ∈ s, less a b = true → less b a = false)
    (hum : um.length < SIZE_MOD ∧
      ∀ e ∈ um, has_type e (.pair K V) = true ∧ e.wf = true ∧ e.no_empty_bits = true)
    (humd : um.Pairwise (fun a b => equal a.key b.key = false))
    (hus : us.length < SIZE_MOD ∧
      ∀ e ∈ us, has_type e T = true ∧ e.wf = true ∧ e.no_empty_bits = true)
    (husd : us.Pairwise (fun a b => equal a b = false)) :
    (∃ bytes, save_container m = .ok bytes ∧ bytes.length = container_size m ∧
      (∃ entries, deserialize_container (deserialize (.pair K V)) bytes = .ok (entries, []) ∧
        entries.Pairwise (fun a b => less a.key b.key = true)) ∧
      (∀ rest, map_from_bytes less K V (bytes ++ rest) = .ok (m, rest)) ∧
      ∃ out, load_bytes (map_from_bytes less K V) bytes = .ok out ∧
        out = m ∧ out.length = m.length) ∧
    (∃ bytes, save_container s = .ok bytes ∧ bytes.length = container_size s ∧
      (∃ entries, deserialize_container (deserialize T) bytes = .ok (entries, []) ∧
        entries.Pairwise (fun a b => less a b = true)) ∧
      (∀ rest, set_from_bytes less T (bytes ++ rest) = .ok (s, rest)) ∧
      ∃ out, load_bytes (set_from_bytes less T) bytes = .ok out ∧
        out = s ∧ out.length = s.length) ∧
    (∃ bytes, save_container um = .ok bytes ∧ bytes.length = container_size um ∧
      ∃ out, load_bytes (unordered_map_from_bytes equal place K V) bytes = .ok out ∧
        out.Perm um ∧ out.length = um.length) ∧
    (∃ bytes, save_container us = .ok bytes ∧ bytes.length = container_size us ∧
      ∃ out, load_bytes (unordered_set_from_bytes equal place T) bytes = .ok out ∧
        out.Perm us ∧ out.length = us.length) := by
  have hm1 := save_container_eq m (fun x hx => (hm.2 x hx).2)
  have hm2 := decode_entries (.pair K V) m hm.1 (fun x hx => ⟨(hm.2 x hx).1, (hm.2 x hx).2.1⟩)
  have hm3 := foldl_ordered_insert_sorted less Val.key m hma hmo
  have hs1 := save_container_eq s (fun x hx => (hs.2 x hx).2)
  have hs2 := decode_entries T s hs.1 (fun x hx => ⟨(hs.2 x hx).1, (hs.2 x hx).2.1⟩)
  have hs3 := foldl_ordered_insert_sorted less id s hsa hso
  have hu1 := save_container_eq um (fun x hx => (hum.2 x hx).2)
  have hu2 := decode_entries (.pair K V) um hum.1
    (fun x hx => ⟨(hum.2 x hx).1, (hum.2 x hx).2.1⟩) []
  have hu3 := foldl_unordered_insert_distinct equal place Val.key hplace um humd
  have hv1 := save_container_eq us (fun x hx => (hus.2 x hx).2)
  have hv2 := decode_entries T us hus.1 (fun x hx => ⟨(hus.2 x hx).1, (hus.2 x hx).2.1⟩) []
  have hv3 := foldl_unordered_insert_distinct equal place id hplace us husd
  simp only [List.append_nil] at hu2 hv2
  refine ⟨⟨_, hm1.1, hm1.2, ⟨m, by simpa using hm2 [], hmo⟩, ?_, m, ?_, rfl, rfl⟩,
    ⟨_, hs1.1, hs1.2, ⟨s, by simpa using hs2 [], hso⟩, ?_, s, ?_, rfl, rfl⟩,
    ⟨_, hu1.1, hu1.2, _, ?_, hu3, hu3.length_eq⟩,
    ⟨_, hv1.1, hv1.2, _, ?_, hv3, hv3.length_eq⟩⟩
  · intro rest
    simp only [map_from_bytes, List.append_assoc, hm2 rest, hm3]
  · have := hm2 []
    simp only [List.append_nil] at this
    simp only [load_bytes, map_from_bytes, this, hm3]
  · intro rest
    simp only [set_from_bytes, List.append_assoc, hs2 rest, hs3]
  · have := hs2 []
    simp only [List.append_nil] at this
    simp only [load_bytes, set_from_bytes, this, hs3]
  · simp only [load_bytes, unordered_map_from_bytes, hu2]
  · simp only [load_bytes, unordered_set_from_bytes, hv2]


theorem map_set_round_trip_witness :
    save_container [.pair (.int 1) (.string [97, 98, 99]), .pair (.int 2) (.string [100, 101, 102])] =
      .ok [2, 0, 0, 0, 0, 0, 0, 0, 1, 0, 0, 0, 3, 0, 0, 0, 0, 0, 0, 0, 97, 98, 99,
        2, 0, 0, 0, 3, 0, 0, 0, 0, 0, 0, 0, 100, 101, 102] ∧
    load_bytes (map_from_bytes key_less .int .string)
        [2, 0, 0, 0, 0, 0, 0, 0, 1, 0, 0, 0, 3, 0, 0, 0, 0, 0, 0, 0, 97, 98, 99,
        2, 0, 0, 0, 3, 0, 0, 0, 0, 0, 0, 0, 100, 101, 102] =
      .ok [.pair (.int 1) (.string [97, 98, 99]), .pair (.int 2) (.string [100, 101, 102])] ∧
    load_bytes (unordered_set_from_bytes key_equal place_front .string)
        [2, 0, 0, 0, 0, 0, 0, 0, 3, 0, 0, 0, 0, 0, 0, 0, 100, 101, 102,
          3, 0, 0, 0, 0, 0, 0, 0, 97, 98, 99] =
      .ok [.string [97, 98, 99], .string [100, 101, 102]] ∧
    (∃ bytes, save_container [.pair (.int 1) (.string [97, 98, 99]), .pair (.int 2) (.string [100, 101, 102])] = .ok bytes ∧
      bytes.length = container_size [.pair (.int 1) (.string [97, 98, 99]), .pair (.int 2) (.string [100, 101, 102])] ∧
      (∃ entries, deserialize_container (deserialize (.pair .int .string)) bytes =
          .ok (entries, []) ∧
        entries.Pairwise (fun a b => key_less a.key b.key = true)) ∧
      (∀ rest, map_from_bytes key_less .int .string (bytes ++ rest) =
        .ok ([.pair (.int 1) (.string [97, 98, 99]), .pair (.int 2) (.string [100, 101, 102])], rest)) ∧
      ∃ out, load_bytes (map_from_bytes key_less .int .string) bytes = .ok out ∧
        out = [.pair (.int 1) (.string [97, 98, 99]), .pair (.int 2) (.string [100, 101, 102])] ∧
        out.length = ([.pair (.int 1) (.string [97, 98, 99]), .pair (.int 2) (.string [100, 101, 102])] : List Val).length) ∧
    (∃ bytes, save_container [.string [97, 98, 99], .string [100, 101, 102]] = .ok bytes ∧
      bytes.length = container_size [.string [97, 98, 99], .string [100, 101, 102]] ∧
      (∃ entries, deserialize_container (deserialize .string) bytes = .ok (entries, []) ∧
        entries.Pairwise (fun a b => key_less a b = true)) ∧
      (∀ rest, set_from_bytes key_less .string (bytes ++ rest) =
        .ok ([.string [97, 98, 99], .string [100, 101, 102]], rest)) ∧
      ∃ out, load_bytes (set_from_bytes key_less .string) bytes = .ok out ∧
        out = [.string [97, 98, 99], .string [100, 101, 102]] ∧
        out.length = ([.string [97, 98, 99], .string [100, 101, 102]] : List Val).length) ∧
    (∃ bytes, save_container [.pair (.int 2) (.string [100, 101, 102]), .pair (.int 1) (.string [97, 98, 99])] = .ok bytes ∧
      bytes.length = container_size [.pair (.int 2) (.string [100, 101, 102]), .pair (.int 1) (.string [97, 98, 99])] ∧
      ∃ out, load_bytes (unordered_map_from_bytes key_equal place_front .int .string) bytes =
          .ok out ∧
        out.Perm [.pair (.int 2) (.string [100, 101, 102]), .pair (.int 1) (.string [97, 98, 99])] ∧
        out.length = ([.pair (.int 2) (.string [100, 101, 102]), .pair (.int 1) (.string [97, 98, 99])] : List Val).length) ∧
    (∃ bytes, save_container [.string [100, 101, 102], .string [97, 98, 99]] = .ok bytes ∧
      bytes.length = container_size [.string [100, 101, 102], .string [97, 98, 99]] ∧
      ∃ out, load_bytes (unordered_set_from_bytes key_equal place_front .string) bytes =
          .ok out ∧
        out.Perm [.string [100, 101, 102], .string [97, 98, 99]] ∧
        out.length = ([.string [100, 101, 102], .string [97, 98, 99]] : List Val).length) :=
  ⟨rfl, rfl, rfl,
    map_set_round_trip key_less key_equal place_front .int .string .string
      [.pair (.int 1) (.string [97, 98, 99]), .pair (.int 2) (.string [100, 101, 102])]
      [.string [97, 98, 99], .string [100, 101, 102]]
      [.pair (.int 2) (.string [100, 101, 102]), .pair (.int 1) (.string [97, 98, 99])]
      [.string [100, 101, 102], .string [97, 98, 99]]
      (fun _ _ => List.Perm.refl _)
      ⟨by decide, by decide⟩ (by decide) (by decide)
      ⟨by decide, by decide⟩ (by decide) (by decide)
      ⟨by decide, by decide⟩ (by decide)
      ⟨by decide, by decide⟩ (by decide)⟩

/-- C18: duplicate keys on the wire.  From a count `n` followed by the wire
values of any `n` key/value pairs, `from_bytes` of `std::map` and of
`std::unordered_map` returns with the cursor past all `n` pairs.  The decoded
map holds exactly the pairs that are the first occurrence of their key (a
later pair with a key already seen is dropped, so the value of the first
occurrence stays), every key read is represented, a `std::map` holds them in
ascending key order, and when some key occurs more than once the map has
fewer than `n` entries.  `less` is a strict weak ordering and `equal` an
equivalence on the keys read. -/
theorem duplicate_keys_first_wins (less equal : Val → Val → Bool)
    (place : List Val → Val → List Val) (K V : Ty) (items : List Val) (rest : List Nat)
    (hplace : ∀ out item, (place out item).Perm (item :: out))
    (hn : items.length < SIZE_MOD)
    (hi : ∀ e ∈ items, has_type e (.pair K V) = true ∧ e.wf = true)
    (hlt : ∀ a ∈ items, ∀ b ∈ items, ∀ c ∈ items, less a.key b.key = true →
      less b.key c.key = true → less a.key c.key = true)
    (hli : ∀ a ∈ items, ∀ b ∈ items, ∀ c ∈ items, key_equiv less a b →
      key_equiv less b c → key_equiv less a c)
    (het : ∀ a ∈ items, ∀ b ∈ items, ∀ c ∈ items, equal a.key b.key = true →
      equal b.key c.key = true → equal a.key c.key = true) :
    (∃ out, map_from_bytes less K V
          (size_repr items.length ++ ((items.map wire_value).flatten ++ rest)) =
        .ok (out, rest) ∧
      out.Pairwise (fun a b => less a.key b.key = true) ∧
      (∀ e, e ∈ out ↔ FirstOccurrence (key_equiv less) items e) ∧
      (∀ a ∈ items, ∃ e ∈ out, e = a ∨ key_equiv less e a) ∧
      out.length ≤ items.length ∧
      (¬ items.Pairwise (fun a b => ¬ key_equiv less a b) → out.length < items.length)) ∧
    (∃ out, unordered_map_from_bytes equal place K V
          (size_repr items.length ++ ((items.map wire_value).flatten ++ rest)) =
        .ok (out, rest) ∧
      (∀ e, e ∈ out ↔ FirstOccurrence (fun a b => equal a.key b.key = true) items e) ∧
      (∀ a ∈ items, ∃ e ∈ out, e = a ∨ equal e.key a.key = true) ∧
      out.length ≤ items.length ∧
      (¬ items.Pairwise (fun a b => ¬ equal a.key b.key = true) →
        out.length < items.length)) := by
  have hd := decode_entries (.pair K V) items hn hi rest
  refine ⟨⟨_, ?_, foldl_ordered_insert_first less items hlt hli⟩,
    ⟨_, ?_, foldl_unordered_insert_first equal place hplace items het⟩⟩
  · simp only [map_from_bytes, hd]
  · simp only [unordered_map_from_bytes, hd]


theorem duplicate_keys_first_wins_witness :
    map_from_bytes key_less .int .string
        [3, 0, 0, 0, 0, 0, 0, 0, 1, 0, 0, 0, 3, 0, 0, 0, 0, 0, 0, 0, 97, 98, 99,
        2, 0, 0, 0, 3, 0, 0, 0, 0, 0, 0, 0, 100, 101, 102,
        1, 0, 0, 0, 3, 0, 0, 0, 0, 0, 0, 0, 120, 121, 122, 7] =
      .ok ([.pair (.int 1) (.string [97, 98, 99]), .pair (.int 2) (.string [100, 101, 102])],
        [7]) ∧
    unordered_map_from_bytes key_equal place_front .int .string
        [3, 0, 0, 0, 0, 0, 0, 0, 1, 0, 0, 0, 3, 0, 0, 0, 0, 0, 0, 0, 97, 98, 99,
        2, 0, 0, 0, 3, 0, 0, 0, 0, 0, 0, 0, 100, 101, 102,
        1, 0, 0, 0, 3, 0, 0, 0, 0, 0, 0, 0, 120, 121, 122, 7] =
      .ok ([.pair (.int 2) (.string [100, 101, 102]), .pair (.int 1) (.string [97, 98, 99])],
        [7]) ∧
    ¬ List.Pairwise (fun a b => ¬ key_equiv key_less a b)
      [.pair (.int 1) (.string [97, 98, 99]), .pair (.int 2) (.string [100, 101, 102]),
        .pair (.int 1) (.string [120, 121, 122])] ∧
    (∃ out, map_from_bytes key_less .int .string
          (size_repr (([.pair (.int 1) (.string [97, 98, 99]), .pair (.int 2) (.string [100, 101, 102]),
        .pair (.int 1) (.string [120, 121, 122])] : List Val).length) ++
          ((List.map wire_value [.pair (.int 1) (.string [97, 98, 99]), .pair (.int 2) (.string [100, 101, 102]),
        .pair (.int 1) (.string [120, 121, 122])]).flatten ++ [7])) = .ok (out, [7]) ∧
      out.Pairwise (fun a b => key_less a.key b.key = true) ∧
      (∀ e, e ∈ out ↔ FirstOccurrence (key_equiv key_less)
        [.pair (.int 1) (.string [97, 98, 99]), .pair (.int 2) (.string [100, 101, 102]),
        .pair (.int 1) (.string [120, 121, 122])] e) ∧
      (∀ a ∈ ([.pair (.int 1) (.string [97, 98, 99]), .pair (.int 2) (.string [100, 101, 102]),
        .pair (.int 1) (.string [120, 121, 122])] : List Val), ∃ e ∈ out, e = a ∨ key_equiv key_less e a) ∧
      out.length ≤ ([.pair (.int 1) (.string [97, 98, 99]), .pair (.int 2) (.string [100, 101, 102]),
        .pair (.int 1) (.string [120, 121, 122])] : List Val).length ∧
      (¬ List.Pairwise (fun a b => ¬ key_equiv key_less a b)
          [.pair (.int 1) (.string [97, 98, 99]), .pair (.int 2) (.string [100, 101, 102]),
        .pair (.int 1) (.string [120, 121, 122])] →
        out.length < ([.pair (.int 1) (.string [97, 98, 99]), .pair (.int 2) (.string [100, 101, 102]),
        .pair (.int 1) (.string [120, 121, 122])] : List Val).length)) ∧
    (∃ out, unordered_map_from_bytes key_equal place_front .int .string
          (size_repr (([.pair (.int 1) (.string [97, 98, 99]), .pair (.int 2) (.string [100, 101, 102]),
        .pair (.int 1) (.string [120, 121, 122])] : List Val).length) ++
          ((List.map wire_value [.pair (.int 1) (.string [97, 98, 99]), .pair (.int 2) (.string [100, 101, 102]),
        .pair (.int 1) (.string [120, 121, 122])]).flatten ++ [7])) = .ok (out, [7]) ∧
      (∀ e, e ∈ out ↔ FirstOccurrence (fun a b => key_equal a.key b.key = true)
        [.pair (.int 1) (.string [97, 98, 99]), .pair (.int 2) (.string [100, 101, 102]),
        .pair (.int 1) (.string [120, 121, 122])] e) ∧
      (∀ a ∈ ([.pair (.int 1) (.string [97, 98, 99]), .pair (.int 2) (.string [100, 101, 102]),
        .pair (.int 1) (.string [120, 121, 122])] : List Val), ∃ e ∈ out, e = a ∨ key_equal e.key a.key = true) ∧
      out.length ≤ ([.pair (.int 1) (.string [97, 98, 99]), .pair (.int 2) (.string [100, 101, 102]),
        .pair (.int 1) (.string [120, 121, 122])] : List Val).length ∧
      (¬ List.Pairwise (fun a b : Val => ¬ key_equal a.key b.key = true)
          [.pair (.int 1) (.string [97, 98, 99]), .pair (.int 2) (.string [100, 101, 102]),
        .pair (.int 1) (.string [120, 121, 122])] →
        out.length < ([.pair (.int 1) (.string [97, 98, 99]), .pair (.int 2) (.string [100, 101, 102]),
        .pair (.int 1) (.string [120, 121, 122])] : List Val).length)) :=
  ⟨rfl, rfl, by simp [key_equiv, key_less, Val.key],
    duplicate_keys_first_wins key_less key_equal place_front .int .string
      [.pair (.int 1) (.string [97, 98, 99]), .pair (.int 2) (.string [100, 101, 102]),
        .pair (.int 1) (.string [120, 121, 122])] [7]
      (fun _ _ => List.Perm.refl _) (by decide) (by decide) (by decide)
      (by simp [key_equiv, key_less, Val.key]) (by decide)⟩

end sss
